import Mathlib

/-!
Verification model of the justsync synchronization engine
(`justsync/syncroot.py` and `justsync/synchronizer.py`).

Modelling conventions, chosen once for the whole development:

* A relative POSIX path is represented by its list of components
  (`Path := List String`); the string `"foo/bar"` is `["foo", "bar"]`.
  `os.path.dirname` is `List.dropLast`, `os.path.split` splits off the
  last component, and the length in characters of the rendered string is
  `pathStrLen` (component lengths plus one separator between components).
* One root owns one filesystem tree, modelled as an association list
  from relative path to entry (`Fs`).  Symbolic links store their target
  string; targets are treated as opaque (pointing outside the tree), so
  the link-following predicates `os.path.exists` / `isfile` / `isdir`
  are false on them, while `os.stat(..., follow_symlinks=False)` sees them.
* The content-hashing primitive (`hashlib.md5` in the source) is external
  to the core per the specification; it is modelled by the identity
  function on the hashed string (an injective digest).
* Filesystem timestamps are produced from a per-root logical clock that
  advances on every mutating operation.
* Python exceptions are modelled with `Except PyErr`; every stateful
  operation returns its (possibly partially) mutated state together with
  the list of log events it emitted and the exception outcome, because a
  Python exception leaves the mutations made so far in place.
-/

namespace JustSync

/-! ## Association-list helpers (Python dict, insertion ordered) -/

def alGet {κ β : Type} [DecidableEq κ] : List (κ × β) → κ → Option β
  | [], _ => none
  | (q, v) :: rest, p => if q = p then some v else alGet rest p

def alSet {κ β : Type} [DecidableEq κ] : List (κ × β) → κ → β → List (κ × β)
  | [], p, v => [(p, v)]
  | (q, w) :: rest, p, v => if q = p then (q, v) :: rest else (q, w) :: alSet rest p v

def alErase {κ β : Type} [DecidableEq κ] : List (κ × β) → κ → List (κ × β)
  | [], _ => []
  | (q, w) :: rest, p => if q = p then rest else (q, w) :: alErase rest p

/-! ## StatResult (`syncroot.py`, class `StatResult`) -/

def S_IFMT : Nat := 0o170000
def S_IFREG : Nat := 0o100000
def S_IFDIR : Nat := 0o040000
def S_IFLNK : Nat := 0o120000

/-- The stat fields retained by `StatResult.STAT_FIELDS`. -/
structure StatResult where
  st_mode : Nat
  st_size : Nat
  st_atime_ns : Int
  st_mtime_ns : Int
  st_ctime_ns : Int
deriving DecidableEq, Repr

/-- Property `StatResult.updated_time`: the status-change time. -/
def StatResult.updated_time (s : StatResult) : Int := s.st_ctime_ns

inductive FileType
  | regular
  | dir
  | link
deriving DecidableEq, Repr

/-- Property `StatResult.type`, decided from the mode bits with
`stat.S_ISREG` / `S_ISDIR` / `S_ISLNK`; `none` for any other kind. -/
def StatResult.type (s : StatResult) : Option FileType :=
  if s.st_mode &&& S_IFMT = S_IFREG then some .regular
  else if s.st_mode &&& S_IFMT = S_IFDIR then some .dir
  else if s.st_mode &&& S_IFMT = S_IFLNK then some .link
  else none

def StatResult.is_regular (s : StatResult) : Bool := s.type = some .regular

def StatResult.is_dir (s : StatResult) : Bool := s.type = some .dir

def StatResult.is_link (s : StatResult) : Bool := s.type = some .link

/-! ## Filesystem model for one root

A relative path is its component list.  The tree is an association list
path to entry.  The empty path stands for the root directory itself. -/

abbrev Path := List String

inductive FsNode
  | file (content : String)
  | dir
  | symlink (target : String)
deriving DecidableEq, Repr

structure FsEntry where
  node : FsNode
  perm : Nat
  mtime_ns : Int
  atime_ns : Int
  ctime_ns : Int
deriving DecidableEq, Repr

abbrev Fs := List (Path × FsEntry)

/-- The mode an `os.stat` call reports for an entry. -/
def FsEntry.mode (e : FsEntry) : Nat :=
  match e.node with
  | .file _ => S_IFREG ||| e.perm
  | .dir => S_IFDIR ||| e.perm
  | .symlink _ => S_IFLNK ||| 0o777

def FsEntry.size (e : FsEntry) : Nat :=
  match e.node with
  | .file c => c.length
  | .dir => 0
  | .symlink t => t.length

def FsEntry.toStat (e : FsEntry) : StatResult :=
  { st_mode := e.mode
    st_size := e.size
    st_atime_ns := e.atime_ns
    st_mtime_ns := e.mtime_ns
    st_ctime_ns := e.ctime_ns }

/-- A freshly created directory entry (mode 0o755, all times = clock). -/
def mkDirEntry (clock : Int) : FsEntry :=
  { node := .dir, perm := 0o755, mtime_ns := clock, atime_ns := clock, ctime_ns := clock }

/-! Link-following predicates.  Symlink targets are opaque strings that
point outside the modelled tree, so the following predicates treat every
symlink as dangling.  The root directory (empty path) always exists. -/

def FsNode.isFileNode : FsNode → Bool
  | .file _ => true
  | _ => false

def FsNode.isDirNode : FsNode → Bool
  | .dir => true
  | _ => false

def FsNode.isLinkNode : FsNode → Bool
  | .symlink _ => true
  | _ => false

def osExists (fs : Fs) (p : Path) : Bool :=
  if p = [] then true
  else match alGet fs p with
    | some e => e.node.isFileNode || e.node.isDirNode
    | none => false

def osIsfile (fs : Fs) (p : Path) : Bool :=
  match alGet fs p with
  | some e => e.node.isFileNode
  | none => false

def osIsdir (fs : Fs) (p : Path) : Bool :=
  if p = [] then true
  else match alGet fs p with
    | some e => e.node.isDirNode
    | none => false

def osIslink (fs : Fs) (p : Path) : Bool :=
  match alGet fs p with
  | some e => e.node.isLinkNode
  | none => false

/-! ## Python exceptions and log events -/

inductive PyErr
  | keyError
  | fileNotFoundError
  | notADirectoryError
  | isADirectoryError
  | dirNotEmptyError
  | fileExistsError
  | assertionError
  | jsonDecodeError
  | notImplementedError
  | valueError
  | indexError
  | typeError
  | fuelExhausted
deriving DecidableEq, Repr

inductive Action
  | created
  | updated
  | deleted
deriving DecidableEq, Repr

inductive PerformKind
  | create
  | update
  | delete
deriving DecidableEq, Repr

/-- Log lines emitted by the engine (`logger.debug` in
`inspect_path_for_changes` and `_perform_action`, `logger.warning` in
`Synchronizer.sync`), keyed by the owning root's absolute path. -/
inductive Event
  | performed (root : List String) (k : PerformKind) (p : Path)
  | detected (root : List String) (a : Action) (p : Path)
  | warned (p : Path)
deriving DecidableEq, Repr

/-- The uncaught result of `os.remove`. -/
def osRemove (fs : Fs) (p : Path) : Except PyErr Fs :=
  match alGet fs p with
  | none => .error .fileNotFoundError
  | some e =>
    match e.node with
    | .dir => .error .isADirectoryError
    | _ => .ok (alErase fs p)

/-- True when some entry lies strictly below `p`. -/
def hasChild (fs : Fs) (p : Path) : Bool :=
  fs.any fun q => p ≠ q.1 && p.isPrefixOf q.1

/-- The uncaught result of `os.rmdir`: the directory must exist and be empty. -/
def osRmdir (fs : Fs) (p : Path) : Except PyErr Fs :=
  match alGet fs p with
  | none => .error .fileNotFoundError
  | some e =>
    match e.node with
    | .dir => if hasChild fs p then .error .dirNotEmptyError else .ok (alErase fs p)
    | _ => .error .notADirectoryError

/-- The recursive `os.makedirs`: create every missing component from the
shallowest down.  A component already present as a non-directory raises
(`FileExistsError` at the leaf, `NotADirectoryError` below it); a leaf
already present as a directory raises `FileExistsError` unless
`exist_ok`. -/
def osMakedirsGo (clock : Int) (fs : Fs) (pre : Path) (rest : List String)
    (exist_ok : Bool) : Except PyErr Fs :=
  match rest with
  | [] => .ok fs
  | c :: rest =>
    let q := pre ++ [c]
    match alGet fs q with
    | some e =>
      match e.node with
      | .dir =>
        if rest = [] && !exist_ok then .error .fileExistsError
        else osMakedirsGo clock fs q rest exist_ok
      | _ =>
        if rest = [] then .error .fileExistsError else .error .notADirectoryError
    | none => osMakedirsGo clock (alSet fs q (mkDirEntry clock)) q rest exist_ok

def osMakedirs (clock : Int) (fs : Fs) (p : Path) (exist_ok : Bool) : Except PyErr Fs :=
  osMakedirsGo clock fs [] p exist_ok

/-! ## SyncState (`syncroot.py`, class `SyncState`)

A record for one path holds the attributes `stat` and `hash`; through the
accessors `path_get_stat` / `path_get_hash` an absent key and a stored
`None` are indistinguishable, so each attribute is one `Option`. -/

structure PathAttrs where
  stat : Option StatResult := none
  hash : Option String := none
deriving DecidableEq, Repr

structure SyncState where
  paths : List (Path × PathAttrs)
  modified : Bool
deriving DecidableEq, Repr

/-- Method `SyncState.paths()`: the list of recorded paths. -/
def SyncState.pathsList (st : SyncState) : List Path := st.paths.map Prod.fst

def SyncState.path_get_stat (st : SyncState) (p : Path) : Option StatResult :=
  (alGet st.paths p).bind PathAttrs.stat

def SyncState.path_get_hash (st : SyncState) (p : Path) : Option String :=
  (alGet st.paths p).bind PathAttrs.hash

/-- Method `_path_set_attr` specialised to the `stat` attribute. -/
def SyncState.path_set_stat (st : SyncState) (p : Path) (s : StatResult) : SyncState :=
  { paths := alSet st.paths p { (alGet st.paths p).getD {} with stat := some s }
    modified := true }

/-- Method `_path_set_attr` specialised to the `hash` attribute (the stored
value may be `None`, as in `path_set_hash(path, None)`). -/
def SyncState.path_set_hash (st : SyncState) (p : Path) (h : Option String) : SyncState :=
  { paths := alSet st.paths p { (alGet st.paths p).getD {} with hash := h }
    modified := true }

/-- Method `path_delete`: `del self["paths"][path]` raises `KeyError` when
the path has no record. -/
def SyncState.path_delete (st : SyncState) (p : Path) : Except PyErr SyncState :=
  match alGet st.paths p with
  | none => .error .keyError
  | some _ => .ok { paths := alErase st.paths p, modified := true }

/-- Contents of the persisted state file as found on disk. -/
inductive StateFile
  | absent
  | unreadable
  | valid (d : List (Path × PathAttrs))
deriving DecidableEq, Repr

/-- Constructor `SyncState.__init__`: a missing file yields the empty
state; a file that `json.load` cannot parse raises. -/
def SyncState.load : StateFile → Except PyErr SyncState
  | .absent => .ok { paths := [], modified := false }
  | .unreadable => .error .jsonDecodeError
  | .valid d => .ok { paths := d, modified := false }

/-! ## SyncRoot (`syncroot.py`, class `SyncRoot`) -/

structure SyncRoot where
  root_path : List String
  fs : Fs
  clock : Int
  state : SyncState
  changes : List (Path × Action × Option StatResult)
  saved : List (Path × PathAttrs)
deriving DecidableEq, Repr

/-- Every stateful root operation returns the mutated root, the emitted
log events and the exception outcome. -/
abbrev RootStep := SyncRoot × List Event × Except PyErr Unit

/-- Function `get_file_hash` with the pluggable digest modelled as the
identity: the digest of a regular file is its content, the digest of a
symlink is its target string. -/
def get_file_hash (fs : Fs) (p : Path) : Except PyErr String :=
  match alGet fs p with
  | none => .error .fileNotFoundError
  | some e =>
    match e.node with
    | .symlink t => .ok t
    | .file c => .ok c
    | .dir => .error .notImplementedError

/-- Method `SyncRoot.stat`: `None` when the path is gone (the caught
`FileNotFoundError` / `NotADirectoryError` cases). -/
def SyncRoot.stat (r : SyncRoot) (p : Path) : Option StatResult :=
  (alGet r.fs p).map FsEntry.toStat

/-- Method `should_ignore_path`: the reserved `.syncstate` subtree and
the root itself. -/
def should_ignore_path (p : Path) : Bool :=
  match p with
  | [] => true
  | c :: _ => c = ".syncstate"

/-- Helper `get_important_stat_info` inside `inspect_path_for_changes`:
the reduced fingerprint `(st_mtime_ns, st_size, st_mode)`. -/
def get_important_stat_info : Option StatResult → Option (Int × Nat × Nat)
  | none => none
  | some s => some (s.st_mtime_ns, s.st_size, s.st_mode)

def stats_equal (s1 s2 : Option StatResult) : Bool :=
  get_important_stat_info s1 = get_important_stat_info s2

/-- Method `inspect_path_for_changes`. -/
def inspect_path_for_changes (r : SyncRoot) (p : Path) (force_hash : Bool) : RootStep :=
  if should_ignore_path p then (r, [], .ok ()) else
  match SyncRoot.stat r p, r.state.path_get_stat p with
  | some stat_info, none =>
    -- Path exists and did not use to: a "created" change.
    let r1 := { r with changes := alSet r.changes p (Action.created, some stat_info) }
    match (if stat_info.is_dir then Except.ok r1.state
           else (get_file_hash r1.fs p).map fun h => r1.state.path_set_hash p (some h)) with
    | .error e => (r1, [], .error e)
    | .ok st1 =>
      ({ r1 with state := st1.path_set_stat p stat_info },
        [.detected r.root_path .created p], .ok ())
  | some stat_info, some old =>
    if stat_info.is_dir then
      -- Path is a directory.
      if !stats_equal (some stat_info) (some old) then
        ({ r with changes := alSet r.changes p (Action.updated, some stat_info),
                  state := (r.state.path_set_hash p none).path_set_stat p stat_info },
          [.detected r.root_path .updated p], .ok ())
      else (r, [], .ok ())
    else
      if !stats_equal (some stat_info) (some old) || force_hash then
        match get_file_hash r.fs p with
        | .error e => (r, [], .error e)
        | .ok current_hash =>
          if r.state.path_get_hash p ≠ some current_hash then
            ({ r with changes := alSet r.changes p (Action.updated, some stat_info),
                      state := (r.state.path_set_hash p (some current_hash)).path_set_stat
                        p stat_info },
              [.detected r.root_path .updated p], .ok ())
          else (r, [], .ok ())
      else (r, [], .ok ())
  | none, some _ =>
    -- Path no longer exists: a "deleted" change because it used to.
    match r.state.path_delete p with
    | .error e =>
      ({ r with changes := alSet r.changes p (Action.deleted, none) }, [], .error e)
    | .ok st1 =>
      ({ r with changes := alSet r.changes p (Action.deleted, none), state := st1 },
        [.detected r.root_path .deleted p], .ok ())
  | none, none => (r, [], .ok ())

/-- Method `remove_change`: drop the pending change, then re-inspect with
a forced digest. -/
def remove_change (r : SyncRoot) (p : Path) : RootStep :=
  inspect_path_for_changes { r with changes := alErase r.changes p } p true

/-- One iteration of the ancestor-directory loop at the top of
`_perform_action` (create/update): a file in the way is removed; a
missing directory is created, recorded as a directory with no digest,
and its pending change cleared. -/
def ensureDirStep (r : SyncRoot) (q : Path) : RootStep :=
  match (if osIsfile r.fs q then (osRemove r.fs q).map (fun fs => { r with fs := fs })
         else .ok r) with
  | .error e => (r, [], .error e)
  | .ok r1 =>
    if !osExists r1.fs q then
      match osMakedirs r1.clock r1.fs q false with
      | .error e => (r1, [], .error e)
      | .ok fs =>
        match SyncRoot.stat { r1 with fs := fs, clock := r1.clock + 1 } q with
        | none =>
          ({ r1 with
              fs := fs
              clock := r1.clock + 1
              state := r1.state.path_set_hash q none }, [], .error .typeError)
        | some s =>
          remove_change
            { r1 with
              fs := fs
              clock := r1.clock + 1
              state := (r1.state.path_set_hash q none).path_set_stat q s } q
    else (r1, [], .ok ())

/-- The list of ancestor paths visited by the loop in `_perform_action`:
`os.path.split` applied to the dirname yields exactly the two longest
proper ancestors (shorter ones are only created implicitly by the
recursive `os.makedirs`). -/
def ancestorPartials (p : Path) : List Path :=
  [p.dropLast.dropLast, p.dropLast]

/-- The scratch-then-rename copy `_atomic_copy(source, dest, do_hash=True)`
reduced to its success effect on the destination tree: the new entry
(content and permission bits copied, fresh times) and the digest of the
copied data.  The scratch-file lifecycle itself is modelled separately in
the AtomicOps section, where its cleanup behaviour is examined. -/
def atomicCopyEffect (srcFs : Fs) (srcPath : Path) (clock : Int) :
    Except PyErr (FsEntry × String) :=
  match alGet srcFs srcPath with
  | none => .error .fileNotFoundError
  | some e =>
    match e.node with
    | .file c =>
      .ok ({ node := .file c, perm := e.perm, mtime_ns := clock, atime_ns := clock,
             ctime_ns := clock }, c)
    | .symlink t =>
      .ok ({ node := .symlink t, perm := e.perm, mtime_ns := clock, atime_ns := clock,
             ctime_ns := clock }, t)
    | .dir => .error .isADirectoryError

/-- Sequence the ancestor loop over the two partial paths. -/
def ensureDirs (r : SyncRoot) : List Path → RootStep
  | [] => (r, [], .ok ())
  | q :: qs =>
    match ensureDirStep r q with
    | (r1, evs, .ok ()) =>
      let (r2, evs2, exc) := ensureDirs r1 qs
      (r2, evs ++ evs2, exc)
    | (r1, evs, .error e) => (r1, evs, .error e)

/-- The create/update body of `_perform_action`: ensure ancestor
directories, then materialize the source's directory / file / symlink at
the destination, record fingerprint and digest, and clear the pending
change. -/
def performCreateUpdate (r : SyncRoot) (k : PerformKind) (p : Path) (sfs : Fs)
    (sp : Path) : RootStep :=
  match ensureDirs r (ancestorPartials p) with
  | (r1, evs1, .error e) => (r1, Event.performed r.root_path k p :: evs1, .error e)
  | (r1, evs1, .ok _) =>
    match (if osIsdir sfs sp && !osIslink sfs sp then
        -- Directories
        (if osIsfile r1.fs p then (osRemove r1.fs p).map (fun fs => { r1 with fs := fs })
         else .ok r1).bind fun r2 =>
        (osMakedirs r2.clock r2.fs p true).map fun fs =>
        { r2 with
          fs := fs
          clock := r2.clock + 1
          state := r2.state.path_set_hash p none }
      else
        -- Files / Symlinks
        (if osIsdir r1.fs p then (osRmdir r1.fs p).map (fun fs => { r1 with fs := fs })
         else .ok r1).bind fun r2 =>
        (atomicCopyEffect sfs sp r2.clock).map fun entryHash =>
        { r2 with
          fs := alSet r2.fs p entryHash.1
          clock := r2.clock + 1
          state := r2.state.path_set_hash p (some entryHash.2) }) with
    | .error e => (r1, Event.performed r.root_path k p :: evs1, .error e)
    | .ok r4 =>
      match SyncRoot.stat r4 p with
      | none => (r4, Event.performed r.root_path k p :: evs1, .error .typeError)
      | some s =>
        match remove_change { r4 with state := r4.state.path_set_stat p s } p with
        | (r6, evs2, exc) =>
          (r6, Event.performed r.root_path k p :: (evs1 ++ evs2), exc)

/-- Method `_perform_action`.  For create/update, `src` carries the
source root's tree and the source path (the model of `source_abspath`). -/
def perform_action (r : SyncRoot) (k : PerformKind) (p : Path)
    (src : Option (Fs × Path)) : RootStep :=
  match k with
  | .delete =>
    match r.state.path_delete p with
    | .error e => (r, [Event.performed r.root_path k p], .error e)
    | .ok st =>
      match (if osIsdir r.fs p then osRmdir r.fs p else osRemove r.fs p) with
      | .ok fs =>
        match remove_change { r with state := st, fs := fs } p with
        | (r2, evs, exc) => (r2, Event.performed r.root_path k p :: evs, exc)
      | .error .fileNotFoundError =>
        match remove_change { r with state := st } p with
        | (r2, evs, exc) => (r2, Event.performed r.root_path k p :: evs, exc)
      | .error e => ({ r with state := st }, [Event.performed r.root_path k p], .error e)
  | _ =>
    match src with
    | none => (r, [Event.performed r.root_path k p], .error .typeError)
    | some (sfs, sp) => performCreateUpdate r k p sfs sp

def perform_create (r : SyncRoot) (p : Path) (src : Fs × Path) : RootStep :=
  perform_action r .create p (some src)

def perform_update (r : SyncRoot) (p : Path) (src : Fs × Path) : RootStep :=
  perform_action r .update p (some src)

def perform_delete (r : SyncRoot) (p : Path) : RootStep :=
  perform_action r .delete p none

/-- Method `write_state`: asserts all changes are resolved, then
atomically persists the records when modified. -/
def write_state (r : SyncRoot) : RootStep :=
  if r.changes ≠ [] then (r, [], .error .assertionError)
  else if r.state.modified then
    ({ r with saved := r.state.paths, state := { r.state with modified := false } },
      [], .ok ())
  else (r, [], .ok ())

/-- Inspect a list of paths in order, stopping at the first exception. -/
def inspectList (r : SyncRoot) (force : Bool) : List Path → RootStep
  | [] => (r, [], .ok ())
  | p :: ps =>
    match inspect_path_for_changes r p force with
    | (r1, evs, .ok ()) =>
      let (r2, evs2, exc) := inspectList r1 force ps
      (r2, evs ++ evs2, exc)
    | (r1, evs, .error e) => (r1, evs, .error e)

/-- Method `inspect_root_for_changes`: first every recorded path, then
every live path not already covered. -/
def inspect_root_for_changes (r : SyncRoot) (force : Bool) : RootStep :=
  let inspected := r.state.pathsList
  match inspectList r force inspected with
  | (r1, evs, .ok ()) =>
    let live := (r1.fs.map Prod.fst).filter fun q => !inspected.contains q
    let (r2, evs2, exc) := inspectList r1 force live
    (r2, evs ++ evs2, exc)
  | err => err

/-! ## Synchronizer (`synchronizer.py`) -/

instance : Inhabited SyncRoot :=
  ⟨{ root_path := [], fs := [], clock := 0, state := { paths := [], modified := false },
     changes := [], saved := [] }⟩

/-- A step of the coordinator: the updated root list, emitted events,
and the exception outcome. -/
abbrev SyncStep := List SyncRoot × List Event × Except PyErr Unit

/-- Insert an element behind every already-sorted element whose key is
not greater: the insertion step of a stable sort. -/
def insortOne {α : Type} (le : α → α → Bool) (x : α) : List α → List α
  | [] => [x]
  | y :: ys => if le y x then y :: insortOne le x ys else x :: y :: ys

/-- Stable ascending sort, the model of Python's `list.sort(key=...)`
(equal keys keep their original relative order). -/
def pySort {α : Type} (le : α → α → Bool) (l : List α) : List α :=
  l.foldl (fun acc x => insortOne le x acc) []

/-- Apply a per-root step at each index in order, threading the root
list and stopping at the first exception (a raised Python exception
aborts the surrounding loop). -/
def foldRoots (step : Nat → List SyncRoot → RootStep) :
    List Nat → List SyncRoot → SyncStep
  | [], roots => (roots, [], .ok ())
  | i :: is, roots =>
    match step i roots with
    | (r1, evs, .ok ()) =>
      let (roots2, evs2, exc) := foldRoots step is (roots.set i r1)
      (roots2, evs ++ evs2, exc)
    | (r1, evs, .error e) => (roots.set i r1, evs, .error e)

def changeActionOf (r : SyncRoot) (p : Path) : Option Action :=
  (alGet r.changes p).map Prod.fst

/-- Absolute path rendering for the nesting check (`os.path.abspath`
output as a character list). -/
def renderAbs (comps : List String) : List Char :=
  '/' :: (String.intercalate "/" comps).data

/-- Longest common component run, the core of `os.path.commonpath`
applied to two normalized absolute paths. -/
def commonComps : List String → List String → List String
  | a :: as, b :: bs => if a = b then a :: commonComps as bs else []
  | _, _ => []

/-- The test `common.endswith(root1.root_path) or
common.endswith(root2.root_path)` from `Synchronizer.__init__`. -/
def rootsNested (r1 r2 : SyncRoot) : Bool :=
  let common := renderAbs (commonComps r1.root_path r2.root_path)
  (renderAbs r1.root_path).isSuffixOf common || (renderAbs r2.root_path).isSuffixOf common

/-- The double loop over root pairs in `Synchronizer.__init__`; the
`root1 is root2` identity test is index equality. -/
def checkRootOverlap (roots : List SyncRoot) : Except PyErr Unit :=
  if (List.range roots.length).any (fun i => (List.range roots.length).any fun j =>
      i != j && rootsNested (roots.getD i default) (roots.getD j default))
  then .error .valueError else .ok ()

/-- Constructor `Synchronizer.__init__`: the nesting check runs before
any root is inspected. -/
def synchronizerInit (roots : List SyncRoot) (force_hash : Bool) :
    (List SyncRoot × List Event) × Except PyErr Unit :=
  match checkRootOverlap roots with
  | .error e => ((roots, []), .error e)
  | .ok () =>
    match foldRoots (fun i rs => inspect_root_for_changes (rs.getD i default) force_hash)
        (List.range roots.length) roots with
    | (roots1, evs, exc) => ((roots1, evs), exc)

/-- Priority of an action in `_get_changed_path`
(`["deleted", "updated", "created"].index(action)`). -/
def actionIndexVal : Action → Nat
  | .deleted => 0
  | .updated => 1
  | .created => 2

/-- Character length of the rendered relative path (`len(path)` on the
joined string: component lengths plus one separator between components). -/
def pathStrLen (p : Path) : Nat :=
  (p.map String.length).sum + (p.length - 1)

/-- Lexicographic comparison of `(action priority, -len(path))`. -/
def changeKeyLe (a b : Nat × Int) : Bool :=
  a.1 < b.1 || (a.1 == b.1 && a.2 ≤ b.2)

def changeKey (c : Path × Action × Option StatResult) : Nat × Int :=
  (actionIndexVal c.2.1, -(pathStrLen c.1 : Int))

/-- The list `changes` collected across every root in `_get_changed_path`. -/
def allChanges (roots : List SyncRoot) : List (Path × Action × Option StatResult) :=
  roots.flatMap fun r => r.changes

/-- Method `_get_changed_path`. -/
def get_changed_path (roots : List SyncRoot) : Option Path :=
  let sorted := pySort (fun x y => changeKeyLe (changeKey x) (changeKey y)) (allChanges roots)
  sorted.head?.map Prod.fst

/-- The sort key in `_get_root_with_golden_copy`. -/
def goldenKey (wc : Bool) (st : StatResult) : Nat × Nat × Int :=
  (if wc then 0 else 1, if st.is_dir then 0 else 1, -st.updated_time)

def keyLe3 (a b : Nat × Nat × Int) : Bool :=
  a.1 < b.1 || (a.1 == b.1 &&
    (a.2.1 < b.2.1 || (a.2.1 == b.2.1 && a.2.2 ≤ b.2.2)))

/-- The `root_stats` list: for each root, the pending-change fingerprint
if one exists, else the stored fingerprint, else nothing. -/
def rootStatsFor (roots : List SyncRoot) (p : Path) : List (Nat × Bool × StatResult) :=
  (List.range roots.length).filterMap fun i =>
    let r := roots.getD i default
    match alGet r.changes p with
    | some (_, some st) => some (i, true, st)
    | _ =>
      match r.state.path_get_stat p with
      | some st => some (i, false, st)
      | none => none

/-- Method `_get_root_with_golden_copy`, returning the index of the
chosen root (`root_stats[0]` raises `IndexError` when no root has any
information). -/
def get_root_with_golden_copy (roots : List SyncRoot) (p : Path) : Except PyErr Nat :=
  let sorted := pySort (fun x y => keyLe3 (goldenKey x.2.1 x.2.2) (goldenKey y.2.1 y.2.2))
    (rootStatsFor roots p)
  match sorted with
  | [] => .error .indexError
  | x :: _ => .ok x.1

/-- Method `_update_roots`: update every root other than the source to
the source's copy, skipping roots whose stored hash and mode already
match. -/
def update_roots (roots : List SyncRoot) (srcIdx : Nat) (p : Path) : SyncStep :=
  foldRoots
    (fun i rs =>
      let r := rs.getD i default
      if i == srcIdx then remove_change r p
      else
        let src := rs.getD srcIdx default
        let old_hash := r.state.path_get_hash p
        let old_stat := r.state.path_get_stat p
        let new_hash := src.state.path_get_hash p
        let new_stat := src.state.path_get_stat p
        if old_hash == new_hash && old_stat.isSome && new_stat.isSome &&
            (old_stat.map StatResult.st_mode) == (new_stat.map StatResult.st_mode) then
          remove_change r p
        else
          perform_update r p (src.fs, p))
    (List.range roots.length) roots

/-- Method `_sync_path`. -/
def sync_path (roots : List SyncRoot) (p : Path) : SyncStep :=
  let was_deleted := roots.any fun r => changeActionOf r p == some .deleted
  let was_updated_or_created0 := roots.any fun r =>
    changeActionOf r p == some .updated || changeActionOf r p == some .created
  let was_updated_or_created :=
    if !was_deleted && !was_updated_or_created0 then
      let types := (roots.map fun r =>
        (r.state.path_get_stat p).map StatResult.type).dedup
      let hashes := (roots.map fun r => r.state.path_get_hash p).dedup
      types.length > 1 || hashes.length > 1
    else was_updated_or_created0
  if was_deleted then
    foldRoots
      (fun i rs =>
        let r := rs.getD i default
        if changeActionOf r p == some .deleted then remove_change r p
        else perform_delete r p)
      (List.range roots.length) roots
  else if was_updated_or_created then
    match get_root_with_golden_copy roots p with
    | .error e => (roots, [], .error e)
    | .ok srcIdx => update_roots roots srcIdx p
  else (roots, [], .ok ())

/-- External writers sharing the filesystem: a mutation applied to the
root trees at the top of each loop iteration.  `idEnv` is the
single-process run with no concurrent writer. -/
abbrev Env := Nat → List SyncRoot → List SyncRoot

def idEnv : Env := fun _ rs => rs

/-- The `while True` loop of `Synchronizer.sync`, with explicit fuel;
`path_seen_counter` caps visits of one path at 10. -/
def syncLoopGo (env : Env) : Nat → List (Path × Nat) → List SyncRoot →
    (List SyncRoot × List Event × List (Path × Nat)) × Except PyErr Unit
  | 0, counter, roots => ((roots, [], counter), .error .fuelExhausted)
  | fuel+1, counter, roots =>
    let roots := env fuel roots
    match get_changed_path roots with
    | none => ((roots, [], counter), .ok ())
    | some p =>
      let n := (alGet counter p).getD 0 + 1
      let counter := alSet counter p n
      if n > 10 then ((roots, [.warned p], counter), .ok ())
      else
        match sync_path roots p with
        | (roots1, evs, .ok ()) =>
          let ((roots2, evs2, counter2), exc) := syncLoopGo env fuel counter roots1
          ((roots2, evs ++ evs2, counter2), exc)
        | (roots1, evs, .error e) => ((roots1, evs, counter), .error e)

/-- Inner loop of the catch-up pass over one root's recorded paths. -/
def catchUpPaths (counter : List (Path × Nat)) (roots : List SyncRoot) :
    List Path → (List SyncRoot × List Event × List (Path × Nat)) × Except PyErr Unit
  | [] => ((roots, [], counter), .ok ())
  | p :: ps =>
    if (alGet counter p).isSome then catchUpPaths counter roots ps
    else
      let counter := alSet counter p ((alGet counter p).getD 0 + 1)
      match sync_path roots p with
      | (roots1, evs, .ok ()) =>
        let ((roots2, evs2, counter2), exc) := catchUpPaths counter roots1 ps
        ((roots2, evs ++ evs2, counter2), exc)
      | (roots1, evs, .error e) => ((roots1, evs, counter), .error e)

/-- The catch-up pass: for every root in order, reconcile every recorded
path not already seen by the main loop. -/
def catchUpGo (counter : List (Path × Nat)) (roots : List SyncRoot) :
    List Nat → (List SyncRoot × List Event × List (Path × Nat)) × Except PyErr Unit
  | [] => ((roots, [], counter), .ok ())
  | i :: is =>
    let snapshot := (roots.getD i default).state.pathsList
    match catchUpPaths counter roots snapshot with
    | ((roots1, evs, counter1), .ok ()) =>
      let ((roots2, evs2, counter2), exc) := catchUpGo counter1 roots1 is
      ((roots2, evs ++ evs2, counter2), exc)
    | err => err

/-- Method `Synchronizer.sync`. -/
def sync (env : Env) (trust_previous_sync : Bool) (fuel : Nat)
    (roots : List SyncRoot) : (List SyncRoot × List Event) × Except PyErr Unit :=
  match syncLoopGo env fuel [] roots with
  | ((roots1, evs1, counter), .ok ()) =>
    let afterCatch :=
      if trust_previous_sync then ((roots1, [], counter), .ok ())
      else catchUpGo counter roots1 (List.range roots1.length)
    match afterCatch with
    | ((roots2, evs2, _), .ok ()) =>
      match foldRoots (fun i rs => write_state (rs.getD i default))
          (List.range roots2.length) roots2 with
      | (roots3, evs3, exc) => ((roots3, evs1 ++ evs2 ++ evs3), exc)
    | ((roots2, evs2, _), .error e) => ((roots2, evs1 ++ evs2), .error e)
  | ((roots1, evs1, _), .error e) => ((roots1, evs1), .error e)



/-- The kind of filesystem node an entry holds. -/
def FsNode.kind : FsNode → FileType
  | .file _ => .regular
  | .dir => .dir
  | .symlink _ => .link

/-- Sane mode bits: the permission bits do not bleed into the format
field, so the stat the entry reports classifies it as what it is.  Real
`os.stat` results always satisfy this. -/
def FsEntry.statWf (e : FsEntry) : Prop :=
  e.toStat.type = some e.node.kind


instance {e a : Type} [DecidableEq e] [DecidableEq a] : DecidableEq (Except e a) := fun x y =>
  match x, y with
  | .ok v, .ok w => if h : v = w then isTrue (by rw [h]) else isFalse (by intro hh; cases hh; exact h rfl)
  | .error v, .error w => if h : v = w then isTrue (by rw [h]) else isFalse (by intro hh; cases hh; exact h rfl)
  | .ok _, .error _ => isFalse (by intro hh; cases hh)
  | .error _, .ok _ => isFalse (by intro hh; cases hh)

instance (e : FsEntry) : Decidable e.statWf :=
  inferInstanceAs (Decidable (e.toStat.type = some e.node.kind))

/-! ## Concrete sample states used in witnesses and counterexamples -/

/-- A plain regular-file fingerprint. -/
def sampleStat : StatResult :=
  { st_mode := 0o100644, st_size := 1, st_atime_ns := 1, st_mtime_ns := 1, st_ctime_ns := 1 }

/-- A root with two pending changes: path `aaa` created and path `b`
updated (no deletions). -/
def c4Root : SyncRoot :=
  { root_path := ["r0"], fs := [], clock := 0,
    state := { paths := [], modified := false },
    changes := [(["aaa"], .created, some sampleStat), (["b"], .updated, some sampleStat)],
    saved := [] }


/-- Golden-copy sample: root 0 holds only a stored fingerprint with a
late ctime, root 1 holds a live pending-change fingerprint with an
earlier ctime; the pending observation must win. -/
def g3Stat0 : StatResult :=
  { st_mode := 0o100644, st_size := 1, st_atime_ns := 10, st_mtime_ns := 10, st_ctime_ns := 10 }

def g3Stat1 : StatResult :=
  { st_mode := 0o100644, st_size := 1, st_atime_ns := 5, st_mtime_ns := 5, st_ctime_ns := 5 }

def g3Root0 : SyncRoot :=
  { root_path := ["r0"], fs := [], clock := 0,
    state := { paths := [(["p"], { stat := some g3Stat0, hash := some "x" })], modified := false },
    changes := [], saved := [] }

def g3Root1 : SyncRoot :=
  { root_path := ["r1"], fs := [], clock := 0,
    state := { paths := [], modified := false },
    changes := [(["p"], .updated, some g3Stat1)], saved := [] }


/-- Update-detection sample: live file `f` has content `X` at mtime 2,
the stored record has mtime 1 and digest `X` (a fingerprint change with
no content change, as after `touch`). -/
def c5Entry : FsEntry :=
  { node := .file "X", perm := 0o644, mtime_ns := 2, atime_ns := 2, ctime_ns := 2 }

def c5OldStat : StatResult :=
  { st_mode := 0o100644, st_size := 1, st_atime_ns := 1, st_mtime_ns := 1, st_ctime_ns := 1 }

def c5Root : SyncRoot :=
  { root_path := ["r"], fs := [(["f"], c5Entry)], clock := 10,
    state := { paths := [(["f"], { stat := some c5OldStat, hash := some "X" })],
               modified := false },
    changes := [], saved := [] }

/-- As `c5Root` but the live content really changed (`Y` against stored
digest `X`). -/
def c5wEntry : FsEntry :=
  { node := .file "Y", perm := 0o644, mtime_ns := 2, atime_ns := 2, ctime_ns := 2 }

def c5wRoot : SyncRoot :=
  { root_path := ["r"], fs := [(["f"], c5wEntry)], clock := 10,
    state := { paths := [(["f"], { stat := some c5OldStat, hash := some "X" })],
               modified := false },
    changes := [], saved := [] }


/-- A fresh root over a small live tree (a directory with one file),
with no prior state. -/
def c8Root : SyncRoot :=
  { root_path := ["r"], clock := 50,
    fs := [(["d"], { node := .dir, perm := 0o755, mtime_ns := 1, atime_ns := 1, ctime_ns := 1 }),
           (["d", "f"], { node := .file "hi", perm := 0o644, mtime_ns := 2, atime_ns := 2,
                          ctime_ns := 2 })],
    state := { paths := [], modified := false },
    changes := [], saved := [] }


/-! ## AtomicOps: the scratch-file lifecycle of `_temp_file`,
`_atomic_copy` and `_atomic_write`

The hidden scratch area is a map from scratch filename to content.
Injectable faults model the specification's I/O failures (permission
denied, disk full) at each step of the pipeline. -/

structure CopyFaults where
  copyFails : Bool
  hashFails : Bool
  moveFails : Bool
deriving DecidableEq, Repr

abbrev Scratch := List (String × String)

/-- The `_temp_file` context manager: draw a scratch name (the source
generates 100 random candidates but, because `if not os.path.exists:`
misses the call parentheses, always keeps the last), fail if it is
taken, run the body, then remove the scratch file tolerating absence.
The removal after `yield` is not wrapped in try/finally, so when the
body raises, the cleanup is skipped and the scratch file survives. -/
def withTempFile {α : Type} (scratch : Scratch) (name : String)
    (body : String → Scratch → Scratch × Except PyErr α) :
    Scratch × Except PyErr α :=
  if (alGet scratch name).isSome then (scratch, .error .fileExistsError)
  else
    match body name scratch with
    | (scratch2, .ok a) => (alErase scratch2 name, .ok a)
    | (scratch2, .error e) => (scratch2, .error e)

/-- Method `_atomic_copy(source, dest, do_hash=True)` over one root:
copy the source bytes into the scratch file, hash the scratch file,
rename it over the destination. -/
def atomicCopyFull (srcFs : Fs) (sp : Path) (destFs : Fs) (dp : Path) (clock : Int)
    (scratch : Scratch) (name : String) (f : CopyFaults) :
    (Fs × Scratch) × Except PyErr (Option String) :=
  match withTempFile scratch name (fun nm sc =>
    -- shutil.copy(source_abspath, temp_abspath, follow_symlinks=False)
    if f.copyFails then (sc, .error .isADirectoryError)
    else match alGet srcFs sp with
      | none => (sc, .error .fileNotFoundError)
      | some e =>
        match e.node with
        | .dir => (sc, .error .isADirectoryError)
        | .file c =>
          let sc1 := alSet sc nm c
          if f.hashFails then (sc1, .error .fileNotFoundError)
          else if f.moveFails then (sc1, .error .fileExistsError)
          else (alErase sc1 nm,
            .ok (c, ({ node := .file c, perm := e.perm, mtime_ns := clock,
                       atime_ns := clock, ctime_ns := clock } : FsEntry)))
        | .symlink t =>
          let sc1 := alSet sc nm t
          if f.hashFails then (sc1, .error .fileNotFoundError)
          else if f.moveFails then (sc1, .error .fileExistsError)
          else (alErase sc1 nm,
            .ok (t, ({ node := .symlink t, perm := e.perm, mtime_ns := clock,
                       atime_ns := clock, ctime_ns := clock } : FsEntry)))) with
  | (scratch2, .ok hashEntry) =>
    ((alSet destFs dp hashEntry.2, scratch2), .ok (some hashEntry.1))
  | (scratch2, .error e) => ((destFs, scratch2), .error e)

/-- Method `_atomic_write(dest, content)`: write the bytes into the
scratch file, rename it over the destination (here the destination is
one file slot, as for the persisted state file). -/
def atomicWriteFull (content : String) (dest : Option String)
    (scratch : Scratch) (name : String) (writeFails moveFails : Bool) :
    (Option String × Scratch) × Except PyErr Unit :=
  match withTempFile scratch name (fun nm sc =>
    if writeFails then (sc, .error .fileNotFoundError)
    else
      let sc1 := alSet sc nm content
      if moveFails then (sc1, .error .fileExistsError)
      else (alErase sc1 nm, .ok ())) with
  | (scratch2, .ok ()) => ((some content, scratch2), .ok ())
  | (scratch2, .error e) => ((dest, scratch2), .error e)

/-- The sample source tree and scratch area for the AtomicOps claims. -/
def c7SrcFs : Fs :=
  [(["s"], { node := .file "payload", perm := 0o644, mtime_ns := 3, atime_ns := 3,
             ctime_ns := 3 })]


/-- Oscillation scenario: the root holds file `foo` with a pending
updated change. -/
def oscEntry (c : String) (t : Int) : FsEntry :=
  { node := .file c, perm := 0o644, mtime_ns := t, atime_ns := t, ctime_ns := t }

def oscRoot : SyncRoot :=
  { root_path := ["r0"], fs := [(["foo"], oscEntry "v0" 5)], clock := 100,
    state := { paths := [(["foo"], { stat := some (oscEntry "v0" 5).toStat,
                                     hash := some "v0" })],
               modified := true },
    changes := [(["foo"], Action.updated, some (oscEntry "v0" 5).toStat)], saved := [] }

/-- An external writer racing the sync: at the start of every loop
iteration it rewrites `foo` with fresh content and a fresh mtime. -/
def oscEnv : Env := fun n rs =>
  rs.map fun r => { r with fs := alSet r.fs ["foo"] (oscEntry (toString n) (1000 + (n : Int))) }


/-- The invariant of claim C9 over a root's stored records: a record
whose fingerprint is absent or of directory kind carries no content
digest.  Stated over the entries of the record list, which implies it
for every lookup. -/
def DirNoHash (st : SyncState) : Prop :=
  ∀ pa ∈ st.paths, ((pa.2 : PathAttrs).stat = none → pa.2.hash = none) ∧
    ∀ s, pa.2.stat = some s → s.is_dir = true → pa.2.hash = none

instance (st : SyncState) : Decidable (DirNoHash st) := by
  unfold DirNoHash
  infer_instance


/-- Stored-metadata agreement: the comparison the catch-up pass makes,
holding for every recorded path across every pair of roots (a missing
record compares as deleted). -/
def recordsAgree (roots : List SyncRoot) : Prop :=
  ∀ r1 ∈ roots, ∀ r2 ∈ roots, ∀ p ∈ r1.state.pathsList,
    (r1.state.path_get_stat p).map StatResult.type =
      (r2.state.path_get_stat p).map StatResult.type ∧
    r1.state.path_get_hash p = r2.state.path_get_hash p

instance (roots : List SyncRoot) : Decidable (recordsAgree roots) := by
  unfold recordsAgree
  infer_instance

/-- A regular file's entry with all timestamps equal. -/
def fileEAt (c : String) (t : Int) : FsEntry :=
  { node := .file c, perm := 0o644, mtime_ns := t, atime_ns := t, ctime_ns := t }

/-- A directory entry with all timestamps equal. -/
def dirEAt (t : Int) : FsEntry :=
  { node := .dir, perm := 0o755, mtime_ns := t, atime_ns := t, ctime_ns := t }

/-- The stored record of a regular file: its fingerprint and digest. -/
def fileRecAt (c : String) (t : Int) : PathAttrs :=
  { stat := some (fileEAt c t).toStat, hash := some c }

/-- Root `a` of the idempotence counterexample: an empty tree whose
record file still lists `d/f` with an old digest. -/
def c2A : SyncRoot :=
  { root_path := ["a"], fs := [], clock := 100,
    state := { paths := [(["d","f"], fileRecAt "w" 1)], modified := false },
    changes := [], saved := [] }

/-- Root `b` of the idempotence counterexample: it holds `d` and `d/f`
live, but its record file lists only `d/f` (not the directory). -/
def c2B : SyncRoot :=
  { root_path := ["b"], fs := [(["d"], dirEAt 5), (["d","f"], fileEAt "z" 5)], clock := 200,
    state := { paths := [(["d","f"], fileRecAt "z" 5)], modified := false },
    changes := [], saved := [] }

/-- An empty, fully persisted root. -/
def c2w : SyncRoot :=
  { root_path := ["w"], fs := [], clock := 0,
    state := { paths := [], modified := false },
    changes := [], saved := [] }

/-! ### Well-formedness and absence predicates for the delete-wins analysis -/

/-- Well-formedness of one root's tree: keys are distinct and nonempty,
and every entry below the top level sits inside a parent directory
(guaranteed for real directory trees walked by `os.walk`). -/
def FsClosed (fs : Fs) : Prop :=
  ∀ qe ∈ fs, Prod.fst qe ≠ ([] : Path) ∧
    ((Prod.fst qe).dropLast = [] ∨
      ∃ e', alGet fs ((Prod.fst (qe : Path × FsEntry)).dropLast) = some e' ∧
        e'.node.isDirNode = true)

instance (fs : Fs) : Decidable (FsClosed fs) := by
  unfold FsClosed
  infer_instance

/-- Well-formedness of a root: distinct keys in the tree, the records and
the pending changes, and a parent-closed tree. -/
def RootWf (r : SyncRoot) : Prop :=
  (r.fs.map Prod.fst).Nodup ∧
  (r.state.paths.map Prod.fst).Nodup ∧
  (r.changes.map Prod.fst).Nodup ∧
  FsClosed r.fs

instance (r : SyncRoot) : Decidable (RootWf r) := by
  unfold RootWf
  infer_instance

/-- The path is gone from a root: not in the tree, not in the stored
records, no pending change. -/
def PathGone (P : Path) (r : SyncRoot) : Prop :=
  alGet r.fs P = none ∧ alGet r.state.paths P = none ∧ alGet r.changes P = none

instance (P : Path) (r : SyncRoot) : Decidable (PathGone P r) := by
  unfold PathGone
  infer_instance

/-- One arm of the delete branch of `_sync_path`: a root already showing
`deleted` is merely re-inspected, any other root performs the delete. -/
def delStep (q : Path) (i : Nat) (rs : List SyncRoot) : RootStep :=
  if changeActionOf (rs.getD i default) q == some .deleted
  then remove_change (rs.getD i default) q
  else perform_delete (rs.getD i default) q

/-- Root `a` of the delete-wins witness: it detected the deletion of
`d` (record already dropped by the inspection that detected it). -/
def c1A : SyncRoot :=
  { root_path := ["a"], fs := [], clock := 10,
    state := { paths := [], modified := false },
    changes := [(["d"], Action.deleted, none)], saved := [] }

/-- Root `b` of the delete-wins witness: `d` is still live and
recorded, with no pending change. -/
def c1B : SyncRoot :=
  { root_path := ["b"], fs := [(["d"], fileEAt "z" 5)], clock := 20,
    state := { paths := [(["d"], fileRecAt "z" 5)], modified := false },
    changes := [], saved := [] }

/-! ## Proof development -/

theorem alGet_alSet_same {κ β : Type} [DecidableEq κ] (l : List (κ × β)) (p : κ) (v : β) :
    alGet (alSet l p v) p = some v := by
  induction l with
  | nil => simp [alSet, alGet]
  | cons hd tl ih =>
    obtain ⟨q, w⟩ := hd
    by_cases h : q = p <;> simp [alSet, alGet, h, ih]

theorem alGet_alSet_ne {κ β : Type} [DecidableEq κ] (l : List (κ × β)) (p q : κ) (v : β)
    (h : p ≠ q) : alGet (alSet l p v) q = alGet l q := by
  induction l with
  | nil => simp [alSet, alGet, h]
  | cons hd tl ih =>
    obtain ⟨r, w⟩ := hd
    by_cases hr : r = p
    · subst hr
      simp [alSet, alGet, h]
    · simp [alSet, alGet, hr, ih]

theorem alGet_eq_none_of_not_mem {κ β : Type} [DecidableEq κ] (l : List (κ × β)) (p : κ)
    (h : p ∉ l.map Prod.fst) : alGet l p = none := by
  induction l with
  | nil => simp [alGet]
  | cons hd tl ih =>
    obtain ⟨q, w⟩ := hd
    simp only [List.map_cons, List.mem_cons, not_or] at h
    have hq : q ≠ p := fun hh => h.1 hh.symm
    simp only [alGet, if_neg hq]
    exact ih h.2

theorem alGet_alErase_same {κ β : Type} [DecidableEq κ] (l : List (κ × β)) (p : κ)
    (hnd : (l.map Prod.fst).Nodup) : alGet (alErase l p) p = none := by
  induction l with
  | nil => simp [alErase, alGet]
  | cons hd tl ih =>
    obtain ⟨q, w⟩ := hd
    simp only [List.map_cons, List.nodup_cons] at hnd
    by_cases h : q = p
    · subst h
      simp only [alErase, if_pos rfl]
      exact alGet_eq_none_of_not_mem tl q hnd.1
    · simp only [alErase, alGet, if_neg h]
      exact ih hnd.2

theorem alGet_alErase_ne {κ β : Type} [DecidableEq κ] (l : List (κ × β)) (p q : κ)
    (h : p ≠ q) : alGet (alErase l p) q = alGet l q := by
  induction l with
  | nil => simp [alErase, alGet]
  | cons hd tl ih =>
    obtain ⟨r, w⟩ := hd
    by_cases hr : r = p
    · subst hr
      simp [alErase, alGet, h]
    · simp [alErase, alGet, hr, ih]

theorem mem_insortOne {α : Type} (le : α → α → Bool) (x : α) (l : List α) (z : α) :
    z ∈ insortOne le x l ↔ z = x ∨ z ∈ l := by
  induction l with
  | nil => simp [insortOne]
  | cons y ys ih =>
    by_cases h : le y x
    · simp only [insortOne, if_pos h, List.mem_cons, ih]
      tauto
    · simp only [insortOne, if_neg h, List.mem_cons]

theorem mem_pySort {α : Type} (le : α → α → Bool) (l : List α) (z : α) :
    z ∈ pySort le l ↔ z ∈ l := by
  suffices h : ∀ acc, z ∈ l.foldl (fun acc x => insortOne le x acc) acc ↔ z ∈ l ∨ z ∈ acc by
    have := h []
    simpa [pySort] using this
  induction l with
  | nil => intro acc; simp
  | cons y ys ih =>
    intro acc
    simp only [List.foldl_cons, ih, mem_insortOne, List.mem_cons]
    tauto

theorem pairwise_insortOne {α : Type} (le : α → α → Bool)
    (htrans : ∀ a b c, le a b → le b c → le a c)
    (htot : ∀ a b, le a b || le b a) (x : α) (l : List α)
    (hl : l.Pairwise fun a b => le a b) :
    (insortOne le x l).Pairwise fun a b => le a b := by
  induction l with
  | nil => simp [insortOne]
  | cons y ys ih =>
    rw [List.pairwise_cons] at hl
    by_cases h : le y x
    · simp only [insortOne, if_pos h, List.pairwise_cons]
      refine ⟨fun z hz => ?_, ih hl.2⟩
      rcases (mem_insortOne le x ys z).mp hz with hz | hz
      · subst hz; exact h
      · exact hl.1 z hz
    · have hxy : le x y = true := by
        have := htot x y
        cases hxy : le x y
        · rw [hxy] at this
          simp only [Bool.false_or] at this
          exact absurd this h
        · rfl
      simp only [insortOne, if_neg h, List.pairwise_cons]
      refine ⟨fun z hz => ?_, hl.1, hl.2⟩
      rcases List.mem_cons.mp hz with hz | hz
      · subst hz; exact hxy
      · exact htrans x y z hxy (hl.1 z hz)

theorem pairwise_pySort {α : Type} (le : α → α → Bool)
    (htrans : ∀ a b c, le a b → le b c → le a c)
    (htot : ∀ a b, le a b || le b a) (l : List α) :
    (pySort le l).Pairwise fun a b => le a b := by
  suffices h : ∀ acc, acc.Pairwise (fun a b => le a b = true) →
      (l.foldl (fun acc x => insortOne le x acc) acc).Pairwise fun a b => le a b by
    exact h [] (by simp)
  induction l with
  | nil => intro acc hacc; simpa using hacc
  | cons y ys ih =>
    intro acc hacc
    exact ih _ (pairwise_insortOne le htrans htot y acc hacc)

/-- The head of a stable sort is a minimum of the list. -/
theorem pySort_head_min {α : Type} (le : α → α → Bool)
    (htrans : ∀ a b c, le a b → le b c → le a c)
    (htot : ∀ a b, le a b || le b a) (l : List α) (x : α)
    (hx : (pySort le l).head? = some x) : x ∈ l ∧ ∀ y ∈ l, le x y := by
  have hpw := pairwise_pySort le htrans htot l
  cases hsort : pySort le l with
  | nil => rw [hsort] at hx; simp at hx
  | cons h t =>
    rw [hsort] at hx
    simp only [List.head?_cons, Option.some.injEq] at hx
    rw [hsort] at hpw
    rw [List.pairwise_cons] at hpw
    have hmem : x ∈ l := by
      have hxin : x ∈ pySort le l := by
        rw [hsort, ← hx]; exact List.mem_cons_self h t
      exact (mem_pySort le l x).mp hxin
    refine ⟨hmem, fun y hy => ?_⟩
    have hy2 : y ∈ pySort le l := (mem_pySort le l y).mpr hy
    rw [hsort] at hy2
    rcases List.mem_cons.mp hy2 with hy2 | hy2
    · rw [hy2, ← hx]
      have := htot h h
      simpa using this
    · rw [← hx]
      exact hpw.1 y hy2

theorem changeKeyLe_trans (a b c : Nat × Int) :
    changeKeyLe a b → changeKeyLe b c → changeKeyLe a c := by
  simp only [changeKeyLe, Bool.or_eq_true, Bool.and_eq_true, decide_eq_true_eq, beq_iff_eq]
  omega

theorem changeKeyLe_total (a b : Nat × Int) : changeKeyLe a b || changeKeyLe b a := by
  simp only [changeKeyLe, Bool.or_eq_true, Bool.and_eq_true, decide_eq_true_eq, beq_iff_eq]
  omega

theorem keyLe3_trans (a b c : Nat × Nat × Int) :
    keyLe3 a b → keyLe3 b c → keyLe3 a c := by
  simp only [keyLe3, Bool.or_eq_true, Bool.and_eq_true, decide_eq_true_eq, beq_iff_eq]
  omega

theorem keyLe3_total (a b : Nat × Nat × Int) : keyLe3 a b || keyLe3 b a := by
  simp only [keyLe3, Bool.or_eq_true, Bool.and_eq_true, decide_eq_true_eq, beq_iff_eq]
  omega

/-- When `_get_changed_path` returns a path, that path carries a pending
change whose sort key is minimal among all pending changes. -/
theorem get_changed_path_min (roots : List SyncRoot) (p : Path)
    (hp : get_changed_path roots = some p) :
    ∃ a st, (p, a, st) ∈ allChanges roots ∧
      ∀ c ∈ allChanges roots, changeKeyLe (changeKey (p, a, st)) (changeKey c) := by
  unfold get_changed_path at hp
  simp only [Option.map_eq_some'] at hp
  obtain ⟨c0, hc0, hcp⟩ := hp
  have hmin := pySort_head_min (fun x y => changeKeyLe (changeKey x) (changeKey y))
    (fun a b c1 => changeKeyLe_trans (changeKey a) (changeKey b) (changeKey c1))
    (fun a b => changeKeyLe_total (changeKey a) (changeKey b))
    (allChanges roots) c0 hc0
  obtain ⟨c0p, c0rest⟩ := c0
  obtain ⟨a, st⟩ := c0rest
  simp only at hcp
  rw [← hcp]
  exact ⟨a, st, hmin.1, fun c hc => hmin.2 c hc⟩

/-- `_get_changed_path` returns nothing exactly when no root has any
pending change. -/
theorem get_changed_path_none_iff (roots : List SyncRoot) :
    get_changed_path roots = none ↔ allChanges roots = [] := by
  unfold get_changed_path
  simp only [Option.map_eq_none', List.head?_eq_none_iff]
  constructor
  · intro h
    cases hl : allChanges roots with
    | nil => rfl
    | cons c cs =>
      have hc : c ∈ pySort (fun x y => changeKeyLe (changeKey x) (changeKey y))
          (allChanges roots) := by
        rw [mem_pySort, hl]
        exact List.mem_cons_self c cs
      rw [h] at hc
      exact absurd hc (List.not_mem_nil c)
  · intro h
    rw [h]
    rfl

/-- When some root holds a pending `deleted` change, the selected path
itself carries a `deleted` change (its key's first component must be 0). -/
theorem get_changed_path_deleted (roots : List SyncRoot) (p : Path)
    (hp : get_changed_path roots = some p)
    (q : Path) (st0 : Option StatResult)
    (hq : (q, Action.deleted, st0) ∈ allChanges roots) :
    ∃ st, (p, Action.deleted, st) ∈ allChanges roots := by
  obtain ⟨a, st, hmem, hmin⟩ := get_changed_path_min roots p hp
  have hle := hmin (q, Action.deleted, st0) hq
  have ha : a = Action.deleted := by
    simp only [changeKey, changeKeyLe, actionIndexVal, Bool.or_eq_true, Bool.and_eq_true,
      decide_eq_true_eq, beq_iff_eq] at hle
    cases a with
    | deleted => rfl
    | updated => simp [actionIndexVal] at hle
    | created => simp [actionIndexVal] at hle
  exact ⟨st, ha ▸ hmem⟩

/-- Claim C4, counterexample.  The claim states that `updated` and
`created` changes have equal priority, so with no `deleted` change
pending the longer path (`aaa`, 3 characters, created) would be returned
before the shorter (`b`, 1 character, updated); the code instead ranks
`updated` strictly before `created` and returns `b`. -/
theorem C4_counterexample :
    get_changed_path [c4Root] = some ["b"] ∧
    (["aaa"], Action.created, some sampleStat) ∈ allChanges [c4Root] ∧
    (∀ c ∈ allChanges [c4Root], c.2.1 ≠ Action.deleted) ∧
    pathStrLen ["b"] < pathStrLen ["aaa"] := by
  decide

/-- Claim C4, amended.  The path returned by `_get_changed_path` carries
a pending change that is minimal under the ascending key
`(action priority, -length)` where the priority is `deleted` = 0,
`updated` = 1, `created` = 2 (updated strictly before created, not equal
priority); within one action the path with more characters comes first;
a pending `deleted` change anywhere forces the selected path to carry a
`deleted` change; and no path is returned exactly when no root has any
pending change. -/
theorem C4_path_selection (roots : List SyncRoot) :
    (∀ p, get_changed_path roots = some p →
      ∃ a st, (p, a, st) ∈ allChanges roots ∧
        ∀ c ∈ allChanges roots, changeKeyLe (changeKey (p, a, st)) (changeKey c)) ∧
    (∀ p q st0, get_changed_path roots = some p →
      (q, Action.deleted, st0) ∈ allChanges roots →
      ∃ st, (p, Action.deleted, st) ∈ allChanges roots) ∧
    (get_changed_path roots = none ↔ allChanges roots = []) :=
  ⟨fun p hp => get_changed_path_min roots p hp,
   fun p q st0 hp hq => get_changed_path_deleted roots p hp q st0 hq,
   get_changed_path_none_iff roots⟩

/-- Claim C4, witness: the amended theorem evaluated on the concrete
two-change root. -/
theorem C4_witness :
    (∃ a st, ((["b"], a, st) ∈ allChanges [c4Root] ∧
      ∀ c ∈ allChanges [c4Root], changeKeyLe (changeKey (["b"], a, st)) (changeKey c))) ∧
    (get_changed_path [c4Root] = none ↔ allChanges [c4Root] = []) :=
  ⟨(C4_path_selection [c4Root]).1 ["b"] (by decide),
   (C4_path_selection [c4Root]).2.2⟩

/-- Claim C3: among the roots that have information about the path (the
pending-change fingerprint when one exists, else the stored
fingerprint), `_get_root_with_golden_copy` returns a root whose key
`(0 if pending else 1, 0 if directory else 1, -updated_time)` is minimal
in the ascending lexicographic order, so live observations outrank
stored metadata, directories outrank files and symlinks, and among
same-kind entries the later status-change time wins. -/
theorem C3_golden_copy (roots : List SyncRoot) (p : Path)
    (h : rootStatsFor roots p ≠ []) :
    ∃ i wc st, get_root_with_golden_copy roots p = .ok i ∧
      (i, wc, st) ∈ rootStatsFor roots p ∧
      ∀ e ∈ rootStatsFor roots p, keyLe3 (goldenKey wc st) (goldenKey e.2.1 e.2.2) := by
  unfold get_root_with_golden_copy
  cases hs : pySort (fun x y => keyLe3 (goldenKey x.2.1 x.2.2) (goldenKey y.2.1 y.2.2))
      (rootStatsFor roots p) with
  | nil =>
    exfalso
    cases hl : rootStatsFor roots p with
    | nil => exact h hl
    | cons c cs =>
      have hc : c ∈ pySort (fun x y => keyLe3 (goldenKey x.2.1 x.2.2) (goldenKey y.2.1 y.2.2))
          (rootStatsFor roots p) := by
        rw [mem_pySort, hl]
        exact List.mem_cons_self c cs
      rw [hs] at hc
      exact absurd hc (List.not_mem_nil c)
  | cons x t =>
    have hmin := pySort_head_min
      (fun x y => keyLe3 (goldenKey x.2.1 x.2.2) (goldenKey y.2.1 y.2.2))
      (fun a b c => keyLe3_trans (goldenKey a.2.1 a.2.2) (goldenKey b.2.1 b.2.2)
        (goldenKey c.2.1 c.2.2))
      (fun a b => keyLe3_total (goldenKey a.2.1 a.2.2) (goldenKey b.2.1 b.2.2))
      (rootStatsFor roots p) x (by rw [hs]; rfl)
    refine ⟨x.1, x.2.1, x.2.2, by simp [hs], by simpa using hmin.1, hmin.2⟩

/-- Claim C3, witness: with root 0 holding a stored fingerprint of later
ctime and root 1 a pending fingerprint of earlier ctime, the theorem
applies and the live observation (root 1) is the minimum. -/
theorem C3_witness :
    ∃ i wc st, get_root_with_golden_copy [g3Root0, g3Root1] ["p"] = .ok i ∧
      (i, wc, st) ∈ rootStatsFor [g3Root0, g3Root1] ["p"] ∧
      ∀ e ∈ rootStatsFor [g3Root0, g3Root1] ["p"],
        keyLe3 (goldenKey wc st) (goldenKey e.2.1 e.2.2) :=
  C3_golden_copy [g3Root0, g3Root1] ["p"] (by decide)

theorem is_dir_of_statWf (e : FsEntry) (h : e.statWf) :
    e.toStat.is_dir = e.node.isDirNode := by
  unfold FsEntry.statWf at h
  unfold StatResult.is_dir
  rw [h]
  cases e.node <;> simp [FsNode.kind, FsNode.isDirNode]

/-- Claim C5, counterexample.  On a live file whose reduced fingerprint
differs from the stored one but whose digest is unchanged, inspection
emits no change and leaves the root entirely unchanged: the stored
fingerprint is NOT updated (it still differs from the live one), so the
next inspection will re-hash again, contrary to the claim that
fingerprint and digest are stored regardless. -/
theorem C5_counterexample :
    stats_equal (SyncRoot.stat c5Root ["f"]) (c5Root.state.path_get_stat ["f"]) = false ∧
    osIsfile c5Root.fs ["f"] = true ∧
    get_file_hash c5Root.fs ["f"] = .ok "X" ∧
    c5Root.state.path_get_hash ["f"] = some "X" ∧
    inspect_path_for_changes c5Root ["f"] false = (c5Root, [], .ok ()) ∧
    c5Root.state.path_get_stat ["f"] ≠ SyncRoot.stat c5Root ["f"] := by
  decide

/-- Claim C5, amended.  For an existing, recorded, non-directory path
whose reduced fingerprint differs from the stored one or when
`force_hash` is set, inspection recomputes the digest and emits an
`updated` change exactly when the digest differs from the stored digest;
the stored fingerprint and digest are updated only in that case — when
the digests match, the root (including its stored state) is left
unchanged. -/
theorem C5_digest_guard (r : SyncRoot) (p : Path) (force : Bool) (e : FsEntry)
    (old : StatResult)
    (hig : should_ignore_path p = false)
    (he : alGet r.fs p = some e)
    (hwf : e.statWf)
    (hnd : e.node ≠ .dir)
    (hold : r.state.path_get_stat p = some old)
    (hcond : stats_equal (some e.toStat) (some old) = false ∨ force = true) :
    ∃ ch, get_file_hash r.fs p = .ok ch ∧
      (r.state.path_get_hash p = some ch →
        inspect_path_for_changes r p force = (r, [], .ok ())) ∧
      (r.state.path_get_hash p ≠ some ch →
        inspect_path_for_changes r p force =
          ({ r with
              changes := alSet r.changes p (.updated, some e.toStat),
              state := (r.state.path_set_hash p (some ch)).path_set_stat p e.toStat },
            [.detected r.root_path .updated p], .ok ())) := by
  have hstat : SyncRoot.stat r p = some e.toStat := by
    simp [SyncRoot.stat, he]
  have hdir : e.toStat.is_dir = false := by
    rw [is_dir_of_statWf e hwf]
    cases hn : e.node with
    | file c => rfl
    | dir => exact absurd hn hnd
    | symlink t => rfl
  have hc2 : (!stats_equal (some e.toStat) (some old) || force) = true := by
    rcases hcond with h | h <;> simp [h]
  obtain ⟨ch, hch⟩ : ∃ ch, get_file_hash r.fs p = .ok ch := by
    cases hn : e.node with
    | file c => exact ⟨c, by simp [get_file_hash, he, hn]⟩
    | dir => exact absurd hn hnd
    | symlink t => exact ⟨t, by simp [get_file_hash, he, hn]⟩
  refine ⟨ch, hch, ?_, ?_⟩
  · intro hsame
    simp only [inspect_path_for_changes, hig, hstat, hold, hdir, hc2, hch, hsame,
      Bool.false_eq_true, if_false, if_true, ne_eq, not_true_eq_false]
  · intro hdiff
    simp only [inspect_path_for_changes, hig, hstat, hold, hdir, hc2, hch,
      Bool.false_eq_true, if_false, if_true, ne_eq]
    rw [if_pos hdiff]

/-- Claim C5, witness: the amended theorem applied to a live content
change (`Y` against stored digest `X`): the updated change is emitted
and the state rewritten. -/
theorem C5_witness :
    ∃ ch, get_file_hash c5wRoot.fs ["f"] = .ok ch ∧
      (c5wRoot.state.path_get_hash ["f"] = some ch →
        inspect_path_for_changes c5wRoot ["f"] false = (c5wRoot, [], .ok ())) ∧
      (c5wRoot.state.path_get_hash ["f"] ≠ some ch →
        inspect_path_for_changes c5wRoot ["f"] false =
          ({ c5wRoot with
              changes := alSet c5wRoot.changes ["f"] (.updated, some c5wEntry.toStat),
              state := (c5wRoot.state.path_set_hash ["f"] (some ch)).path_set_stat ["f"]
                c5wEntry.toStat },
            [.detected c5wRoot.root_path .updated ["f"]], .ok ())) :=
  C5_digest_guard c5wRoot ["f"] false c5wEntry c5OldStat (by decide) (by decide)
    (by decide) (by decide) (by decide) (Or.inl (by decide))

theorem commonComps_self (l : List String) : commonComps l l = l := by
  induction l with
  | nil => rfl
  | cons a as ih => simp [commonComps, ih]

theorem isPrefixOf_self {a : Type} [BEq a] [LawfulBEq a] (l : List a) :
    l.isPrefixOf l = true := by
  induction l with
  | nil => rfl
  | cons x xs ih => simp [List.isPrefixOf, ih]

theorem isSuffixOf_self {a : Type} [BEq a] [LawfulBEq a] (l : List a) :
    l.isSuffixOf l = true := by
  unfold List.isSuffixOf
  exact isPrefixOf_self l.reverse

/-- Claim C10: two distinct SyncRoot objects with the same absolute root
path are rejected by the construction-time nesting check (the common
path equals either root path, so the `endswith` test fires), and the
constructor raises before any root is inspected: the roots are returned
untouched and no inspection event is emitted. -/
theorem C10_duplicate_roots (r1 r2 : SyncRoot) (force : Bool)
    (h : r1.root_path = r2.root_path) :
    synchronizerInit [r1, r2] force = (([r1, r2], []), .error .valueError) := by
  have hnest : rootsNested r1 r2 = true := by
    unfold rootsNested
    rw [h, commonComps_self]
    simp [isSuffixOf_self]
  have hcheck : checkRootOverlap [r1, r2] = .error .valueError := by
    unfold checkRootOverlap
    rw [if_pos]
    have h2 : List.range [r1, r2].length = [0, 1] := rfl
    rw [h2]
    simp only [List.any_cons, List.any_nil, Bool.or_eq_true]
    left
    right
    left
    simp [hnest]
  unfold synchronizerInit
  rw [hcheck]

/-- Claim C10, witness: two value-equal roots at a concrete path. -/
theorem C10_witness :
    synchronizerInit [g3Root0, { g3Root0 with clock := 5 }] false =
      (([g3Root0, { g3Root0 with clock := 5 }], []), .error .valueError) :=
  C10_duplicate_roots g3Root0 { g3Root0 with clock := 5 } false rfl

/-! State-accessor facts used throughout. -/

theorem path_get_stat_set_stat_same (st : SyncState) (p : Path) (v : StatResult) :
    (st.path_set_stat p v).path_get_stat p = some v := by
  simp [SyncState.path_set_stat, SyncState.path_get_stat, alGet_alSet_same]

theorem path_get_stat_set_stat_ne (st : SyncState) (p q : Path) (v : StatResult)
    (h : p ≠ q) : (st.path_set_stat p v).path_get_stat q = st.path_get_stat q := by
  simp [SyncState.path_set_stat, SyncState.path_get_stat, alGet_alSet_ne _ _ _ _ h]

theorem path_get_hash_set_stat_same (st : SyncState) (p : Path) (v : StatResult) :
    (st.path_set_stat p v).path_get_hash p = st.path_get_hash p := by
  simp only [SyncState.path_set_stat, SyncState.path_get_hash, alGet_alSet_same]
  cases h : alGet st.paths p <;> simp [h]

theorem path_get_hash_set_stat_ne (st : SyncState) (p q : Path) (v : StatResult)
    (h : p ≠ q) : (st.path_set_stat p v).path_get_hash q = st.path_get_hash q := by
  simp [SyncState.path_set_stat, SyncState.path_get_hash, alGet_alSet_ne _ _ _ _ h]

theorem path_get_hash_set_hash_same (st : SyncState) (p : Path) (v : Option String) :
    (st.path_set_hash p v).path_get_hash p = v := by
  simp [SyncState.path_set_hash, SyncState.path_get_hash, alGet_alSet_same]

theorem path_get_hash_set_hash_ne (st : SyncState) (p q : Path) (v : Option String)
    (h : p ≠ q) : (st.path_set_hash p v).path_get_hash q = st.path_get_hash q := by
  simp [SyncState.path_set_hash, SyncState.path_get_hash, alGet_alSet_ne _ _ _ _ h]

theorem path_get_stat_set_hash_same (st : SyncState) (p : Path) (v : Option String) :
    (st.path_set_hash p v).path_get_stat p = st.path_get_stat p := by
  simp only [SyncState.path_set_hash, SyncState.path_get_stat, alGet_alSet_same]
  cases h : alGet st.paths p <;> simp [h]

theorem path_get_stat_set_hash_ne (st : SyncState) (p q : Path) (v : Option String)
    (h : p ≠ q) : (st.path_set_hash p v).path_get_stat q = st.path_get_stat q := by
  simp [SyncState.path_set_hash, SyncState.path_get_stat, alGet_alSet_ne _ _ _ _ h]

theorem alGet_isSome_of_mem {κ b : Type} [DecidableEq κ] (l : List (κ × b)) (p : κ)
    (h : p ∈ l.map Prod.fst) : ∃ v, alGet l p = some v := by
  induction l with
  | nil => simp at h
  | cons hd tl ih =>
    obtain ⟨q, w⟩ := hd
    by_cases hq : q = p
    · exact ⟨w, by simp [alGet, hq]⟩
    · simp only [List.map_cons, List.mem_cons] at h
      rcases h with h | h
    
      · exact absurd h.symm hq
      · obtain ⟨v, hv⟩ := ih h
        exact ⟨v, by simp [alGet, hq, hv]⟩

theorem mem_of_alGet {κ b : Type} [DecidableEq κ] (l : List (κ × b)) (p : κ) (v : b)
    (h : alGet l p = some v) : (p, v) ∈ l := by
  induction l with
  | nil => simp [alGet] at h
  | cons hd tl ih =>
    obtain ⟨q, w⟩ := hd
    by_cases hq : q = p
    · simp only [alGet, if_pos hq, Option.some.injEq] at h
      rw [hq, h]
      exact List.mem_cons_self _ _
    · simp only [alGet, if_neg hq] at h
      exact List.mem_cons_of_mem _ (ih h)

/-! Effect of inspection on a freshly created path. -/

/-- Inspecting a live directory with no stored fingerprint yields a
`created` change and records the fingerprint (no digest write). -/
theorem inspect_created_dir (r : SyncRoot) (p : Path) (e : FsEntry)
    (hig : should_ignore_path p = false)
    (he : alGet r.fs p = some e)
    (hdir : e.toStat.is_dir = true)
    (hold : r.state.path_get_stat p = none) :
    inspect_path_for_changes r p false =
      ({ r with changes := alSet r.changes p (.created, some e.toStat),
                state := r.state.path_set_stat p e.toStat },
        [.detected r.root_path .created p], .ok ()) := by
  have hstat : SyncRoot.stat r p = some e.toStat := by simp [SyncRoot.stat, he]
  simp only [inspect_path_for_changes, hig, hstat, hold, hdir,
    Bool.false_eq_true, if_false, if_true]

/-- Inspecting a live non-directory with no stored fingerprint yields a
`created` change and records fingerprint and digest. -/
theorem inspect_created_nondir (r : SyncRoot) (p : Path) (e : FsEntry) (ch : String)
    (hig : should_ignore_path p = false)
    (he : alGet r.fs p = some e)
    (hdir : e.toStat.is_dir = false)
    (hch : get_file_hash r.fs p = .ok ch)
    (hold : r.state.path_get_stat p = none) :
    inspect_path_for_changes r p false =
      ({ r with changes := alSet r.changes p (.created, some e.toStat),
                state := (r.state.path_set_hash p (some ch)).path_set_stat p e.toStat },
        [.detected r.root_path .created p], .ok ()) := by
  have hstat : SyncRoot.stat r p = some e.toStat := by simp [SyncRoot.stat, he]
  simp only [inspect_path_for_changes, hig, hstat, hold, hdir, hch,
    Bool.false_eq_true, if_false, if_true, Except.map]

/-- Fresh-tree inspection: over paths with no stored fingerprint, every
live non-ignored path acquires a `created` pending change. -/
theorem inspectList_fresh (ps : List Path) :
    ∀ (r : SyncRoot), ps.Nodup →
    (∀ p ∈ ps, should_ignore_path p = false →
      ∃ e, alGet r.fs p = some e ∧ e.statWf) →
    (∀ p ∈ ps, r.state.path_get_stat p = none) →
    ∃ r' evs, inspectList r false ps = (r', evs, .ok ()) ∧
      r'.fs = r.fs ∧
      (∀ q, q ∉ ps → alGet r'.changes q = alGet r.changes q) ∧
      (∀ p ∈ ps, should_ignore_path p = false →
        ∃ e, alGet r.fs p = some e ∧ alGet r'.changes p = some (.created, some e.toStat)) := by
  induction ps with
  | nil =>
    intro r _ _ _
    exact ⟨r, [], rfl, rfl, fun q _ => rfl, fun p hp => absurd hp (List.not_mem_nil p)⟩
  | cons p ps ih =>
    intro r hnd hfs hst
    have hndp : p ∉ ps := (List.nodup_cons.mp hnd).1
    have hndr : ps.Nodup := (List.nodup_cons.mp hnd).2
    cases hig : should_ignore_path p with
    | true =>
      have hskip : inspect_path_for_changes r p false = (r, [], .ok ()) := by
        simp [inspect_path_for_changes, hig]
      obtain ⟨r2, evs2, hrun, hfs2, hloc, hcre⟩ := ih r hndr
        (fun q hq => hfs q (List.mem_cons_of_mem p hq))
        (fun q hq => hst q (List.mem_cons_of_mem p hq))
      refine ⟨r2, evs2, ?_, hfs2, ?_, ?_⟩
      · simp [inspectList, hskip, hrun]
      · intro q hq
        exact hloc q fun hmem => hq (List.mem_cons_of_mem p hmem)
      · intro q hq higq
        rcases List.mem_cons.mp hq with hq | hq
        · rw [hq] at higq; rw [higq] at hig; cases hig
        · exact hcre q hq higq
    | false =>
      obtain ⟨e, he, hwfe⟩ := hfs p (List.mem_cons_self p ps) hig
      have hold : r.state.path_get_stat p = none := hst p (List.mem_cons_self p ps)
      -- the root after inspecting p
      have hstep : ∃ r1, inspect_path_for_changes r p false =
          (r1, [.detected r.root_path .created p], .ok ()) ∧
          r1.fs = r.fs ∧
          r1.changes = alSet r.changes p (.created, some e.toStat) ∧
          (∀ q, q ≠ p → r1.state.path_get_stat q = r.state.path_get_stat q) := by
        cases hd : e.toStat.is_dir with
        | true =>
          refine ⟨_, inspect_created_dir r p e hig he hd hold, rfl, rfl, ?_⟩
          intro q hq
          exact path_get_stat_set_stat_ne r.state p q e.toStat (Ne.symm hq)
        | false =>
          have hnd2 : e.node ≠ .dir := by
            intro hn
            rw [is_dir_of_statWf e hwfe, hn] at hd
            cases hd
          obtain ⟨ch, hch⟩ : ∃ ch, get_file_hash r.fs p = .ok ch := by
            cases hn : e.node with
            | file c => exact ⟨c, by simp [get_file_hash, he, hn]⟩
            | dir => exact absurd hn hnd2
            | symlink t => exact ⟨t, by simp [get_file_hash, he, hn]⟩
          refine ⟨_, inspect_created_nondir r p e ch hig he hd hch hold, rfl, rfl, ?_⟩
          intro q hq
          rw [path_get_stat_set_stat_ne _ p q _ (Ne.symm hq),
            path_get_stat_set_hash_ne _ p q _ (Ne.symm hq)]
      obtain ⟨r1, hins, hfs1, hchg1, hst1⟩ := hstep
      obtain ⟨r2, evs2, hrun, hfs2, hloc, hcre⟩ := ih r1 hndr
        (fun q hq => by rw [hfs1]; exact hfs q (List.mem_cons_of_mem p hq))
        (fun q hq => by
          rw [hst1 q (fun hqp => hndp (hqp ▸ hq))]
          exact hst q (List.mem_cons_of_mem p hq))
      refine ⟨r2, [.detected r.root_path .created p] ++ evs2, ?_, by rw [hfs2, hfs1], ?_, ?_⟩
      · simp only [inspectList, hins, hrun]
      · intro q hq
        have hq1 : q ∉ ps := fun hmem => hq (List.mem_cons_of_mem p hmem)
        have hqp : q ≠ p := fun hqp => hq (hqp ▸ List.mem_cons_self p ps)
        rw [hloc q hq1, hchg1, alGet_alSet_ne _ _ _ _ (Ne.symm hqp)]
      · intro q hq higq
        rcases List.mem_cons.mp hq with hq | hq
        · subst hq
          refine ⟨e, he, ?_⟩
          rw [hloc q hndp, hchg1, alGet_alSet_same]
        · obtain ⟨e2, he2, hc2⟩ := hcre q hq (by exact higq)
          rw [hfs1] at he2
          exact ⟨e2, he2, hc2⟩

/-- Claim C8, counterexample.  A persisted record file that exists but
cannot be parsed raises (the `json.load` failure is not caught), so
constructing the state does NOT succeed for every absent-or-unreadable
file; only the absent case yields the empty prior state. -/
theorem C8_counterexample :
    SyncState.load .unreadable = .error .jsonDecodeError ∧
    SyncState.load .absent = .ok { paths := [], modified := false } :=
  ⟨rfl, rfl⟩

/-- Claim C8, amended.  A missing persisted record file yields the empty
prior state without an exception (a present-but-unparsable file instead
raises), and full-tree inspection of a root with empty prior state
succeeds and reports every live non-ignored path as a `created` pending
change carrying the live fingerprint. -/
theorem C8_state_load (r : SyncRoot)
    (hstate : r.state = { paths := [], modified := false })
    (hnodup : (r.fs.map Prod.fst).Nodup)
    (hwf : ∀ pe ∈ r.fs, (Prod.snd pe : FsEntry).statWf) :
    SyncState.load .absent = .ok { paths := [], modified := false } ∧
    ∃ r' evs, inspect_root_for_changes r false = (r', evs, .ok ()) ∧
      ∀ p ∈ r.fs.map Prod.fst, should_ignore_path p = false →
        ∃ e, alGet r.fs p = some e ∧ alGet r'.changes p = some (.created, some e.toStat) := by
  refine ⟨rfl, ?_⟩
  have hfresh := inspectList_fresh (r.fs.map Prod.fst) r hnodup
    (fun p hp _ => by
      obtain ⟨v, hv⟩ := alGet_isSome_of_mem r.fs p hp
      exact ⟨v, hv, hwf (p, v) (mem_of_alGet r.fs p v hv)⟩)
    (fun p _ => by simp [hstate, SyncState.path_get_stat, alGet])
  obtain ⟨r2, evs2, hrun, _, _, hcre⟩ := hfresh
  refine ⟨r2, evs2, ?_, hcre⟩
  unfold inspect_root_for_changes
  have hempty : r.state.pathsList = [] := by simp [hstate, SyncState.pathsList]
  rw [hempty]
  have h0 : inspectList r false [] = (r, [], .ok ()) := rfl
  have hlive : (r.fs.map Prod.fst).filter (fun q => !([] : List Path).contains q) =
      r.fs.map Prod.fst := by
    simp
  simp only [h0, hlive, hrun, List.nil_append]

/-- Claim C8, witness: the amended theorem on a concrete fresh root;
both live paths are reported created. -/
theorem C8_witness :
    SyncState.load .absent = .ok { paths := [], modified := false } ∧
    ∃ r' evs, inspect_root_for_changes c8Root false = (r', evs, .ok ()) ∧
      ∀ p ∈ c8Root.fs.map Prod.fst, should_ignore_path p = false →
        ∃ e, alGet c8Root.fs p = some e ∧
          alGet r'.changes p = some (.created, some e.toStat) :=
  C8_state_load c8Root rfl (by decide) (by decide)

/-- Claim C7, behaviour at the failing inputs.  On the fault-free path
the scratch area ends clean and the destination is replaced in a single
rename with the digest returned; but when the hash computation or the
rename raises an I/O error, the operation aborts with the scratch file
STILL PRESENT in the scratch area -- the cleanup after `yield` in
`_temp_file` is not protected by try/finally, so the claim's "removed on
every exit path" fails.  The same leak occurs for `_atomic_write`. -/
theorem C7_scratch_leak :
    (atomicCopyFull c7SrcFs ["s"] [] ["d"] 9 [] "tmp1"
        { copyFails := false, hashFails := false, moveFails := false } =
      (([(["d"], { node := .file "payload", perm := 0o644, mtime_ns := 9, atime_ns := 9,
                   ctime_ns := 9 })], []), .ok (some "payload"))) ∧
    (atomicCopyFull c7SrcFs ["s"] [] ["d"] 9 [] "tmp1"
        { copyFails := false, hashFails := false, moveFails := true } =
      (([], [("tmp1", "payload")]), .error .fileExistsError)) ∧
    (atomicCopyFull c7SrcFs ["s"] [] ["d"] 9 [] "tmp1"
        { copyFails := false, hashFails := true, moveFails := false } =
      (([], [("tmp1", "payload")]), .error .fileNotFoundError)) ∧
    (atomicWriteFull "cont" none [] "tmp2" false true =
      ((none, [("tmp2", "cont")]), .error .fileExistsError)) :=
  ⟨by decide, by decide, by decide, by decide⟩

/-- Claim C6, behaviour at the failing input.  With a writer racing the
sync on path `foo`, the path is selected more than 10 times: the warning
is logged and the loop ends early as claimed, and the capped path does
remain pending in memory -- but the call then raises `AssertionError`
from `write_state` (`assert len(self.changes) == 0`) instead of
completing its remaining steps: the root's modified state is never
flushed. -/
theorem C6_oscillation_assert :
    (sync oscEnv false 30 [oscRoot]).2 = .error .assertionError ∧
    Event.warned ["foo"] ∈ (sync oscEnv false 30 [oscRoot]).1.2 ∧
    (alGet ((sync oscEnv false 30 [oscRoot]).1.1.getD 0 default).changes ["foo"]).isSome = true ∧
    ((sync oscEnv false 30 [oscRoot]).1.1.getD 0 default).state.modified = true ∧
    ((sync oscEnv false 30 [oscRoot]).1.1.getD 0 default).saved = [] :=
  ⟨by decide, by decide, by decide, by decide, by decide⟩

theorem mem_alSet {κ β : Type} [DecidableEq κ] (l : List (κ × β)) (p : κ) (v : β)
    (x : κ × β) (h : x ∈ alSet l p v) : x = (p, v) ∨ x ∈ l := by
  induction l with
  | nil => simpa [alSet] using h
  | cons hd tl ih =>
    obtain ⟨q, w⟩ := hd
    by_cases hq : q = p
    · simp only [alSet, if_pos hq, List.mem_cons] at h
      rcases h with h | h
      · left; rw [h, hq]
      · right; exact List.mem_cons_of_mem _ h
    · simp only [alSet, if_neg hq, List.mem_cons] at h
      rcases h with h | h
      · right; rw [h]; exact List.mem_cons_self _ _
      · rcases ih h with h | h
        · left; exact h
        · right; exact List.mem_cons_of_mem _ h

theorem mem_alErase {κ β : Type} [DecidableEq κ] (l : List (κ × β)) (p : κ)
    (x : κ × β) (h : x ∈ alErase l p) : x ∈ l := by
  induction l with
  | nil => simp [alErase] at h
  | cons hd tl ih =>
    obtain ⟨q, w⟩ := hd
    by_cases hq : q = p
    · simp only [alErase, if_pos hq] at h
      exact List.mem_cons_of_mem _ h
    · simp only [alErase, if_neg hq, List.mem_cons] at h
      rcases h with h | h
      · rw [h]; exact List.mem_cons_self _ _
      · exact List.mem_cons_of_mem _ (ih h)

theorem alSet_alSet {κ β : Type} [DecidableEq κ] (l : List (κ × β)) (p : κ) (v w : β) :
    alSet (alSet l p v) p w = alSet l p w := by
  induction l with
  | nil => simp [alSet]
  | cons hd tl ih =>
    obtain ⟨q, u⟩ := hd
    by_cases hq : q = p <;> simp [alSet, hq, ih]

/-! Mode-bit facts: an entry holding a regular file or a symlink never
reports directory kind, whatever its permission bits. -/

theorem mode_file_ne_dir (perm : Nat) : (S_IFREG ||| perm) &&& S_IFMT ≠ S_IFDIR := by
  intro h
  have h15 := congrArg (fun n => Nat.testBit n 15) h
  simp only [Nat.testBit_land, Nat.testBit_lor] at h15
  have h1 : Nat.testBit S_IFREG 15 = true := by decide
  have h2 : Nat.testBit S_IFMT 15 = true := by decide
  have h3 : Nat.testBit S_IFDIR 15 = false := by decide
  rw [h1, h2, h3] at h15
  simp at h15

theorem toStat_not_dir (e : FsEntry) (h : e.node ≠ .dir) : e.toStat.is_dir = false := by
  unfold StatResult.is_dir StatResult.type FsEntry.toStat FsEntry.mode
  cases hn : e.node with
  | dir => exact absurd hn h
  | file c =>
    simp only
    by_cases h1 : (S_IFREG ||| e.perm) &&& S_IFMT = S_IFREG
    · simp [h1]
    · rw [if_neg h1, if_neg (mode_file_ne_dir e.perm)]
      by_cases h3 : (S_IFREG ||| e.perm) &&& S_IFMT = S_IFLNK <;> simp [h3]
  | symlink t =>
    simp only
    have h1 : (S_IFLNK ||| 0o777) &&& S_IFMT = S_IFLNK := by decide
    have h2 : ¬ (S_IFLNK ||| 0o777) &&& S_IFMT = S_IFREG := by decide
    have h3 : ¬ (S_IFLNK ||| 0o777) &&& S_IFMT = S_IFDIR := by decide
    rw [if_neg h2, if_neg h3, if_pos h1]
    simp

theorem mkDirEntry_is_dir (clock : Int) : (mkDirEntry clock).toStat.is_dir = true := by
  unfold mkDirEntry StatResult.is_dir StatResult.type FsEntry.toStat FsEntry.mode
  simp only
  have h2 : ¬ (S_IFDIR ||| 0o755) &&& S_IFMT = S_IFREG := by decide
  have h1 : (S_IFDIR ||| 0o755) &&& S_IFMT = S_IFDIR := by decide
  rw [if_neg h2, if_pos h1]
  simp

/-! Preservation of `DirNoHash` by the elementary state writes. -/

theorem dirNoHash_erase (st : SyncState) (p : Path) (h : DirNoHash st) :
    DirNoHash { paths := alErase st.paths p, modified := true } := by
  intro pa hpa
  exact h pa (mem_alErase st.paths p pa hpa)

theorem dirNoHash_set_hash_none (st : SyncState) (p : Path) (h : DirNoHash st) :
    DirNoHash (st.path_set_hash p none) := by
  intro pa hpa
  rcases mem_alSet _ _ _ pa hpa with hx | hx
  · rw [hx]
    exact ⟨fun _ => rfl, fun _ _ _ => rfl⟩
  · exact h pa hx

theorem path_get_hash_none_of_stat_none (st : SyncState) (p : Path) (h : DirNoHash st)
    (hs : st.path_get_stat p = none) : st.path_get_hash p = none := by
  unfold SyncState.path_get_stat at hs
  unfold SyncState.path_get_hash
  cases hg : alGet st.paths p with
  | none => simp
  | some a =>
    rw [hg] at hs
    simp only [Option.some_bind] at hs ⊢
    exact (h (p, a) (mem_of_alGet st.paths p a hg)).1 hs

/-- Writing a fingerprint alone preserves the invariant when either the
fingerprint is not a directory's or the record's digest is already
clear. -/
theorem dirNoHash_set_stat (st : SyncState) (p : Path) (s : StatResult) (h : DirNoHash st)
    (hcase : s.is_dir = true → st.path_get_hash p = none) :
    DirNoHash (st.path_set_stat p s) := by
  intro pa hpa
  rcases mem_alSet _ _ _ pa hpa with hx | hx
  · rw [hx]
    refine ⟨fun hq => by simp at hq, fun s2 hs2 hd2 => ?_⟩
    simp only [Option.some.injEq] at hs2
    rw [← hs2] at hd2
    have hh := hcase hd2
    unfold SyncState.path_get_hash at hh
    cases hg : alGet st.paths p with
    | none => simp [hg]
    | some a =>
      rw [hg] at hh
      simp only [Option.some_bind] at hh
      simp [hg, hh]
  · exact h pa hx

/-- Writing a digest then a non-directory fingerprint (the created /
updated / materialized file pattern) preserves the invariant. -/
theorem dirNoHash_hash_stat_nondir (st : SyncState) (p : Path) (hs : Option String)
    (s : StatResult) (h : DirNoHash st) (hd : s.is_dir = false) :
    DirNoHash ((st.path_set_hash p hs).path_set_stat p s) := by
  intro pa hpa
  unfold SyncState.path_set_stat SyncState.path_set_hash at hpa
  simp only [alSet_alSet] at hpa
  rcases mem_alSet _ _ _ pa hpa with hx | hx
  · rw [hx]
    refine ⟨fun hq => by simp at hq, fun s2 hs2 hd2 => ?_⟩
    simp only [Option.some.injEq] at hs2
    rw [← hs2] at hd2
    rw [hd2] at hd
    cases hd
  · exact h pa hx

/-- Writing a cleared digest then any fingerprint (the directory
pattern) preserves the invariant. -/
theorem dirNoHash_hash_stat_none (st : SyncState) (p : Path) (s : StatResult)
    (h : DirNoHash st) :
    DirNoHash ((st.path_set_hash p none).path_set_stat p s) := by
  intro pa hpa
  unfold SyncState.path_set_stat SyncState.path_set_hash at hpa
  simp only [alSet_alSet, alGet_alSet_same] at hpa
  rcases mem_alSet _ _ _ pa hpa with hx | hx
  · rw [hx]
    exact ⟨fun hq => by simp at hq, fun s2 _ _ => by simp⟩
  · exact h pa hx

/-- A successful `os.makedirs` leaves a directory entry at the target
path. -/
theorem makedirs_result_dir (clock : Int) (rest : List String) :
    ∀ (fs : Fs) (pre : Path) (exist_ok : Bool) (fs2 : Fs),
    rest ≠ [] → osMakedirsGo clock fs pre rest exist_ok = .ok fs2 →
    ∃ e, alGet fs2 (pre ++ rest) = some e ∧ e.node = .dir := by
  induction rest with
  | nil => intro fs pre eo fs2 h; exact absurd rfl h
  | cons c rest ih =>
    intro fs pre eo fs2 _ hok
    unfold osMakedirsGo at hok
    cases hg : alGet fs (pre ++ [c]) with
    | some e =>
      simp only [hg] at hok
      cases hn : e.node with
      | dir =>
        simp only [hn] at hok
        by_cases hrest : rest = []
        · subst hrest
          cases eo with
          | false => simp at hok
          | true =>
            simp only [Bool.not_true, Bool.and_false, Bool.false_eq_true, if_false,
              osMakedirsGo] at hok
            cases hok
            exact ⟨e, hg, hn⟩
        · rw [if_neg (by simp [hrest])] at hok
          obtain ⟨e2, hg2, hn2⟩ := ih fs (pre ++ [c]) eo fs2 hrest hok
          exact ⟨e2, by rwa [← List.append_cons] at hg2, hn2⟩
      | file cc =>
        simp only [hn] at hok
        by_cases hrest : rest = [] <;> simp [hrest] at hok
      | symlink t =>
        simp only [hn] at hok
        by_cases hrest : rest = [] <;> simp [hrest] at hok
    | none =>
      simp only [hg] at hok
      by_cases hrest : rest = []
      · subst hrest
        unfold osMakedirsGo at hok
        cases hok
        exact ⟨mkDirEntry clock, alGet_alSet_same _ _ _, rfl⟩
      · obtain ⟨e2, hg2, hn2⟩ := ih _ (pre ++ [c]) eo fs2 hrest hok
        exact ⟨e2, by rwa [← List.append_cons] at hg2, hn2⟩

/-- Inspection preserves the directory-records-carry-no-digest
invariant, whatever its outcome. -/
theorem dirNoHash_inspect (r : SyncRoot) (p : Path) (force : Bool) (h : DirNoHash r.state) :
    DirNoHash (inspect_path_for_changes r p force).1.state := by
  unfold inspect_path_for_changes
  split
  · exact h
  · split
    next stat_info heq1 heq2 =>
      by_cases hdir : stat_info.is_dir
      · simp only [hdir, if_true]
        exact dirNoHash_set_stat _ p stat_info h
          (fun _ => path_get_hash_none_of_stat_none _ p h heq2)
      · simp only [hdir, Bool.false_eq_true, if_false]
        cases hch : get_file_hash r.fs p with
        | error e =>
          have hch2 : get_file_hash
              ({ r with changes := alSet r.changes p (Action.created, some stat_info) }
                : SyncRoot).fs p = .error e := hch
          simp only [hch2, Except.map]
          exact h
        | ok ch =>
          have hch2 : get_file_hash
              ({ r with changes := alSet r.changes p (Action.created, some stat_info) }
                : SyncRoot).fs p = .ok ch := hch
          simp only [hch2, Except.map]
          exact dirNoHash_hash_stat_nondir _ p (some ch) stat_info h
            (by simpa using hdir)
    next stat_info old heq1 heq2 =>
      by_cases hdir : stat_info.is_dir
      · by_cases heqs : stats_equal (some stat_info) (some old)
        · simp only [hdir, heqs, if_true, Bool.not_true, Bool.false_eq_true, if_false]
          exact h
        · simp only [hdir, heqs, if_true, Bool.not_false]
          exact dirNoHash_hash_stat_none _ p stat_info h
      · simp only [hdir, Bool.false_eq_true, if_false]
        by_cases hcond : (!stats_equal (some stat_info) (some old) || force) = true
        · simp only [hcond, if_true]
          cases hch : get_file_hash r.fs p with
          | error e => exact h
          | ok ch =>
            by_cases hsv : r.state.path_get_hash p ≠ some ch
            · simp only [hsv, if_pos, ne_eq, not_true_eq_false, if_true]
              exact dirNoHash_hash_stat_nondir _ p (some ch) stat_info h
                (by simpa using hdir)
            · simp only [ne_eq, not_not] at hsv
              simp only [hsv, ne_eq, not_true_eq_false, Bool.false_eq_true, if_false]
              exact h
        · simp only [hcond, Bool.false_eq_true, if_false]
          exact h
    next v heq1 heq2 =>
      split
      next e heq3 => exact h
      next st1 heq3 =>
        have hsh : st1 = { paths := alErase r.state.paths p, modified := true } := by
          unfold SyncState.path_delete at heq3
          cases hg : alGet r.state.paths p with
          | none => rw [hg] at heq3; cases heq3
          | some a =>
            rw [hg] at heq3
            simp only [Except.ok.injEq] at heq3
            exact heq3.symm
        rw [hsh]
        exact dirNoHash_erase r.state p h
    next heq1 heq2 => exact h

theorem dirNoHash_remove_change (r : SyncRoot) (p : Path) (h : DirNoHash r.state) :
    DirNoHash (remove_change r p).1.state :=
  dirNoHash_inspect { r with changes := alErase r.changes p } p true h

theorem dirNoHash_ensureDirStep (r : SyncRoot) (q : Path) (h : DirNoHash r.state) :
    DirNoHash (ensureDirStep r q).1.state := by
  unfold ensureDirStep
  have hstep : ∀ r1, (if osIsfile r.fs q
      then (osRemove r.fs q).map (fun fs => { r with fs := fs }) else .ok r) = .ok r1 →
      r1.state = r.state := by
    intro r1 h1
    by_cases hf : osIsfile r.fs q
    · rw [if_pos hf] at h1
      cases hrm : osRemove r.fs q with
      | error e => rw [hrm] at h1; cases h1
      | ok fs2 =>
        rw [hrm] at h1
        simp only [Except.map, Except.ok.injEq] at h1
        rw [← h1]
    · rw [if_neg hf] at h1
      cases h1
      rfl
  split
  next e heq => exact h
  next r1 heq =>
    have hst1 : r1.state = r.state := hstep r1 heq
    split
    · split
      next e heq2 => exact hst1 ▸ h
      next fs2 heq2 =>
        split
        next heq3 => exact dirNoHash_set_hash_none _ q (hst1 ▸ h)
        next s heq3 =>
          exact dirNoHash_remove_change _ q
            (dirNoHash_hash_stat_none _ q s (hst1 ▸ h))
    · exact hst1 ▸ h

theorem dirNoHash_ensureDirs (qs : List Path) :
    ∀ r : SyncRoot, DirNoHash r.state → DirNoHash (ensureDirs r qs).1.state := by
  induction qs with
  | nil => intro r h; exact h
  | cons q qs ih =>
    intro r h
    unfold ensureDirs
    rcases hx : ensureDirStep r q with ⟨r1, evs, exc⟩
    have h1 : DirNoHash r1.state := by
      have h2 := dirNoHash_ensureDirStep r q h
      rwa [hx] at h2
    cases exc with
    | ok u =>
      cases u
      rcases hy : ensureDirs r1 qs with ⟨r2, evs2, exc2⟩
      have h2 : DirNoHash r2.state := by
        have h3 := ih r1 h1
        rwa [hy] at h3
      simp only [hy]
      exact h2
    | error e => exact h1


theorem atomicCopyEffect_ok (srcFs : Fs) (sp : Path) (clock : Int) (entry : FsEntry)
    (hh : String) (h : atomicCopyEffect srcFs sp clock = .ok (entry, hh)) :
    entry.node ≠ .dir := by
  unfold atomicCopyEffect at h
  cases hg : alGet srcFs sp with
  | none => rw [hg] at h; cases h
  | some e =>
    simp only [hg] at h
    cases hn : e.node with
    | dir => rw [hn] at h; cases h
    | file c =>
      simp only [hn, Except.ok.injEq, Prod.mk.injEq] at h
      rw [← h.1]
      intro hc
      cases hc
    | symlink t =>
      simp only [hn, Except.ok.injEq, Prod.mk.injEq] at h
      rw [← h.1]
      intro hc
      cases hc

theorem dirNoHash_performCreateUpdate (r : SyncRoot) (k : PerformKind) (p : Path)
    (sfs : Fs) (sp : Path) (h : DirNoHash r.state) :
    DirNoHash (performCreateUpdate r k p sfs sp).1.state := by
  unfold performCreateUpdate
  split
  next r1 evs1 e heq =>
    have h1 := dirNoHash_ensureDirs (ancestorPartials p) r h
    rw [heq] at h1
    exact h1
  next r1 evs1 u heq =>
    have h1 : DirNoHash r1.state := by
      have h2 := dirNoHash_ensureDirs (ancestorPartials p) r h
      rw [heq] at h2
      exact h2
    have hpre : ∀ (cond : Bool) (rm : Except PyErr Fs) r2,
        (if cond then rm.map (fun fs => { r1 with fs := fs }) else .ok r1) = .ok r2 →
        r2.state = r1.state := by
      intro cond rm r2 hok
      cases cond with
      | false => rw [if_neg (by simp)] at hok; cases hok; rfl
      | true =>
        rw [if_pos rfl] at hok
        cases rm with
        | error e => cases hok
        | ok fs => simp only [Except.map, Except.ok.injEq] at hok; rw [← hok]
    split
    next e heq2 => exact h1
    next r4 heq2 =>
      by_cases hcond : (osIsdir sfs sp && !osIslink sfs sp) = true
      · rw [if_pos hcond] at heq2
        cases hp : (if osIsfile r1.fs p
            then (osRemove r1.fs p).map (fun fs => { r1 with fs := fs }) else .ok r1) with
        | error e => rw [hp] at heq2; cases heq2
        | ok r2 =>
          rw [hp] at heq2
          simp only [Except.bind] at heq2
          have hst2 : r2.state = r1.state := hpre _ _ r2 hp
          cases hmk : osMakedirs r2.clock r2.fs p true with
          | error e => rw [hmk] at heq2; cases heq2
          | ok fs =>
            rw [hmk] at heq2
            simp only [Except.map, Except.ok.injEq] at heq2
            have hr4st : r4.state = r2.state.path_set_hash p none := by rw [← heq2]
            split
            next heq3 =>
              rw [hr4st, hst2]
              exact dirNoHash_set_hash_none r1.state p h1
            next s heq3 =>
              rcases hrc : remove_change { r4 with state := r4.state.path_set_stat p s } p
                with ⟨r6, evs2, exc⟩
              have h6 := dirNoHash_remove_change { r4 with state := r4.state.path_set_stat p s }
                p (by
                  rw [hr4st, hst2]
                  exact dirNoHash_hash_stat_none r1.state p s h1)
              rw [hrc] at h6
              simpa [hrc] using h6
      · rw [if_neg hcond] at heq2
        cases hp : (if osIsdir r1.fs p
            then (osRmdir r1.fs p).map (fun fs => { r1 with fs := fs }) else .ok r1) with
        | error e => rw [hp] at heq2; cases heq2
        | ok r2 =>
          rw [hp] at heq2
          simp only [Except.bind] at heq2
          have hst2 : r2.state = r1.state := hpre _ _ r2 hp
          cases hcp : atomicCopyEffect sfs sp r2.clock with
          | error e => rw [hcp] at heq2; cases heq2
          | ok entryHash =>
            rw [hcp] at heq2
            simp only [Except.map, Except.ok.injEq] at heq2
            obtain ⟨entry, hh⟩ := entryHash
            have hnd : entry.node ≠ .dir := atomicCopyEffect_ok sfs sp r2.clock entry hh hcp
            have hr4st : r4.state = r2.state.path_set_hash p (some hh) := by rw [← heq2]
            have hr4fs : r4.fs = alSet r2.fs p entry := by rw [← heq2]
            split
            next heq3 =>
              exfalso
              unfold SyncRoot.stat at heq3
              rw [hr4fs, alGet_alSet_same] at heq3
              cases heq3
            next s heq3 =>
              have hs : s = entry.toStat := by
                unfold SyncRoot.stat at heq3
                rw [hr4fs, alGet_alSet_same] at heq3
                exact (Option.some.inj heq3).symm
              rcases hrc : remove_change { r4 with state := r4.state.path_set_stat p s } p
                with ⟨r6, evs2, exc⟩
              have h6 := dirNoHash_remove_change { r4 with state := r4.state.path_set_stat p s }
                p (by
                  rw [hr4st, hst2, hs]
                  exact dirNoHash_hash_stat_nondir r1.state p (some hh) entry.toStat h1
                    (toStat_not_dir entry hnd))
              rw [hrc] at h6
              simpa [hrc] using h6

theorem perform_action_delete_def (r : SyncRoot) (p : Path) (src : Option (Fs × Path)) :
    perform_action r .delete p src =
      match r.state.path_delete p with
      | .error e => (r, [Event.performed r.root_path .delete p], .error e)
      | .ok st =>
        match (if osIsdir r.fs p then osRmdir r.fs p else osRemove r.fs p) with
        | .ok fs =>
          match remove_change { r with state := st, fs := fs } p with
          | (r2, evs, exc) => (r2, Event.performed r.root_path .delete p :: evs, exc)
        | .error .fileNotFoundError =>
          match remove_change { r with state := st } p with
          | (r2, evs, exc) => (r2, Event.performed r.root_path .delete p :: evs, exc)
        | .error e =>
          ({ r with state := st }, [Event.performed r.root_path .delete p], .error e) :=
  rfl

theorem perform_action_create_def (r : SyncRoot) (p : Path) (src : Option (Fs × Path)) :
    perform_action r .create p src =
      match src with
      | none => (r, [Event.performed r.root_path .create p], .error .typeError)
      | some (sfs, sp) => performCreateUpdate r .create p sfs sp :=
  rfl

theorem perform_action_update_def (r : SyncRoot) (p : Path) (src : Option (Fs × Path)) :
    perform_action r .update p src =
      match src with
      | none => (r, [Event.performed r.root_path .update p], .error .typeError)
      | some (sfs, sp) => performCreateUpdate r .update p sfs sp :=
  rfl

theorem dirNoHash_perform_action (r : SyncRoot) (k : PerformKind) (p : Path)
    (src : Option (Fs × Path)) (h : DirNoHash r.state) :
    DirNoHash (perform_action r k p src).1.state := by
  cases k with
  | delete =>
    rw [perform_action_delete_def]
    split
    next e heq => exact h
    next st heq =>
      have hst : DirNoHash st := by
        unfold SyncState.path_delete at heq
        cases hg : alGet r.state.paths p with
        | none => rw [hg] at heq; cases heq
        | some a =>
          rw [hg] at heq
          simp only [Except.ok.injEq] at heq
          rw [← heq]
          exact dirNoHash_erase r.state p h
      split
      next fs heq2 =>
        rcases hrc : remove_change { r with state := st, fs := fs } p with ⟨r2, evs, exc⟩
        have h2 := dirNoHash_remove_change { r with state := st, fs := fs } p hst
        rw [hrc] at h2
        simpa [hrc] using h2
      next heq2 =>
        rcases hrc : remove_change { r with state := st } p with ⟨r2, evs, exc⟩
        have h2 := dirNoHash_remove_change { r with state := st } p hst
        rw [hrc] at h2
        simpa [hrc] using h2
      next e heq2 hne => exact hst
  | create =>
    rw [perform_action_create_def]
    cases src with
    | none => exact h
    | some fsp =>
      obtain ⟨sfs, sp⟩ := fsp
      exact dirNoHash_performCreateUpdate r .create p sfs sp h
  | update =>
    rw [perform_action_update_def]
    cases src with
    | none => exact h
    | some fsp =>
      obtain ⟨sfs, sp⟩ := fsp
      exact dirNoHash_performCreateUpdate r .update p sfs sp h


theorem dirNoHash_lookup (st : SyncState) (h : DirNoHash st) (q : Path) (s : StatResult)
    (hs : st.path_get_stat q = some s) (hd : s.is_dir = true) :
    st.path_get_hash q = none := by
  unfold SyncState.path_get_stat at hs
  unfold SyncState.path_get_hash
  cases hg : alGet st.paths q with
  | none => rw [hg] at hs; cases hs
  | some a =>
    rw [hg] at hs
    simp only [Option.some_bind] at hs
    simp only [Option.some_bind]
    exact (h (q, a) (mem_of_alGet _ _ _ hg)).2 s hs hd

/-- Claim C9: the invariant "a record whose stored fingerprint has
directory kind carries no content digest" holds in every reachable
stored state: it is preserved by inspection (with or without a forced
digest), by every `_perform_action` (create and update with their
ancestor-directory materialization, and delete), and by
`remove_change`; and under the invariant the digest lookup of every
directory-kind record yields none. -/
theorem C9_dir_records_no_digest (r : SyncRoot) (p : Path) (h : DirNoHash r.state) :
    (∀ force, DirNoHash (inspect_path_for_changes r p force).1.state) ∧
    (∀ k src, DirNoHash (perform_action r k p src).1.state) ∧
    DirNoHash (remove_change r p).1.state ∧
    (∀ q s, r.state.path_get_stat q = some s → s.is_dir = true →
      r.state.path_get_hash q = none) :=
  ⟨fun force => dirNoHash_inspect r p force h,
   fun k src => dirNoHash_perform_action r k p src h,
   dirNoHash_remove_change r p h,
   fun q s hs hd => dirNoHash_lookup r.state h q s hs hd⟩

/-- Claim C9, witness: the invariant theorem applied to a concrete root
whose records hold a regular file with a digest. -/
theorem C9_witness :
    (∀ force, DirNoHash (inspect_path_for_changes c5Root ["f"] force).1.state) ∧
    (∀ k src, DirNoHash (perform_action c5Root k ["f"] src).1.state) ∧
    DirNoHash (remove_change c5Root ["f"]).1.state ∧
    (∀ q s, c5Root.state.path_get_stat q = some s → s.is_dir = true →
      c5Root.state.path_get_hash q = none) :=
  C9_dir_records_no_digest c5Root ["f"] (by decide)

/-! ### Claim C2: idempotence of `sync` -/

/-- A list in which all elements are equal has at most one distinct
element. -/
theorem dedup_length_le_one {α : Type} [DecidableEq α] {l : List α}
    (h : ∀ x ∈ l, ∀ y ∈ l, x = y) : l.dedup.length ≤ 1 := by
  induction l with
  | nil => simp
  | cons a t ih =>
    by_cases hm : a ∈ t
    · rw [List.dedup_cons_of_mem hm]
      exact ih fun x hx y hy =>
        h x (List.mem_cons_of_mem a hx) y (List.mem_cons_of_mem a hy)
    · cases t with
      | nil => simp
      | cons b t' =>
        exact absurd
          ((h b (by simp) a (by simp)) ▸ List.mem_cons_self b t') hm

/-- `write_state` returning normally forces the pending changes to be
empty (before and after) and leaves the state flushed. -/
theorem write_state_ok (r r' : SyncRoot) (evs : List Event)
    (h : write_state r = (r', evs, .ok ())) :
    r.changes = [] ∧ r'.changes = [] ∧ r'.state.modified = false := by
  unfold write_state at h
  by_cases hch : r.changes = []
  · rw [if_neg (by simp [hch])] at h
    by_cases hm : r.state.modified
    · rw [if_pos hm] at h
      injection h with h1 h2
      rw [← h1]
      exact ⟨hch, hch, rfl⟩
    · rw [if_neg hm] at h
      injection h with h1 h2
      rw [← h1]
      exact ⟨hch, hch, by simpa using hm⟩
  · rw [if_pos (by simpa using hch)] at h
    injection h with h1 h2
    injection h2 with h3 h4
    cases h4

/-- `write_state` of a root with no pending change and a flushed state
does nothing. -/
theorem write_state_noop (r : SyncRoot) (hch : r.changes = [])
    (hm : r.state.modified = false) : write_state r = (r, [], .ok ()) := by
  unfold write_state
  rw [if_neg (by simp [hch]), if_neg (by simp [hm])]

/-- Writing back the element read at an index leaves the list unchanged. -/
theorem getD_set_self {α : Type} (l : List α) (i : Nat) (d : α) :
    l.set i (l.getD i d) = l := by
  induction l generalizing i with
  | nil => rfl
  | cons a t ih =>
    cases i with
    | zero => rfl
    | succ j => simpa [List.set, List.getD] using ih j

/-- Reading at an index other than the one written is unaffected. -/
theorem getD_set_getD_self {α : Type} (l : List α) (i j : Nat) (x d : α)
    (hne : i ≠ j) : (l.set i x).getD j d = l.getD j d := by
  induction l generalizing i j with
  | nil => rfl
  | cons a t ih =>
    cases i with
    | zero =>
      cases j with
      | zero => exact absurd rfl hne
      | succ j' => rfl
    | succ i' =>
      cases j with
      | zero => rfl
      | succ j' =>
        simpa [List.set, List.getD] using ih i' j' fun he => hne (by rw [he])

/-- Reading back the element just written. -/
theorem getD_set_eq {α : Type} (l : List α) (i : Nat) (x d : α)
    (hi : i < l.length) : (l.set i x).getD i d = x := by
  induction l generalizing i with
  | nil => simp at hi
  | cons a t ih =>
    cases i with
    | zero => rfl
    | succ j => simpa [List.set, List.getD] using ih j (by simpa using hi)

/-- An in-range `getD` is a member of the list. -/
theorem getD_mem_of_lt {α : Type} (l : List α) (i : Nat) (d : α)
    (hi : i < l.length) : l.getD i d ∈ l := by
  induction l generalizing i with
  | nil => simp at hi
  | cons a t ih =>
    cases i with
    | zero => exact List.mem_cons_self a t
    | succ j =>
      exact List.mem_cons_of_mem a (by simpa [List.getD] using ih j (by simpa using hi))

/-- The write-back fold over roots with no pending changes and flushed
states is the identity. -/
theorem foldWrite_noop (is : List Nat) (roots : List SyncRoot)
    (h : ∀ r ∈ roots, r.changes = [] ∧ r.state.modified = false) :
    foldRoots (fun i rs => write_state (rs.getD i default)) is roots =
      (roots, [], .ok ()) := by
  induction is with
  | nil => rfl
  | cons i is ih =>
    have hprops : (roots.getD i default).changes = [] ∧
        (roots.getD i default).state.modified = false := by
      by_cases hi : i < roots.length
      · exact h _ (getD_mem_of_lt roots i default hi)
      · rw [List.getD_eq_default]
        · exact ⟨rfl, rfl⟩
        · exact Nat.le_of_not_lt hi
    unfold foldRoots
    simp only [write_state_noop _ hprops.1 hprops.2, getD_set_self, ih, List.nil_append]

/-- When the write-back fold returns normally, every root it covered
ends with no pending changes and a flushed state. -/
theorem foldWrite_ok (is : List Nat) (roots roots' : List SyncRoot) (evs : List Event)
    (h : foldRoots (fun i rs => write_state (rs.getD i default)) is roots =
      (roots', evs, .ok ()))
    (hcov : ∀ j, j < roots.length → j ∈ is ∨
      ((roots.getD j default).changes = [] ∧
        (roots.getD j default).state.modified = false)) :
    ∀ r ∈ roots', r.changes = [] ∧ r.state.modified = false := by
  induction is generalizing roots evs with
  | nil =>
    injection h with h1 h2
    subst h1
    intro r hr
    obtain ⟨j, hj, hget⟩ := List.mem_iff_getElem.mp hr
    have := (hcov j hj).resolve_left (List.not_mem_nil j)
    rwa [List.getD_eq_getElem roots default hj, hget] at this
  | cons i is ih =>
    unfold foldRoots at h
    cases hw : write_state (roots.getD i default) with
    | mk r1 rest =>
      obtain ⟨evsa, exca⟩ := rest
      rw [hw] at h
      cases exca with
      | error e =>
        injection h with h1 h2
        injection h2 with h3 h4
        cases h4
      | ok u =>
        cases u
        cases hrec : foldRoots (fun i rs => write_state (rs.getD i default)) is
            (roots.set i r1) with
        | mk roots2 rest2 =>
          obtain ⟨evs2, exc2⟩ := rest2
          simp only [hrec] at h
          injection h with h1 h2
          injection h2 with h3 h4
          subst h1
          cases exc2 with
          | error e => cases h4
          | ok u2 =>
            cases u2
            obtain ⟨hw1, hw2, hw3⟩ := write_state_ok _ _ _ hw
            refine ih (roots.set i r1) evs2 hrec ?_
            intro j hj
            rw [List.length_set] at hj
            by_cases hij : i = j
            · subst hij
              right
              rw [getD_set_eq roots i r1 default hj]
              exact ⟨hw2, hw3⟩
            · rcases hcov j hj with hmem | hok
              · rcases List.mem_cons.mp hmem with hji | hji
                · exact absurd hji.symm hij
                · exact Or.inl hji
              · right
                rwa [getD_set_getD_self roots i j r1 default hij]

/-- With every root's pending changes empty, no pending change exists
anywhere. -/
theorem allChanges_eq_nil (roots : List SyncRoot)
    (h : ∀ r ∈ roots, r.changes = []) : allChanges roots = [] := by
  unfold allChanges
  induction roots with
  | nil => rfl
  | cons r rs ih =>
    rw [List.flatMap_cons, h r (List.mem_cons_self r rs),
      ih fun q hq => h q (List.mem_cons_of_mem r hq)]
    rfl

/-- Inversion of a normal `sync` return: the run ends in the write-back
fold over some intermediate root list, returning the final roots
normally. -/
theorem sync_ok_write (env : Env) (trust : Bool) (fuel : Nat)
    (roots roots1 : List SyncRoot) (evs1 : List Event)
    (hrun : sync env trust fuel roots = ((roots1, evs1), .ok ())) :
    ∃ roots2 evs3, foldRoots (fun i rs => write_state (rs.getD i default))
      (List.range roots2.length) roots2 = (roots1, evs3, .ok ()) := by
  unfold sync at hrun
  cases h1 : syncLoopGo env fuel [] roots with
  | mk a exc1 =>
    obtain ⟨rootsA, evsA, counter⟩ := a
    rw [h1] at hrun
    cases exc1 with
    | error e =>
      injection hrun with h2 h3
      cases h3
    | ok u =>
      cases u
      cases h2 : (if trust then ((rootsA, ([] : List Event), counter), Except.ok ())
          else catchUpGo counter rootsA (List.range rootsA.length)) with
      | mk b exc2 =>
        obtain ⟨rootsB, evsB, counterB⟩ := b
        simp only [h2] at hrun
        cases exc2 with
        | error e =>
          injection hrun with h3 h4
          cases h4
        | ok u2 =>
          cases u2
          cases h3 : foldRoots (fun i rs => write_state (rs.getD i default))
              (List.range rootsB.length) rootsB with
          | mk roots3 rest3 =>
            obtain ⟨evs3, exc3⟩ := rest3
            simp only [h3] at hrun
            injection hrun with h4 h5
            injection h4 with h6 h7
            subst h6
            cases exc3 with
            | error e => cases h5
            | ok u3 => exact ⟨rootsB, evs3, h3⟩

/-- `_sync_path` on a path with no pending change anywhere and with all
stored types and digests in agreement does nothing: the metadata
comparison finds a single type and a single digest. -/
theorem sync_path_noop (roots : List SyncRoot) (p : Path)
    (hch : ∀ r ∈ roots, r.changes = [])
    (htype : ∀ r1 ∈ roots, ∀ r2 ∈ roots,
      (r1.state.path_get_stat p).map StatResult.type =
        (r2.state.path_get_stat p).map StatResult.type)
    (hhash : ∀ r1 ∈ roots, ∀ r2 ∈ roots,
      r1.state.path_get_hash p = r2.state.path_get_hash p) :
    sync_path roots p = (roots, [], .ok ()) := by
  have hact : ∀ r ∈ roots, changeActionOf r p = none := by
    intro r hr
    simp [changeActionOf, hch r hr, alGet]
  have h1 : (roots.any fun r => changeActionOf r p == some .deleted) = false := by
    rw [List.any_eq_false]
    intro r hr
    simp [hact r hr]
  have h2 : (roots.any fun r =>
      changeActionOf r p == some .updated || changeActionOf r p == some .created) = false := by
    rw [List.any_eq_false]
    intro r hr
    simp [hact r hr]
  have htle : ((roots.map fun r =>
      (r.state.path_get_stat p).map StatResult.type).dedup).length ≤ 1 := by
    apply dedup_length_le_one
    intro x hx y hy
    simp only [List.mem_map] at hx hy
    obtain ⟨r1, hr1, hx⟩ := hx
    obtain ⟨r2, hr2, hy⟩ := hy
    rw [← hx, ← hy]
    exact htype r1 hr1 r2 hr2
  have hhle : ((roots.map fun r => r.state.path_get_hash p).dedup).length ≤ 1 := by
    apply dedup_length_le_one
    intro x hx y hy
    simp only [List.mem_map] at hx hy
    obtain ⟨r1, hr1, hx⟩ := hx
    obtain ⟨r2, hr2, hy⟩ := hy
    rw [← hx, ← hy]
    exact hhash r1 hr1 r2 hr2
  unfold sync_path
  rw [h1, h2]
  simp only [Bool.not_false, Bool.and_self, if_true, if_pos]
  rw [decide_eq_false (Nat.not_lt.mpr htle), decide_eq_false (Nat.not_lt.mpr hhle)]
  simp

/-- The catch-up inner loop over paths on which `_sync_path` is a no-op
leaves the roots unchanged and performs nothing. -/
theorem catchUpPaths_noop (roots : List SyncRoot) (ps : List Path)
    (hnoop : ∀ p ∈ ps, sync_path roots p = (roots, [], .ok ())) :
    ∀ counter, ∃ counter',
      catchUpPaths counter roots ps = ((roots, [], counter'), .ok ()) := by
  induction ps with
  | nil => intro counter; exact ⟨counter, rfl⟩
  | cons p ps ih =>
    intro counter
    have hn := hnoop p (List.mem_cons_self p ps)
    have ihp := ih fun q hq => hnoop q (List.mem_cons_of_mem p hq)
    unfold catchUpPaths
    by_cases hc : (alGet counter p).isSome
    · rw [if_pos hc]
      exact ihp counter
    · obtain ⟨c', hc'⟩ := ihp (alSet counter p ((alGet counter p).getD 0 + 1))
      rw [if_neg hc]
      simp only [hn, hc']
      exact ⟨c', rfl⟩

/-- The catch-up pass over roots whose recorded paths are all no-ops
leaves the roots unchanged and performs nothing. -/
theorem catchUpGo_noop (roots : List SyncRoot) (is : List Nat)
    (hnoop : ∀ i ∈ is, ∀ p ∈ (roots.getD i default).state.pathsList,
      sync_path roots p = (roots, [], .ok ())) :
    ∀ counter, ∃ counter',
      catchUpGo counter roots is = ((roots, [], counter'), .ok ()) := by
  induction is with
  | nil => intro counter; exact ⟨counter, rfl⟩
  | cons i is ih =>
    intro counter
    obtain ⟨c1, hc1⟩ := catchUpPaths_noop roots
      ((roots.getD i default).state.pathsList)
      (hnoop i (List.mem_cons_self i is)) counter
    obtain ⟨c2, hc2⟩ := ih
      (fun j hj => hnoop j (List.mem_cons_of_mem i hj)) c1
    unfold catchUpGo
    simp only [hc1, hc2]
    exact ⟨c2, rfl⟩

/-- Claim C2, counterexample.  The claim says that after a normal
`sync()` the catch-up pass of a second call performs no mutation because
all roots' stored types and digests already agree for every recorded
path.  Starting from root `a` holding a stale record for `d/f` and root
`b` holding `d/f` live with `d` unrecorded, the first `sync()` returns
normally (propagating `b`'s copy to `a`), and every pending change is
resolved -- but the stored records now DISAGREE: `a` recorded the
directory `d` it had to create, `b` never recorded `d`.  The second
call's catch-up pass then performs an update of `d` on `b`: a mutation,
contradicting the claim. -/
theorem C2_counterexample :
    (sync idEnv false 20 [c2A, c2B]).2 = .ok () ∧
    (∀ r ∈ (sync idEnv false 20 [c2A, c2B]).1.1, r.changes = []) ∧
    ¬ recordsAgree (sync idEnv false 20 [c2A, c2B]).1.1 ∧
    Event.performed ["b"] .update ["d"] ∈
      (sync idEnv false 20 (sync idEnv false 20 [c2A, c2B]).1.1).1.2 :=
  ⟨by decide, by decide, by decide, by decide⟩

/-- Claim C2, amended.  If `sync()` returns normally then every root's
pending-change set is empty, so a second call selects no path from the
pending-change loop; and PROVIDED the stored types and digests of all
roots agree for every recorded path (which a normal first return does
not guarantee -- see the counterexample), the second call is a complete
no-op: it performs no mutation, emits no event, and returns the roots
unchanged, with every pending-change set empty on and after it. -/
theorem C2_idempotence (fuel : Nat) (roots roots1 : List SyncRoot) (evs1 : List Event)
    (hfuel : fuel ≠ 0)
    (hrun : sync idEnv false fuel roots = ((roots1, evs1), .ok ()))
    (hagree : recordsAgree roots1) :
    (∀ r ∈ roots1, r.changes = []) ∧
    get_changed_path roots1 = none ∧
    sync idEnv false fuel roots1 = ((roots1, []), .ok ()) := by
  obtain ⟨roots2, evs3, hw⟩ := sync_ok_write idEnv false fuel roots roots1 evs1 hrun
  have hprops := foldWrite_ok _ _ _ _ hw fun j hj => Or.inl (List.mem_range.mpr hj)
  have hch : ∀ r ∈ roots1, r.changes = [] := fun r hr => (hprops r hr).1
  have hnone : get_changed_path roots1 = none :=
    (get_changed_path_none_iff roots1).mpr (allChanges_eq_nil roots1 hch)
  refine ⟨hch, hnone, ?_⟩
  obtain ⟨f, rfl⟩ : ∃ f, fuel = f + 1 := by
    cases fuel with
    | zero => exact absurd rfl hfuel
    | succ f => exact ⟨f, rfl⟩
  have hloop : syncLoopGo idEnv (f+1) [] roots1 = ((roots1, [], []), .ok ()) := by
    unfold syncLoopGo
    simp only [idEnv, hnone]
  have hnoop : ∀ i ∈ List.range roots1.length,
      ∀ p ∈ (roots1.getD i default).state.pathsList,
      sync_path roots1 p = (roots1, [], .ok ()) := by
    intro i hi p hp
    have hg : roots1.getD i default ∈ roots1 :=
      getD_mem_of_lt _ _ _ (List.mem_range.mp hi)
    refine sync_path_noop roots1 p hch ?_ ?_
    · intro r1 hr1 r2 hr2
      have e1 := (hagree _ hg r1 hr1 p hp).1
      have e2 := (hagree _ hg r2 hr2 p hp).1
      rw [← e1, ← e2]
    · intro r1 hr1 r2 hr2
      have e1 := (hagree _ hg r1 hr1 p hp).2
      have e2 := (hagree _ hg r2 hr2 p hp).2
      rw [← e1, ← e2]
  obtain ⟨c', hcatch⟩ := catchUpGo_noop roots1 (List.range roots1.length) hnoop []
  have hwrite := foldWrite_noop (List.range roots1.length) roots1 hprops
  unfold sync
  rw [hloop]
  simp only [Bool.false_eq_true, if_false, hcatch, hwrite, List.nil_append]

/-- Claim C2, witness: the amended theorem applied to a fully persisted
empty root. -/
theorem C2_witness :
    (∀ r ∈ [c2w], r.changes = []) ∧
    get_changed_path [c2w] = none ∧
    sync idEnv false 1 [c2w] = (([c2w], []), .ok ()) :=
  C2_idempotence 1 [c2w] [c2w] [] (by decide) (by decide) (by decide)

/-! ### Claim C1: delete wins over simultaneous update/creation -/

theorem alGet_alErase_none {κ β : Type} [DecidableEq κ] (l : List (κ × β)) (p x : κ)
    (h : alGet l x = none) : alGet (alErase l p) x = none := by
  induction l with
  | nil => rfl
  | cons hd tl ih =>
    obtain ⟨q, w⟩ := hd
    by_cases hq : q = p
    · simp only [alErase, if_pos hq]
      simp only [alGet] at h
      by_cases hx : q = x
      · simp [hx] at h
      · simpa [alGet, hx] using h
    · simp only [alGet] at h
      by_cases hx : q = x
      · simp [hx] at h
      · simp only [alErase, if_neg hq, alGet, if_neg hx]
        exact ih (by simpa [alGet, hx] using h)

theorem alErase_sublist {κ β : Type} [DecidableEq κ] (l : List (κ × β)) (p : κ) :
    (alErase l p).Sublist l := by
  induction l with
  | nil => simp [alErase]
  | cons hd tl ih =>
    obtain ⟨q, w⟩ := hd
    by_cases hq : q = p
    · simp only [alErase, if_pos hq]
      exact List.sublist_cons_self (q, w) tl
    · simp only [alErase, if_neg hq]
      exact List.Sublist.cons₂ (q, w) ih

theorem nodup_alErase {κ β : Type} [DecidableEq κ] (l : List (κ × β)) (p : κ)
    (h : (l.map Prod.fst).Nodup) : ((alErase l p).map Prod.fst).Nodup :=
  List.Nodup.sublist (List.Sublist.map Prod.fst (alErase_sublist l p)) h

theorem keys_alSet_of_mem {κ β : Type} [DecidableEq κ] (l : List (κ × β)) (p : κ) (v : β)
    (hp : p ∈ l.map Prod.fst) : (alSet l p v).map Prod.fst = l.map Prod.fst := by
  induction l with
  | nil => simp at hp
  | cons hd tl ih =>
    obtain ⟨q, w⟩ := hd
    by_cases hq : q = p
    · simp [alSet, hq]
    · have hp' : p ∈ tl.map Prod.fst := by
        simp only [List.map_cons, List.mem_cons] at hp
        rcases hp with h | h
        · exact absurd h.symm hq
        · exact h
      simp [alSet, if_neg hq, ih hp']

theorem keys_alSet_of_not_mem {κ β : Type} [DecidableEq κ] (l : List (κ × β)) (p : κ) (v : β)
    (hp : p ∉ l.map Prod.fst) : (alSet l p v).map Prod.fst = l.map Prod.fst ++ [p] := by
  induction l with
  | nil => rfl
  | cons hd tl ih =>
    obtain ⟨q, w⟩ := hd
    simp only [List.map_cons, List.mem_cons, not_or] at hp
    have hq : q ≠ p := fun h => hp.1 h.symm
    simp [alSet, if_neg hq, ih hp.2]

theorem nodup_alSet {κ β : Type} [DecidableEq κ] (l : List (κ × β)) (p : κ) (v : β)
    (h : (l.map Prod.fst).Nodup) : ((alSet l p v).map Prod.fst).Nodup := by
  by_cases hp : p ∈ l.map Prod.fst
  · rwa [keys_alSet_of_mem l p v hp]
  · rw [keys_alSet_of_not_mem l p v hp]
    exact List.Nodup.append h (List.nodup_singleton p)
      (fun a ha hap => hp ((List.mem_singleton.mp hap) ▸ ha))

theorem alGet_of_mem_nodup {κ β : Type} [DecidableEq κ] (l : List (κ × β)) (p : κ) (v : β)
    (hmem : (p, v) ∈ l) (hnd : (l.map Prod.fst).Nodup) : alGet l p = some v := by
  induction l with
  | nil => simp at hmem
  | cons hd tl ih =>
    obtain ⟨q, w⟩ := hd
    simp only [List.map_cons, List.nodup_cons] at hnd
    rcases List.mem_cons.mp hmem with h | h
    · obtain ⟨h1, h2⟩ := Prod.mk.injEq .. ▸ h
      injection h with h1 h2
      subst h1; subst h2
      simp [alGet]
    · have hq : q ≠ p := by
        intro hqp
        subst hqp
        exact hnd.1 (List.mem_map.mpr ⟨(q, v), h, rfl⟩)
      simp only [alGet, if_neg hq]
      exact ih h hnd.2

theorem dropLast_isPrefix {α : Type} (l : List α) : l.dropLast <+: l := by
  induction l with
  | nil => exact List.prefix_refl _
  | cons a t ih =>
    cases t with
    | nil => simp
    | cons b t' =>
      simp only [List.dropLast_cons₂]
      exact (List.prefix_cons_inj a).mpr ih

theorem dropLast_ne_self {α : Type} (l : List α) (h : l ≠ []) : l.dropLast ≠ l := by
  intro he
  have := congrArg List.length he
  rw [List.length_dropLast] at this
  have hpos : 0 < l.length := List.length_pos.mpr h
  omega

theorem prefix_dropLast_of_ne {α : Type} (x q : List α) (h : x <+: q) (hne : x ≠ q) :
    x <+: q.dropLast := by
  obtain ⟨t, ht⟩ := h
  cases t with
  | nil => exact absurd (by simpa using ht) hne
  | cons c t' =>
    refine ⟨(c :: t').dropLast, ?_⟩
    rw [← ht, List.dropLast_append_of_ne_nil]
    simp

theorem fsClosed_chain (fs : Fs) (hc : FsClosed fs) :
    ∀ n q, q.length ≤ n → (∃ e, alGet fs q = some e) →
      ∀ x, x <+: q → x ≠ [] → ∃ e', alGet fs x = some e' := by
  intro n
  induction n with
  | zero =>
    intro q hq _ x hx hne
    have : q = [] := List.eq_nil_of_length_eq_zero (Nat.le_zero.mp hq)
    subst this
    exact absurd (List.prefix_nil.mp hx) hne
  | succ n ih =>
    intro q hq he x hx hne
    by_cases hxq : x = q
    · subst hxq; exact he
    · obtain ⟨e, hee⟩ := he
      have hmem := mem_of_alGet fs q e hee
      obtain ⟨hqne, hpar⟩ := hc (q, e) hmem
      rcases hpar with hnil | ⟨e', he', _⟩
      · exfalso
        have := prefix_dropLast_of_ne x q hx hxq
        rw [hnil] at this
        exact hne (List.prefix_nil.mp this)
      · refine ih q.dropLast ?_ ⟨e', he'⟩ x (prefix_dropLast_of_ne x q hx hxq) hne
        have : q.length - 1 ≤ n := by
          have hpos : 0 < q.length := List.length_pos.mpr hqne
          omega
        simpa [List.length_dropLast] using this

theorem paths_set_stat_ne (st : SyncState) (q : Path) (s : StatResult) (x : Path)
    (hx : x ≠ q) : alGet (st.path_set_stat q s).paths x = alGet st.paths x :=
  alGet_alSet_ne st.paths q x _ (Ne.symm hx)

theorem paths_set_hash_ne (st : SyncState) (q : Path) (h : Option String) (x : Path)
    (hx : x ≠ q) : alGet (st.path_set_hash q h).paths x = alGet st.paths x :=
  alGet_alSet_ne st.paths q x _ (Ne.symm hx)

theorem path_delete_paths (st st' : SyncState) (q : Path)
    (h : st.path_delete q = .ok st') : st'.paths = alErase st.paths q := by
  unfold SyncState.path_delete at h
  split at h
  · cases h
  · injection h with h1
    rw [← h1]

theorem inspect_untouched (r : SyncRoot) (q : Path) (f : Bool) (x : Path) (hx : x ≠ q) :
    (inspect_path_for_changes r q f).1.fs = r.fs ∧
    alGet (inspect_path_for_changes r q f).1.state.paths x = alGet r.state.paths x ∧
    alGet (inspect_path_for_changes r q f).1.changes x = alGet r.changes x := by
  have hxs : ∀ v, alGet (alSet r.changes q v) x = alGet r.changes x :=
    fun v => alGet_alSet_ne r.changes q x v (Ne.symm hx)
  by_cases hig : should_ignore_path q
  · simp [inspect_path_for_changes, hig]
  · cases hstat : SyncRoot.stat r q with
    | none =>
      cases hold : r.state.path_get_stat q with
      | none =>
        simp only [inspect_path_for_changes, hig, hstat, hold, Bool.false_eq_true, if_false]
        exact ⟨by trivial, by trivial, by trivial⟩
      | some old =>
        cases hdel : r.state.path_delete q with
        | error e =>
          simp only [inspect_path_for_changes, hig, hstat, hold, hdel,
            Bool.false_eq_true, if_false]
          exact ⟨by trivial, by trivial, hxs _⟩
        | ok st1 =>
          simp only [inspect_path_for_changes, hig, hstat, hold, hdel,
            Bool.false_eq_true, if_false]
          refine ⟨by trivial, ?_, hxs _⟩
          rw [path_delete_paths _ _ _ hdel]
          exact alGet_alErase_ne _ _ _ (Ne.symm hx)
    | some si =>
      cases hold : r.state.path_get_stat q with
      | none =>
        by_cases hdir : si.is_dir
        · simp only [inspect_path_for_changes, hig, hstat, hold, hdir,
            Bool.false_eq_true, if_false, if_true]
          exact ⟨by trivial, paths_set_stat_ne _ _ _ _ hx, hxs _⟩
        · rw [Bool.not_eq_true] at hdir
          cases hh : get_file_hash r.fs q with
          | error e =>
            simp only [inspect_path_for_changes, hig, hstat, hold, hdir, hh,
              Bool.false_eq_true, if_false, Except.map]
            exact ⟨by trivial, by trivial, hxs _⟩
          | ok hv =>
            simp only [inspect_path_for_changes, hig, hstat, hold, hdir, hh,
              Bool.false_eq_true, if_false, Except.map]
            refine ⟨by trivial, ?_, hxs _⟩
            rw [paths_set_stat_ne _ _ _ _ hx, paths_set_hash_ne _ _ _ _ hx]
      | some old =>
        by_cases hdir : si.is_dir
        · simp only [inspect_path_for_changes, hig, hstat, hold, hdir,
            Bool.false_eq_true, if_false, if_true]
          split
          · refine ⟨by trivial, ?_, hxs _⟩
            rw [paths_set_stat_ne _ _ _ _ hx, paths_set_hash_ne _ _ _ _ hx]
          · exact ⟨by trivial, by trivial, by trivial⟩
        · rw [Bool.not_eq_true] at hdir
          simp only [inspect_path_for_changes, hig, hstat, hold, hdir,
            Bool.false_eq_true, if_false]
          split
          · cases hh : get_file_hash r.fs q with
            | error e =>
              simp only [hh]
              exact ⟨by trivial, by trivial, by trivial⟩
            | ok hv =>
              simp only [hh]
              split
              · refine ⟨by trivial, ?_, hxs _⟩
                rw [paths_set_stat_ne _ _ _ _ hx, paths_set_hash_ne _ _ _ _ hx]
              · exact ⟨by trivial, by trivial, by trivial⟩
          · exact ⟨by trivial, by trivial, by trivial⟩

theorem rootWf_mk (r : SyncRoot) (fs : Fs) (st : SyncState)
    (ch : List (Path × Action × Option StatResult))
    (hfs : (fs.map Prod.fst).Nodup) (hcl : FsClosed fs)
    (hst : (st.paths.map Prod.fst).Nodup) (hch : (ch.map Prod.fst).Nodup) :
    RootWf { r with fs := fs, state := st, changes := ch } :=
  ⟨hfs, hst, hch, hcl⟩

theorem inspect_wf (r : SyncRoot) (q : Path) (f : Bool) (h : RootWf r) :
    RootWf (inspect_path_for_changes r q f).1 := by
  obtain ⟨h1, h2, h3, h4⟩ := h
  by_cases hig : should_ignore_path q
  · simpa [inspect_path_for_changes, hig] using ⟨h1, h2, h3, h4⟩
  · cases hstat : SyncRoot.stat r q with
    | none =>
      cases hold : r.state.path_get_stat q with
      | none =>
        simp only [inspect_path_for_changes, hig, hstat, hold, Bool.false_eq_true, if_false]
        exact ⟨h1, h2, h3, h4⟩
      | some old =>
        cases hdel : r.state.path_delete q with
        | error e =>
          simp only [inspect_path_for_changes, hig, hstat, hold, hdel,
            Bool.false_eq_true, if_false]
          exact ⟨h1, h2, nodup_alSet _ _ _ h3, h4⟩
        | ok st1 =>
          simp only [inspect_path_for_changes, hig, hstat, hold, hdel,
            Bool.false_eq_true, if_false]
          refine ⟨h1, ?_, nodup_alSet _ _ _ h3, h4⟩
          rw [path_delete_paths _ _ _ hdel]
          exact nodup_alErase _ _ h2
    | some si =>
      cases hold : r.state.path_get_stat q with
      | none =>
        by_cases hdir : si.is_dir
        · simp only [inspect_path_for_changes, hig, hstat, hold, hdir,
            Bool.false_eq_true, if_false, if_true]
          exact ⟨h1, nodup_alSet _ _ _ h2, nodup_alSet _ _ _ h3, h4⟩
        · rw [Bool.not_eq_true] at hdir
          cases hh : get_file_hash r.fs q with
          | error e =>
            simp only [inspect_path_for_changes, hig, hstat, hold, hdir, hh,
              Bool.false_eq_true, if_false, Except.map]
            exact ⟨h1, h2, nodup_alSet _ _ _ h3, h4⟩
          | ok hv =>
            simp only [inspect_path_for_changes, hig, hstat, hold, hdir, hh,
              Bool.false_eq_true, if_false, Except.map]
            exact ⟨h1, nodup_alSet _ _ _ (nodup_alSet _ _ _ h2), nodup_alSet _ _ _ h3, h4⟩
      | some old =>
        by_cases hdir : si.is_dir
        · simp only [inspect_path_for_changes, hig, hstat, hold, hdir,
            Bool.false_eq_true, if_false, if_true]
          split
          · exact ⟨h1, nodup_alSet _ _ _ (nodup_alSet _ _ _ h2), nodup_alSet _ _ _ h3, h4⟩
          · exact ⟨h1, h2, h3, h4⟩
        · rw [Bool.not_eq_true] at hdir
          simp only [inspect_path_for_changes, hig, hstat, hold, hdir,
            Bool.false_eq_true, if_false]
          split
          · cases hh : get_file_hash r.fs q with
            | error e =>
              simp only [hh]
              exact ⟨h1, h2, h3, h4⟩
            | ok hv =>
              simp only [hh]
              split
              · exact ⟨h1, nodup_alSet _ _ _ (nodup_alSet _ _ _ h2), nodup_alSet _ _ _ h3, h4⟩
              · exact ⟨h1, h2, h3, h4⟩
          · exact ⟨h1, h2, h3, h4⟩

theorem remove_change_untouched (r : SyncRoot) (q : Path) (x : Path) (hx : x ≠ q) :
    (remove_change r q).1.fs = r.fs ∧
    alGet (remove_change r q).1.state.paths x = alGet r.state.paths x ∧
    alGet (remove_change r q).1.changes x = alGet r.changes x := by
  unfold remove_change
  obtain ⟨hfs, hst, hch⟩ :=
    inspect_untouched { r with changes := alErase r.changes q } q true x hx
  exact ⟨hfs, hst, by rw [hch]; exact alGet_alErase_ne _ _ _ (Ne.symm hx)⟩

theorem remove_change_wf (r : SyncRoot) (q : Path) (h : RootWf r) :
    RootWf (remove_change r q).1 := by
  unfold remove_change
  exact inspect_wf _ q true ⟨h.1, h.2.1, nodup_alErase _ _ h.2.2.1, h.2.2.2⟩

theorem fsClosed_alSet (fs : Fs) (q : Path) (e : FsEntry) (hc : FsClosed fs)
    (hq : q ≠ [])
    (hpar : q.dropLast = [] ∨
      ∃ e', alGet fs q.dropLast = some e' ∧ e'.node.isDirNode = true)
    (hnew : ∀ e0, alGet fs q = some e0 → e0.node.isDirNode = false) :
    FsClosed (alSet fs q e) := by
  intro xe hxe
  rcases mem_alSet fs q e xe hxe with hx | hx
  · subst hx
    refine ⟨hq, ?_⟩
    rcases hpar with hnil | ⟨e', he', hd⟩
    · exact Or.inl hnil
    · refine Or.inr ⟨e', ?_, hd⟩
      rw [alGet_alSet_ne fs q _ e (fun h => (dropLast_ne_self q hq) h.symm)]
      exact he'
  · obtain ⟨hne, hpar'⟩ := hc xe hx
    refine ⟨hne, ?_⟩
    rcases hpar' with hnil | ⟨e', he', hd⟩
    · exact Or.inl hnil
    · by_cases hdq : (Prod.fst xe).dropLast = q
      · rw [hdq] at he'
        exact absurd hd (by simp [hnew e' he'])
      · refine Or.inr ⟨e', ?_, hd⟩
        rw [alGet_alSet_ne fs q _ e (fun h => hdq h.symm)]
        exact he'

theorem fsClosed_alErase (fs : Fs) (q : Path) (hc : FsClosed fs)
    (hnochild : ∀ xe ∈ fs, (Prod.fst xe).dropLast ≠ q ∨ alGet fs q = none) :
    FsClosed (alErase fs q) := by
  intro xe hxe
  have hx := mem_alErase fs q xe hxe
  obtain ⟨hne, hpar⟩ := hc xe hx
  refine ⟨hne, ?_⟩
  rcases hpar with hnil | ⟨e', he', hd⟩
  · exact Or.inl hnil
  · by_cases hdq : (Prod.fst xe).dropLast = q
    · rcases hnochild xe hx with hdq2 | habs
      · exact absurd hdq hdq2
      · rw [hdq, habs] at he'
        cases he'
    · refine Or.inr ⟨e', ?_, hd⟩
      rw [alGet_alErase_ne fs q _ (fun h => hdq h.symm)]
      exact he'

theorem osMakedirsGo_untouched (clock : Int) (exist_ok : Bool) :
    ∀ (rest : List String) (pre : Path) (fs fs' : Fs),
      osMakedirsGo clock fs pre rest exist_ok = .ok fs' →
      ∀ x, ¬ x <+: (pre ++ rest) → alGet fs' x = alGet fs x := by
  intro rest
  induction rest with
  | nil =>
    intro pre fs fs' h x _
    injection h with h1
    rw [h1]
  | cons c rest ih =>
    intro pre fs fs' h x hx
    unfold osMakedirsGo at h
    rcases hg : alGet fs (pre ++ [c]) with _ | e
    · simp only [hg] at h
      have hxn : ¬ x <+: ((pre ++ [c]) ++ rest) := by
        rwa [List.append_assoc, List.singleton_append]
      have := ih (pre ++ [c]) _ _ h x hxn
      rw [this]
      refine alGet_alSet_ne fs (pre ++ [c]) x (mkDirEntry clock) ?_
      intro he
      subst he
      refine hx ?_
      rw [show pre ++ c :: rest = (pre ++ [c]) ++ rest by
        rw [List.append_assoc, List.singleton_append]]
      exact ⟨rest, rfl⟩
    · simp only [hg] at h
      cases he : e.node with
      | dir =>
        simp only [he] at h
        split at h
        · cases h
        · have hxn : ¬ x <+: ((pre ++ [c]) ++ rest) := by
            rwa [List.append_assoc, List.singleton_append]
          exact ih (pre ++ [c]) _ _ h x hxn
      | file ct =>
        simp only [he] at h
        split at h <;> cases h
      | symlink t =>
        simp only [he] at h
        split at h <;> cases h

theorem osMakedirsGo_mono (clock : Int) (exist_ok : Bool) :
    ∀ (rest : List String) (pre : Path) (fs fs' : Fs),
      osMakedirsGo clock fs pre rest exist_ok = .ok fs' →
      ∀ x e0, alGet fs x = some e0 → alGet fs' x = some e0 := by
  intro rest
  induction rest with
  | nil =>
    intro pre fs fs' h x e0 hx
    injection h with h1
    rw [h1] at hx
    exact hx
  | cons c rest ih =>
    intro pre fs fs' h x e0 hx
    unfold osMakedirsGo at h
    rcases hg : alGet fs (pre ++ [c]) with _ | e
    · simp only [hg] at h
      refine ih (pre ++ [c]) _ _ h x e0 ?_
      have hne : pre ++ [c] ≠ x := by
        intro he
        rw [he] at hg
        rw [hg] at hx
        cases hx
      rw [alGet_alSet_ne fs (pre ++ [c]) x (mkDirEntry clock) hne]
      exact hx
    · simp only [hg] at h
      cases he : e.node with
      | dir =>
        simp only [he] at h
        split at h
        · cases h
        · exact ih (pre ++ [c]) _ _ h x e0 hx
      | file ct => simp only [he] at h; split at h <;> cases h
      | symlink t => simp only [he] at h; split at h <;> cases h

theorem osMakedirsGo_leaf (clock : Int) (exist_ok : Bool) :
    ∀ (rest : List String) (pre : Path) (fs fs' : Fs),
      osMakedirsGo clock fs pre rest exist_ok = .ok fs' →
      rest ≠ [] →
      ∃ e', alGet fs' (pre ++ rest) = some e' ∧ e'.node.isDirNode = true := by
  intro rest
  induction rest with
  | nil => intro _ _ _ _ hne; exact absurd rfl hne
  | cons c rest ih =>
    intro pre fs fs' h _
    unfold osMakedirsGo at h
    rcases hg : alGet fs (pre ++ [c]) with _ | e
    · simp only [hg] at h
      by_cases hr : rest = []
      · subst hr
        injection h with h1
        subst h1
        refine ⟨mkDirEntry clock, ?_, rfl⟩
        exact alGet_alSet_same fs (pre ++ [c]) (mkDirEntry clock)
      · obtain ⟨e', he', hd⟩ := ih (pre ++ [c]) _ _ h hr
        refine ⟨e', ?_, hd⟩
        rwa [List.append_assoc, List.singleton_append] at he'
    · simp only [hg] at h
      cases he : e.node with
      | dir =>
        simp only [he] at h
        split at h
        · cases h
        · by_cases hr : rest = []
          · subst hr
            injection h with h1
            subst h1
            refine ⟨e, ?_, by rw [he]; rfl⟩
            exact hg
          · obtain ⟨e', he', hd⟩ := ih (pre ++ [c]) _ _ h hr
            refine ⟨e', ?_, hd⟩
            rwa [List.append_assoc, List.singleton_append] at he'
      | file ct => simp only [he] at h; split at h <;> cases h
      | symlink t => simp only [he] at h; split at h <;> cases h

theorem osMakedirsGo_wf (clock : Int) (exist_ok : Bool) :
    ∀ (rest : List String) (pre : Path) (fs fs' : Fs),
      osMakedirsGo clock fs pre rest exist_ok = .ok fs' →
      FsClosed fs → (fs.map Prod.fst).Nodup →
      (pre = [] ∨ ∃ e, alGet fs pre = some e ∧ e.node.isDirNode = true) →
      FsClosed fs' ∧ (fs'.map Prod.fst).Nodup := by
  intro rest
  induction rest with
  | nil =>
    intro pre fs fs' h hc hnd _
    injection h with h1
    subst h1
    exact ⟨hc, hnd⟩
  | cons c rest ih =>
    intro pre fs fs' h hc hnd hpre
    unfold osMakedirsGo at h
    rcases hg : alGet fs (pre ++ [c]) with _ | e
    · simp only [hg] at h
      have hq : pre ++ [c] ≠ [] := by simp
      have hdl : (pre ++ [c]).dropLast = pre := by
        rw [List.dropLast_concat]
      have hc2 : FsClosed (alSet fs (pre ++ [c]) (mkDirEntry clock)) := by
        refine fsClosed_alSet fs (pre ++ [c]) (mkDirEntry clock) hc hq ?_ ?_
        · rw [hdl]
          rcases hpre with hp | ⟨e, he, hd⟩
          · exact Or.inl hp
          · exact Or.inr ⟨e, he, hd⟩
        · intro e0 he0
          rw [hg] at he0
          cases he0
      refine ih (pre ++ [c]) _ _ h hc2 (nodup_alSet _ _ _ hnd) ?_
      exact Or.inr ⟨mkDirEntry clock, alGet_alSet_same _ _ _, rfl⟩
    · simp only [hg] at h
      cases he : e.node with
      | dir =>
        simp only [he] at h
        split at h
        · cases h
        · refine ih (pre ++ [c]) _ _ h hc hnd ?_
          exact Or.inr ⟨e, hg, by rw [he]; rfl⟩
      | file ct => simp only [he] at h; split at h <;> cases h
      | symlink t => simp only [he] at h; split at h <;> cases h

theorem osRemove_ok (fs fs' : Fs) (q : Path) (h : osRemove fs q = .ok fs') :
    fs' = alErase fs q ∧ ∃ e, alGet fs q = some e ∧ e.node.isDirNode = false := by
  unfold osRemove at h
  rcases hg : alGet fs q with _ | e
  · simp only [hg] at h
    exact Except.noConfusion h
  · simp only [hg] at h
    cases he : e.node with
    | dir =>
      simp only [he] at h
      exact Except.noConfusion h
    | file c =>
      simp only [he] at h
      injection h with h1
      exact ⟨h1.symm, e, rfl, by rw [he]; rfl⟩
    | symlink t =>
      simp only [he] at h
      injection h with h1
      exact ⟨h1.symm, e, rfl, by rw [he]; rfl⟩

theorem osRmdir_ok (fs fs' : Fs) (q : Path) (h : osRmdir fs q = .ok fs') :
    fs' = alErase fs q ∧ hasChild fs q = false ∧
    ∃ e, alGet fs q = some e ∧ e.node.isDirNode = true := by
  unfold osRmdir at h
  rcases hg : alGet fs q with _ | e
  · simp only [hg] at h
    exact Except.noConfusion h
  · simp only [hg] at h
    cases he : e.node with
    | dir =>
      simp only [he] at h
      rcases hch : hasChild fs q with _ | _
      · simp only [hch, Bool.false_eq_true, if_false] at h
        injection h with h1
        exact ⟨h1.symm, rfl, e, rfl, by rw [he]; rfl⟩
      · simp only [hch, if_true] at h
        exact Except.noConfusion h
    | file c =>
      simp only [he] at h
      exact Except.noConfusion h
    | symlink t =>
      simp only [he] at h
      exact Except.noConfusion h

theorem alGet_eq_of_closed_nil (fs : Fs) (hc : FsClosed fs) : alGet fs [] = none := by
  rcases hg : alGet fs [] with _ | e
  · rfl
  · exact absurd rfl (hc ([], e) (mem_of_alGet _ _ _ hg)).1

theorem fsClosed_erase_nondir (fs : Fs) (q : Path) (e0 : FsEntry) (hc : FsClosed fs)
    (he : alGet fs q = some e0) (hnd0 : e0.node.isDirNode = false) :
    FsClosed (alErase fs q) := by
  refine fsClosed_alErase fs q hc ?_
  intro xe hxe
  left
  intro hdq
  obtain ⟨hne, hpar⟩ := hc xe hxe
  rcases hpar with hnil | ⟨e2, he2, hd⟩
  · rw [hdq] at hnil
    subst hnil
    rw [alGet_eq_of_closed_nil fs hc] at he
    cases he
  · rw [hdq, he] at he2
    injection he2 with h1
    rw [← h1, hnd0] at hd
    cases hd

theorem fsClosed_erase_dir (fs : Fs) (q : Path) (hc : FsClosed fs)
    (hch : hasChild fs q = false) : FsClosed (alErase fs q) := by
  refine fsClosed_alErase fs q hc ?_
  intro xe hxe
  left
  intro hdq
  have hxne : Prod.fst xe ≠ [] := (hc xe hxe).1
  have hpref : q <+: Prod.fst xe := hdq ▸ dropLast_isPrefix (Prod.fst xe)
  have hne : q ≠ Prod.fst xe := by
    intro he
    exact dropLast_ne_self (Prod.fst xe) hxne (he ▸ hdq)
  rw [hasChild, List.any_eq_false] at hch
  have hx2 := hch xe hxe
  simp only [Bool.and_eq_true, decide_eq_true_eq, ne_eq, not_and] at hx2
  exact (by simpa using hx2 hne : ¬ q <+: Prod.fst xe) hpref

theorem osIsfile_some (fs : Fs) (q : Path) (h : osIsfile fs q = true) :
    ∃ e, alGet fs q = some e ∧ e.node.isFileNode = true := by
  unfold osIsfile at h
  rcases hg : alGet fs q with _ | e
  · rw [hg] at h; cases h
  · rw [hg] at h; exact ⟨e, rfl, h⟩

theorem osRemove_of_isfile (fs : Fs) (q : Path) (h : osIsfile fs q = true) :
    osRemove fs q = .ok (alErase fs q) := by
  obtain ⟨e, hg, hf⟩ := osIsfile_some fs q h
  unfold osRemove
  rw [hg]
  cases he : e.node with
  | file c => simp only [he]
  | dir => rw [he] at hf; cases hf
  | symlink t => rw [he] at hf; cases hf

theorem osExists_cases (fs : Fs) (q : Path) (h : osExists fs q = true) :
    q = [] ∨ ∃ e, alGet fs q = some e ∧
      (e.node.isFileNode = true ∨ e.node.isDirNode = true) := by
  unfold osExists at h
  by_cases hq : q = []
  · exact Or.inl hq
  · right
    rw [if_neg hq] at h
    rcases hg : alGet fs q with _ | e
    · rw [hg] at h; cases h
    · rw [hg] at h
      exact ⟨e, rfl, by simpa using h⟩

theorem osExists_none (fs : Fs) (q : Path) (hq : q ≠ []) (hg : alGet fs q = none) :
    osExists fs q = false := by
  unfold osExists
  rw [if_neg hq, hg]

theorem inspect_fs (r : SyncRoot) (q : Path) (f : Bool) :
    (inspect_path_for_changes r q f).1.fs = r.fs := by
  by_cases hig : should_ignore_path q
  · simp [inspect_path_for_changes, hig]
  · cases hstat : SyncRoot.stat r q with
    | none =>
      cases hold : r.state.path_get_stat q with
      | none =>
        simp only [inspect_path_for_changes, hig, hstat, hold, Bool.false_eq_true, if_false]
      | some old =>
        cases hdel : r.state.path_delete q with
        | error e =>
          simp only [inspect_path_for_changes, hig, hstat, hold, hdel,
            Bool.false_eq_true, if_false]
        | ok st1 =>
          simp only [inspect_path_for_changes, hig, hstat, hold, hdel,
            Bool.false_eq_true, if_false]
    | some si =>
      cases hold : r.state.path_get_stat q with
      | none =>
        by_cases hdir : si.is_dir
        · simp only [inspect_path_for_changes, hig, hstat, hold, hdir,
            Bool.false_eq_true, if_false, if_true]
        · rw [Bool.not_eq_true] at hdir
          cases hh : get_file_hash r.fs q with
          | error e =>
            simp only [inspect_path_for_changes, hig, hstat, hold, hdir, hh,
              Bool.false_eq_true, if_false, Except.map]
          | ok hv =>
            simp only [inspect_path_for_changes, hig, hstat, hold, hdir, hh,
              Bool.false_eq_true, if_false, Except.map]
      | some old =>
        by_cases hdir : si.is_dir
        · simp only [inspect_path_for_changes, hig, hstat, hold, hdir,
            Bool.false_eq_true, if_false, if_true]
          split <;> rfl
        · rw [Bool.not_eq_true] at hdir
          simp only [inspect_path_for_changes, hig, hstat, hold, hdir,
            Bool.false_eq_true, if_false]
          split
          · cases hh : get_file_hash r.fs q with
            | error e => simp only [hh]
            | ok hv =>
              simp only [hh]
              split <;> rfl
          · rfl

theorem remove_change_fs (r : SyncRoot) (q : Path) :
    (remove_change r q).1.fs = r.fs := by
  unfold remove_change
  exact inspect_fs _ q true

theorem ensureDirStep_props (r : SyncRoot) (q : Path) (r1 : SyncRoot) (evs : List Event)
    (h : ensureDirStep r q = (r1, evs, .ok ()))
    (hwf : RootWf r) :
    RootWf r1 ∧
    (∀ x, ¬ x <+: q →
      alGet r1.fs x = alGet r.fs x ∧
      alGet r1.state.paths x = alGet r.state.paths x ∧
      alGet r1.changes x = alGet r.changes x) ∧
    (q = [] ∨ ∃ e, alGet r1.fs q = some e ∧ e.node.isDirNode = true) := by
  obtain ⟨hnd, hndst, hndch, hcl⟩ := hwf
  have hmkCase : ∀ (rbase : SyncRoot), RootWf rbase → q ≠ [] →
      rbase.state = r.state → rbase.changes = r.changes →
      ∀ fs2, osMakedirs rbase.clock rbase.fs q false = .ok fs2 →
      (match SyncRoot.stat { rbase with fs := fs2, clock := rbase.clock + 1 } q with
        | none =>
          ({ rbase with
              fs := fs2
              clock := rbase.clock + 1
              state := rbase.state.path_set_hash q none }, [], Except.error PyErr.typeError)
        | some s =>
          remove_change
            { rbase with
              fs := fs2
              clock := rbase.clock + 1
              state := (rbase.state.path_set_hash q none).path_set_stat q s } q) =
        (r1, evs, .ok ()) →
      RootWf r1 ∧
      (∀ x, ¬ x <+: q →
        alGet r1.fs x = alGet rbase.fs x ∧
        alGet r1.state.paths x = alGet r.state.paths x ∧
        alGet r1.changes x = alGet r.changes x) ∧
      (∃ e, alGet r1.fs q = some e ∧ e.node.isDirNode = true) := by
    intro rbase hwfb hq hstmt hchg fs2 hmk hh
    obtain ⟨hbnd, hbndst, hbndch, hbcl⟩ := hwfb
    obtain ⟨hcl2, hnd2⟩ := osMakedirsGo_wf rbase.clock false q [] _ _ hmk hbcl hbnd (Or.inl rfl)
    obtain ⟨ed, hed, hdir⟩ := osMakedirsGo_leaf rbase.clock false q [] _ _ hmk
      (by simpa using hq)
    rw [List.nil_append] at hed
    have hstat : SyncRoot.stat { rbase with fs := fs2, clock := rbase.clock + 1 } q =
        some ed.toStat := by
      simp [SyncRoot.stat, hed]
    simp only [hstat] at hh
    have hwfmid : RootWf
        { rbase with
          fs := fs2
          clock := rbase.clock + 1
          state := (rbase.state.path_set_hash q none).path_set_stat q ed.toStat } := by
      refine ⟨hnd2, ?_, hbndch, hcl2⟩
      exact nodup_alSet _ _ _ (nodup_alSet _ _ _ hbndst)
    have hr1 : r1 = (remove_change
        { rbase with
          fs := fs2
          clock := rbase.clock + 1
          state := (rbase.state.path_set_hash q none).path_set_stat q ed.toStat } q).1 := by
      rw [hh]
    refine ⟨hr1 ▸ remove_change_wf _ q hwfmid, ?_, ?_⟩
    · intro x hx
      have hxq : x ≠ q := fun he => hx (he ▸ List.prefix_refl q)
      obtain ⟨hfsu, hstu, hchu⟩ := remove_change_untouched
        { rbase with
          fs := fs2
          clock := rbase.clock + 1
          state := (rbase.state.path_set_hash q none).path_set_stat q ed.toStat } q x hxq
      rw [hr1]
      refine ⟨?_, ?_, ?_⟩
      · rw [hfsu]
        have := osMakedirsGo_untouched rbase.clock false q [] rbase.fs fs2 hmk x
          (by simpa using hx)
        simpa using this
      · rw [hstu]
        simp only [hstmt]
        rw [paths_set_stat_ne _ _ _ _ hxq, paths_set_hash_ne _ _ _ _ hxq]
      · rw [hchu, hchg]
    · rw [hr1, remove_change_fs]
      exact ⟨ed, hed, hdir⟩
  unfold ensureDirStep at h
  by_cases hf : osIsfile r.fs q
  · have hq : q ≠ [] := by
      intro hq0
      subst hq0
      obtain ⟨e, hg, -⟩ := osIsfile_some r.fs [] hf
      rw [alGet_eq_of_closed_nil r.fs hcl] at hg
      cases hg
    obtain ⟨e, hg, hfile⟩ := osIsfile_some r.fs q hf
    have hfd : e.node.isDirNode = false := by
      cases he : e.node with
      | file c => rfl
      | dir => rw [he] at hfile; cases hfile
      | symlink t => rw [he] at hfile; cases hfile
    rw [hf] at h
    simp only [if_true, osRemove_of_isfile r.fs q hf, Except.map] at h
    have hernd : ((alErase r.fs q).map Prod.fst).Nodup := nodup_alErase _ _ hnd
    have hercl : FsClosed (alErase r.fs q) := fsClosed_erase_nondir r.fs q e hcl hg hfd
    have hex : osExists (alErase r.fs q) q = false :=
      osExists_none _ q hq (alGet_alErase_same r.fs q hnd)
    rw [hex] at h
    simp only [Bool.not_false, if_true] at h
    rcases hmk : osMakedirs r.clock (alErase r.fs q) q false with em | fs2
    · rw [hmk] at h; exact Except.noConfusion (congrArg (fun t => t.2.2) h)
    · rw [hmk] at h
      obtain ⟨hwf1, hunt1, hpost1⟩ := hmkCase { r with fs := alErase r.fs q }
        ⟨hernd, hndst, hndch, hercl⟩ hq rfl rfl fs2 hmk h
      refine ⟨hwf1, ?_, Or.inr hpost1⟩
      intro x hx
      have hxq : x ≠ q := fun he => hx (he ▸ List.prefix_refl q)
      obtain ⟨h1, h2, h3⟩ := hunt1 x hx
      refine ⟨?_, h2, h3⟩
      rw [h1]
      exact alGet_alErase_ne r.fs q x (Ne.symm hxq)
  · rw [Bool.not_eq_true] at hf
    simp only [hf, Bool.false_eq_true, if_false] at h
    by_cases hex : osExists r.fs q
    · simp only [hex, Bool.not_true, Bool.false_eq_true, if_false] at h
      injection h with h1 h2
      subst h1
      refine ⟨⟨hnd, hndst, hndch, hcl⟩, fun x _ => ⟨rfl, rfl, rfl⟩, ?_⟩
      rcases osExists_cases r.fs q hex with hq | ⟨e, hg, hfd⟩
      · exact Or.inl hq
      · rcases hfd with hfile | hdir
        · have hf2 : e.node.isFileNode = false := by
            unfold osIsfile at hf
            simpa [hg] using hf
          rw [hfile] at hf2
          cases hf2
        · exact Or.inr ⟨e, hg, hdir⟩
    · have hq : q ≠ [] := by
        intro hq0
        subst hq0
        rw [osExists] at hex
        simp at hex
      simp only [Bool.not_eq_true] at hex
      simp only [hex, Bool.not_false, if_true] at h
      rcases hmk : osMakedirs r.clock r.fs q false with em | fs2
      · rw [hmk] at h; exact Except.noConfusion (congrArg (fun t => t.2.2) h)
      · rw [hmk] at h
        obtain ⟨hwf1, hunt1, hpost1⟩ := hmkCase r ⟨hnd, hndst, hndch, hcl⟩ hq rfl rfl fs2 hmk h
        exact ⟨hwf1, hunt1, Or.inr hpost1⟩

theorem ensureDirs_props (r : SyncRoot) (p : Path) (r1 : SyncRoot) (evs : List Event)
    (h : ensureDirs r (ancestorPartials p) = (r1, evs, .ok ()))
    (hwf : RootWf r) :
    RootWf r1 ∧
    (∀ x, ¬ x <+: p.dropLast →
      alGet r1.fs x = alGet r.fs x ∧
      alGet r1.state.paths x = alGet r.state.paths x ∧
      alGet r1.changes x = alGet r.changes x) ∧
    (p.dropLast = [] ∨ ∃ e, alGet r1.fs p.dropLast = some e ∧ e.node.isDirNode = true) := by
  unfold ancestorPartials at h
  unfold ensureDirs at h
  cases h1 : ensureDirStep r p.dropLast.dropLast with
  | mk ra rest1 =>
    obtain ⟨evsa, exca⟩ := rest1
    rw [h1] at h
    cases exca with
    | error e =>
      injection h with ha hb
      injection hb with hc hd
      cases hd
    | ok u =>
      cases u
      unfold ensureDirs at h
      cases h2 : ensureDirStep ra p.dropLast with
      | mk rb rest2 =>
        obtain ⟨evsb, excb⟩ := rest2
        simp only [h2] at h
        cases excb with
        | error e =>
          simp only [ensureDirs] at h
          injection h with ha hb
          injection hb with hc hd
          cases hd
        | ok u2 =>
          cases u2
          simp only [ensureDirs] at h
          injection h with ha hb
          subst ha
          obtain ⟨hwfa, hunta, -⟩ := ensureDirStep_props r p.dropLast.dropLast ra evsa h1 hwf
          obtain ⟨hwfb, huntb, hpostb⟩ := ensureDirStep_props ra p.dropLast rb evsb h2 hwfa
          refine ⟨hwfb, ?_, hpostb⟩
          intro x hx
          have hxa : ¬ x <+: p.dropLast.dropLast := fun hpre =>
            hx (hpre.trans (dropLast_isPrefix p.dropLast))
          obtain ⟨ha1, ha2, ha3⟩ := hunta x hxa
          obtain ⟨hb1, hb2, hb3⟩ := huntb x hx
          exact ⟨hb1.trans ha1, hb2.trans ha2, hb3.trans ha3⟩

theorem atomicCopyEffect_src (sfs : Fs) (sp : Path) (clock : Int) (entry : FsEntry)
    (hh : String) (h : atomicCopyEffect sfs sp clock = .ok (entry, hh)) :
    (∃ e0, alGet sfs sp = some e0) ∧ entry.node.isDirNode = false := by
  unfold atomicCopyEffect at h
  cases hg : alGet sfs sp with
  | none => rw [hg] at h; cases h
  | some e =>
    simp only [hg] at h
    cases hn : e.node with
    | dir => rw [hn] at h; cases h
    | file c =>
      simp only [hn, Except.ok.injEq, Prod.mk.injEq] at h
      refine ⟨⟨e, rfl⟩, ?_⟩
      rw [← h.1]
      rfl
    | symlink t =>
      simp only [hn, Except.ok.injEq, Prod.mk.injEq] at h
      refine ⟨⟨e, rfl⟩, ?_⟩
      rw [← h.1]
      rfl

theorem osIsdir_some (fs : Fs) (q : Path) (hq : q ≠ []) (h : osIsdir fs q = true) :
    ∃ e, alGet fs q = some e ∧ e.node.isDirNode = true := by
  unfold osIsdir at h
  rw [if_neg hq] at h
  rcases hg : alGet fs q with _ | e
  · rw [hg] at h; cases h
  · rw [hg] at h; exact ⟨e, rfl, h⟩

/-- The create/update body: on a normal return the root stays well
formed, nothing outside the destination path and its ancestors is
touched, and the source tree does hold the copied path. -/
theorem performCreateUpdate_props (r : SyncRoot) (k : PerformKind) (p : Path)
    (sfs : Fs) (r1 : SyncRoot) (evs : List Event)
    (h : performCreateUpdate r k p sfs p = (r1, evs, .ok ()))
    (hwf : RootWf r) (hscl : FsClosed sfs) :
    RootWf r1 ∧
    (∀ x, ¬ x <+: p →
      alGet r1.fs x = alGet r.fs x ∧
      alGet r1.state.paths x = alGet r.state.paths x ∧
      alGet r1.changes x = alGet r.changes x) ∧
    (∃ e, alGet sfs p = some e) := by
  unfold performCreateUpdate at h
  cases hE : ensureDirs r (ancestorPartials p) with
  | mk rE restE =>
    obtain ⟨evsE, excE⟩ := restE
    rw [hE] at h
    cases excE with
    | error e =>
      injection h with ha hb
      injection hb with hc hd
      cases hd
    | ok u =>
      cases u
      obtain ⟨hwfE, huntE, hpostE⟩ := ensureDirs_props r p rE evsE hE hwf
      obtain ⟨hndE, hndstE, hndchE, hclE⟩ := hwfE
      -- tail handler: from the materialized root r4 with a live entry at p
      have htail : ∀ (r4 : SyncRoot) (e4 : FsEntry),
          RootWf r4 → alGet r4.fs p = some e4 →
          r4.changes = rE.changes →
          (∀ x, x ≠ p → alGet r4.state.paths x = alGet rE.state.paths x) →
          (∀ x, ¬ x <+: p → alGet r4.fs x = alGet rE.fs x) →
          (match SyncRoot.stat r4 p with
            | none => (r4, Event.performed r.root_path k p :: evsE, Except.error PyErr.typeError)
            | some s =>
              match remove_change { r4 with state := r4.state.path_set_stat p s } p with
              | (r6, evs2, exc) =>
                (r6, Event.performed r.root_path k p :: (evsE ++ evs2), exc)) =
            (r1, evs, .ok ()) →
          RootWf r1 ∧
          (∀ x, ¬ x <+: p →
            alGet r1.fs x = alGet r.fs x ∧
            alGet r1.state.paths x = alGet r.state.paths x ∧
            alGet r1.changes x = alGet r.changes x) := by
        intro r4 e4 hwf4 he4 hch4 hst4 hfs4 hh
        have hstat : SyncRoot.stat r4 p = some e4.toStat := by
          simp [SyncRoot.stat, he4]
        simp only [hstat] at hh
        cases hrc : remove_change { r4 with state := r4.state.path_set_stat p e4.toStat } p with
        | mk r6 rest6 =>
          obtain ⟨evs6, exc6⟩ := rest6
          simp only [hrc] at hh
          injection hh with ha hb
          injection hb with hc hd
          subst ha
          cases exc6 with
          | error e => cases hd
          | ok u6 =>
            have hwfmid : RootWf { r4 with state := r4.state.path_set_stat p e4.toStat } :=
              ⟨hwf4.1, nodup_alSet _ _ _ hwf4.2.1, hwf4.2.2.1, hwf4.2.2.2⟩
            have hwf6 : RootWf r6 := by
              have := remove_change_wf { r4 with state := r4.state.path_set_stat p e4.toStat }
                p hwfmid
              rwa [hrc] at this
            refine ⟨hwf6, ?_⟩
            intro x hx
            have hxp : x ≠ p := fun he => hx (he ▸ List.prefix_refl p)
            have hxdl : ¬ x <+: p.dropLast := fun hpre =>
              hx (hpre.trans (dropLast_isPrefix p))
            obtain ⟨hu1, hu2, hu3⟩ := remove_change_untouched
              { r4 with state := r4.state.path_set_stat p e4.toStat } p x hxp
            rw [hrc] at hu1 hu2 hu3
            refine ⟨?_, ?_, ?_⟩
            · rw [hu1, hfs4 x hx]
              exact (huntE x hxdl).1
            · rw [hu2]
              have : alGet (r4.state.path_set_stat p e4.toStat).paths x =
                  alGet r4.state.paths x := paths_set_stat_ne _ _ _ _ hxp
              rw [this, hst4 x hxp]
              exact (huntE x hxdl).2.1
            · rw [hu3, hch4]
              exact (huntE x hxdl).2.2
      by_cases hdirb : (osIsdir sfs p && !osIslink sfs p) = true
      · -- directory branch
        simp only [hdirb, if_true] at h
        have hp : p ≠ [] := by
          intro hp0
          subst hp0
          have hfE : osIsfile rE.fs [] = false := by
            unfold osIsfile
            rw [alGet_eq_of_closed_nil rE.fs hclE]
          simp only [hfE, Bool.false_eq_true, if_false, Except.bind] at h
          have hmk0 : osMakedirs rE.clock rE.fs [] true = .ok rE.fs := rfl
          simp only [hmk0, Except.map] at h
          have hstat0 : SyncRoot.stat
              { rE with
                fs := rE.fs
                clock := rE.clock + 1
                state := rE.state.path_set_hash [] none } [] = none := by
            simp [SyncRoot.stat, alGet_eq_of_closed_nil rE.fs hclE]
          simp only [hstat0] at h
          injection h with ha hb
          injection hb with hc hd
          cases hd
        rcases hf : osIsfile rE.fs p with _ | _
        · -- no file in the way
          simp only [hf, Bool.false_eq_true, if_false, Except.bind] at h
          rcases hmk : osMakedirs rE.clock rE.fs p true with em | fs4
          · rw [hmk] at h
            simp only [Except.map] at h
            injection h with ha hb
            injection hb with hc hd
            cases hd
          · rw [hmk] at h
            simp only [Except.map] at h
            obtain ⟨hcl4, hnd4⟩ :=
              osMakedirsGo_wf rE.clock true p [] _ _ hmk hclE hndE (Or.inl rfl)
            obtain ⟨ed, hed, -⟩ := osMakedirsGo_leaf rE.clock true p [] _ _ hmk
              (by simpa using hp)
            rw [List.nil_append] at hed
            have hwf4 : RootWf
                { rE with
                  fs := fs4
                  clock := rE.clock + 1
                  state := rE.state.path_set_hash p none } :=
              ⟨hnd4, nodup_alSet _ _ _ hndstE, hndchE, hcl4⟩
            obtain ⟨hwf1, hunt1⟩ := htail _ ed hwf4 hed rfl
              (fun x hxp => paths_set_hash_ne _ _ _ _ hxp)
              (fun x hx => by
                have := osMakedirsGo_untouched rE.clock true p [] rE.fs fs4 hmk x
                  (by simpa using hx)
                simpa using this)
              h
            refine ⟨hwf1, hunt1, ?_⟩
            obtain ⟨e, hge, -⟩ := osIsdir_some sfs p hp (Bool.and_elim_left hdirb)
            exact ⟨e, hge⟩
        · -- file in the way at the destination
          simp only [hf, if_true, osRemove_of_isfile rE.fs p hf, Except.map, Except.bind] at h
          obtain ⟨ef, hgf, hfdf⟩ := osIsfile_some rE.fs p hf
          have hfd : ef.node.isDirNode = false := by
            cases he : ef.node with
            | file c => rfl
            | dir => rw [he] at hfdf; cases hfdf
            | symlink t => rw [he] at hfdf; cases hfdf
          have hclEr : FsClosed (alErase rE.fs p) :=
            fsClosed_erase_nondir rE.fs p ef hclE hgf hfd
          have hndEr : ((alErase rE.fs p).map Prod.fst).Nodup := nodup_alErase _ _ hndE
          rcases hmk : osMakedirs rE.clock (alErase rE.fs p) p true with em | fs4
          · rw [hmk] at h
            simp only [Except.map] at h
            injection h with ha hb
            injection hb with hc hd
            cases hd
          · rw [hmk] at h
            simp only [Except.map] at h
            obtain ⟨hcl4, hnd4⟩ :=
              osMakedirsGo_wf rE.clock true p [] _ _ hmk hclEr hndEr (Or.inl rfl)
            obtain ⟨ed, hed, -⟩ := osMakedirsGo_leaf rE.clock true p [] _ _ hmk
              (by simpa using hp)
            rw [List.nil_append] at hed
            have hwf4 : RootWf { rE with fs := alErase rE.fs p } := ⟨hndEr, hndstE, hndchE, hclEr⟩
            obtain ⟨hwf1, hunt1⟩ := htail
              { rE with
                fs := fs4
                clock := rE.clock + 1
                state := rE.state.path_set_hash p none }
              ed ⟨hnd4, nodup_alSet _ _ _ hndstE, hndchE, hcl4⟩ hed rfl
              (fun x hxp => paths_set_hash_ne _ _ _ _ hxp)
              (fun x hx => by
                have h1 := osMakedirsGo_untouched rE.clock true p [] _ fs4 hmk x
                  (by simpa using hx)
                have hxp : x ≠ p := fun he => hx (he ▸ List.prefix_refl p)
                have h2 : alGet (alErase rE.fs p) x = alGet rE.fs x :=
                  alGet_alErase_ne rE.fs p x (Ne.symm hxp)
                simpa [h2] using h1)
              h
            refine ⟨hwf1, hunt1, ?_⟩
            obtain ⟨e, hge, -⟩ := osIsdir_some sfs p hp (Bool.and_elim_left hdirb)
            exact ⟨e, hge⟩
      · -- file / symlink branch
        rw [Bool.not_eq_true] at hdirb
        simp only [hdirb, Bool.false_eq_true, if_false] at h
        have hp : p ≠ [] := by
          intro hp0
          subst hp0
          have hd0 : osIsdir sfs [] = true := rfl
          have hl0 : osIslink sfs [] = false := by
            unfold osIslink
            rw [alGet_eq_of_closed_nil sfs hscl]
          rw [hd0, hl0] at hdirb
          simp at hdirb
        rcases hdd : osIsdir rE.fs p with _ | _
        · -- destination not a directory
          simp only [hdd, Bool.false_eq_true, if_false, Except.bind] at h
          rcases hcp : atomicCopyEffect sfs p rE.clock with em | eh
          · rw [hcp] at h
            simp only [Except.map] at h
            injection h with ha hb
            injection hb with hc hd
            cases hd
          · rw [hcp] at h
            simp only [Except.map] at h
            obtain ⟨en, hsh⟩ := eh
            obtain ⟨⟨e0, hge0⟩, hennd⟩ := atomicCopyEffect_src sfs p rE.clock en hsh hcp
            have hnewnd : ∀ ex, alGet rE.fs p = some ex → ex.node.isDirNode = false := by
              intro ex hex
              unfold osIsdir at hdd
              rw [if_neg hp, hex] at hdd
              simpa using hdd
            have hcl4 : FsClosed (alSet rE.fs p en) := by
              refine fsClosed_alSet rE.fs p en hclE hp ?_ hnewnd
              rcases hpostE with h0 | ⟨e2, he2, hd2⟩
              · exact Or.inl h0
              · exact Or.inr ⟨e2, he2, hd2⟩
            obtain ⟨hwf1, hunt1⟩ := htail
              { rE with
                fs := alSet rE.fs p en
                clock := rE.clock + 1
                state := rE.state.path_set_hash p (some hsh) }
              en ⟨nodup_alSet _ _ _ hndE, nodup_alSet _ _ _ hndstE, hndchE, hcl4⟩
              (alGet_alSet_same _ _ _) rfl
              (fun x hxp => paths_set_hash_ne _ _ _ _ hxp)
              (fun x hx => by
                have hxp : x ≠ p := fun he => hx (he ▸ List.prefix_refl p)
                exact alGet_alSet_ne rE.fs p x en (Ne.symm hxp))
              h
            exact ⟨hwf1, hunt1, ⟨e0, hge0⟩⟩
        · -- destination is a directory: removed first
          simp only [hdd, if_true, Except.bind] at h
          rcases hrm : osRmdir rE.fs p with em | fsr
          · rw [hrm] at h
            simp only [Except.map] at h
            injection h with ha hb
            injection hb with hc hd
            cases hd
          · rw [hrm] at h
            simp only [Except.map, Except.bind] at h
            obtain ⟨hfsr, hnoch, ed0, hged0, -⟩ := osRmdir_ok rE.fs fsr p hrm
            subst hfsr
            have hclEr : FsClosed (alErase rE.fs p) := fsClosed_erase_dir rE.fs p hclE hnoch
            have hndEr : ((alErase rE.fs p).map Prod.fst).Nodup := nodup_alErase _ _ hndE
            rcases hcp : atomicCopyEffect sfs p rE.clock with em | eh
            · rw [hcp] at h
              simp only [Except.map] at h
              injection h with ha hb
              injection hb with hc hd
              cases hd
            · rw [hcp] at h
              simp only [Except.map] at h
              obtain ⟨en, hsh⟩ := eh
              obtain ⟨⟨e0, hge0⟩, hennd⟩ := atomicCopyEffect_src sfs p rE.clock en hsh hcp
              have hcl4 : FsClosed (alSet (alErase rE.fs p) p en) := by
                refine fsClosed_alSet _ p en hclEr hp ?_ ?_
                · rcases hpostE with h0 | ⟨e2, he2, hd2⟩
                  · exact Or.inl h0
                  · refine Or.inr ⟨e2, ?_, hd2⟩
                    rw [alGet_alErase_ne rE.fs p _ (fun hh =>
                      (dropLast_ne_self p hp) hh.symm)]
                    exact he2
                · intro ex hex
                  rw [alGet_alErase_same rE.fs p hndE] at hex
                  cases hex
              obtain ⟨hwf1, hunt1⟩ := htail
                { rE with
                  fs := alSet (alErase rE.fs p) p en
                  clock := rE.clock + 1
                  state := rE.state.path_set_hash p (some hsh) }
                en ⟨nodup_alSet _ _ _ hndEr, nodup_alSet _ _ _ hndstE, hndchE, hcl4⟩
                (alGet_alSet_same _ _ _) rfl
                (fun x hxp => paths_set_hash_ne _ _ _ _ hxp)
                (fun x hx => by
                  have hxp : x ≠ p := fun he => hx (he ▸ List.prefix_refl p)
                  rw [alGet_alSet_ne _ p x en (Ne.symm hxp)]
                  exact alGet_alErase_ne rE.fs p x (Ne.symm hxp))
                h
              exact ⟨hwf1, hunt1, ⟨e0, hge0⟩⟩

theorem osRemove_fnf (fs : Fs) (q : Path)
    (h : osRemove fs q = .error .fileNotFoundError) : alGet fs q = none := by
  unfold osRemove at h
  rcases hg : alGet fs q with _ | e
  · rfl
  · simp only [hg] at h
    cases he : e.node with
    | dir => simp only [he] at h; cases h
    | file c => simp only [he] at h; cases h
    | symlink t => simp only [he] at h; cases h

theorem osRmdir_fnf (fs : Fs) (q : Path)
    (h : osRmdir fs q = .error .fileNotFoundError) : alGet fs q = none := by
  unfold osRmdir at h
  rcases hg : alGet fs q with _ | e
  · rfl
  · simp only [hg] at h
    cases he : e.node with
    | dir =>
      simp only [he] at h
      rcases hch : hasChild fs q with _ | _ <;> simp [hch] at h
    | file c => simp only [he] at h; cases h
    | symlink t => simp only [he] at h; cases h

theorem remove_change_gone (r : SyncRoot) (p : Path)
    (hfs : alGet r.fs p = none) (hrec : alGet r.state.paths p = none) :
    remove_change r p = ({ r with changes := alErase r.changes p }, [], .ok ()) := by
  unfold remove_change inspect_path_for_changes
  by_cases hig : should_ignore_path p
  · simp [hig]
  · have hstat : SyncRoot.stat { r with changes := alErase r.changes p } p = none := by
      simp [SyncRoot.stat, hfs]
    have hold : ({ r with changes := alErase r.changes p } : SyncRoot).state.path_get_stat
        p = none := by
      simp [SyncState.path_get_stat, hrec]
    simp only [hig, hstat, hold, Bool.false_eq_true, if_false]

theorem perform_delete_props (r : SyncRoot) (p : Path) (r1 : SyncRoot) (evs : List Event)
    (h : perform_delete r p = (r1, evs, .ok ())) (hwf : RootWf r) :
    RootWf r1 ∧ PathGone p r1 ∧
    (∀ x, x ≠ p →
      alGet r1.fs x = alGet r.fs x ∧
      alGet r1.state.paths x = alGet r.state.paths x ∧
      alGet r1.changes x = alGet r.changes x) := by
  obtain ⟨hnd, hndst, hndch, hcl⟩ := hwf
  unfold perform_delete at h
  rw [perform_action_delete_def] at h
  rcases hpd : r.state.path_delete p with em | st
  · rw [hpd] at h
    injection h with ha hb
    injection hb with hc hd
    cases hd
  · rw [hpd] at h
    have hstp : st.paths = alErase r.state.paths p := path_delete_paths _ _ _ hpd
    have hstnone : alGet st.paths p = none := by
      rw [hstp]; exact alGet_alErase_same _ _ hndst
    have hstnd : (st.paths.map Prod.fst).Nodup := by
      rw [hstp]; exact nodup_alErase _ _ hndst
    have hFin : ∀ (fs2 : Fs), alGet fs2 p = none → ((fs2.map Prod.fst).Nodup) →
        FsClosed fs2 →
        (∀ x, x ≠ p → alGet fs2 x = alGet r.fs x) →
        (match remove_change { r with state := st, fs := fs2 } p with
          | (r2, evs2, exc) => (r2, Event.performed r.root_path .delete p :: evs2, exc)) =
          (r1, evs, .ok ()) →
        RootWf r1 ∧ PathGone p r1 ∧
        (∀ x, x ≠ p →
          alGet r1.fs x = alGet r.fs x ∧
          alGet r1.state.paths x = alGet r.state.paths x ∧
          alGet r1.changes x = alGet r.changes x) := by
      intro fs2 hfs2 hnd2 hcl2 hunt2 hh
      rw [remove_change_gone { r with state := st, fs := fs2 } p hfs2 hstnone] at hh
      injection hh with ha hb
      subst ha
      refine ⟨⟨hnd2, hstnd, nodup_alErase _ _ hndch, hcl2⟩,
        ⟨hfs2, hstnone, alGet_alErase_same _ _ hndch⟩, ?_⟩
      intro x hx
      exact ⟨hunt2 x hx, by rw [hstp]; exact alGet_alErase_ne _ _ _ (Ne.symm hx),
        alGet_alErase_ne _ _ _ (Ne.symm hx)⟩
    by_cases hdd : osIsdir r.fs p
    · rw [hdd] at h
      simp only [if_true] at h
      rcases hrm : osRmdir r.fs p with em | fs2
      · rw [hrm] at h
        cases em with
        | fileNotFoundError =>
          simp only at h
          have hfsp : alGet r.fs p = none := osRmdir_fnf r.fs p hrm
          refine hFin r.fs hfsp hnd hcl (fun x _ => rfl) ?_
          exact h
        | keyError => simp only at h; exact absurd h (by simp)
        | notADirectoryError => simp only at h; exact absurd h (by simp)
        | isADirectoryError => simp only at h; exact absurd h (by simp)
        | dirNotEmptyError => simp only at h; exact absurd h (by simp)
        | fileExistsError => simp only at h; exact absurd h (by simp)
        | assertionError => simp only at h; exact absurd h (by simp)
        | jsonDecodeError => simp only at h; exact absurd h (by simp)
        | notImplementedError => simp only at h; exact absurd h (by simp)
        | valueError => simp only at h; exact absurd h (by simp)
        | indexError => simp only at h; exact absurd h (by simp)
        | typeError => simp only at h; exact absurd h (by simp)
        | fuelExhausted => simp only at h; exact absurd h (by simp)
      · rw [hrm] at h
        obtain ⟨hfse, hnoch, e0, hge0, -⟩ := osRmdir_ok r.fs fs2 p hrm
        subst hfse
        refine hFin (alErase r.fs p) (alGet_alErase_same _ _ hnd) (nodup_alErase _ _ hnd)
          (fsClosed_erase_dir r.fs p hcl hnoch)
          (fun x hx => alGet_alErase_ne _ _ _ (Ne.symm hx)) h
    · rw [Bool.not_eq_true] at hdd
      rw [hdd] at h
      simp only [Bool.false_eq_true, if_false] at h
      rcases hrm : osRemove r.fs p with em | fs2
      · rw [hrm] at h
        cases em with
        | fileNotFoundError =>
          simp only at h
          have hfsp : alGet r.fs p = none := osRemove_fnf r.fs p hrm
          exact hFin r.fs hfsp hnd hcl (fun x _ => rfl) h
        | keyError => simp only at h; exact absurd h (by simp)
        | notADirectoryError => simp only at h; exact absurd h (by simp)
        | isADirectoryError => simp only at h; exact absurd h (by simp)
        | dirNotEmptyError => simp only at h; exact absurd h (by simp)
        | fileExistsError => simp only at h; exact absurd h (by simp)
        | assertionError => simp only at h; exact absurd h (by simp)
        | jsonDecodeError => simp only at h; exact absurd h (by simp)
        | notImplementedError => simp only at h; exact absurd h (by simp)
        | valueError => simp only at h; exact absurd h (by simp)
        | indexError => simp only at h; exact absurd h (by simp)
        | typeError => simp only at h; exact absurd h (by simp)
        | fuelExhausted => simp only at h; exact absurd h (by simp)
      · rw [hrm] at h
        obtain ⟨hfse, e0, hge0, hfd0⟩ := osRemove_ok r.fs fs2 p hrm
        subst hfse
        refine hFin (alErase r.fs p) (alGet_alErase_same _ _ hnd) (nodup_alErase _ _ hnd)
          (fsClosed_erase_nondir r.fs p e0 hcl hge0 hfd0)
          (fun x hx => alGet_alErase_ne _ _ _ (Ne.symm hx)) h

theorem perform_delete_default (q : Path) :
    perform_delete default q =
      (default, [Event.performed ([] : List String) .delete q], .error .keyError) := by
  rfl

theorem sync_path_deleted (roots : List SyncRoot) (q : Path)
    (hdel : ∃ r ∈ roots, changeActionOf r q = some .deleted) :
    sync_path roots q = foldRoots (delStep q) (List.range roots.length) roots := by
  have hwd : (roots.any fun r => changeActionOf r q == some .deleted) = true := by
    rw [List.any_eq_true]
    obtain ⟨r, hr, ha⟩ := hdel
    exact ⟨r, hr, by simp [ha]⟩
  simp only [sync_path, hwd, if_true]
  rfl

theorem foldRoots_cons_inv (step : Nat → List SyncRoot → RootStep) (i : Nat) (is : List Nat)
    (roots roots' : List SyncRoot) (evs : List Event)
    (h : foldRoots step (i :: is) roots = (roots', evs, .ok ())) :
    ∃ r1 evs1 evs2, step i roots = (r1, evs1, .ok ()) ∧
      foldRoots step is (roots.set i r1) = (roots', evs2, .ok ()) ∧ evs = evs1 ++ evs2 := by
  unfold foldRoots at h
  cases hs : step i roots with
  | mk r1 rest1 =>
    obtain ⟨evs1, exc1⟩ := rest1
    rw [hs] at h
    cases exc1 with
    | error e =>
      injection h with h1 h2
      injection h2 with h3 h4
      cases h4
    | ok u =>
      cases u
      cases hrec : foldRoots step is (roots.set i r1) with
      | mk roots2 rest2 =>
        obtain ⟨evs2, exc2⟩ := rest2
        simp only [hrec] at h
        injection h with h1 h2
        injection h2 with h3 h4
        subst h1
        cases exc2 with
        | error e => cases h4
        | ok u2 =>
          cases u2
          exact ⟨r1, evs1, evs2, rfl, hrec, h3.symm⟩

theorem deleteFold_gone (q : Path) :
    ∀ (is : List Nat) (roots roots' : List SyncRoot) (evs : List Event),
    foldRoots (delStep q) is roots = (roots', evs, .ok ()) →
    (∀ r ∈ roots, RootWf r) →
    (∀ r ∈ roots, changeActionOf r q = some .deleted →
      alGet r.fs q = none ∧ alGet r.state.paths q = none) →
    roots'.length = roots.length ∧ (∀ r ∈ roots', RootWf r) ∧
    (∀ j, j ∈ is → PathGone q (roots'.getD j default)) ∧
    (∀ j, j ∉ is → roots'.getD j default = roots.getD j default) := by
  intro is
  induction is with
  | nil =>
    intro roots roots' evs h hwf hJ
    injection h with h1 h2
    subst h1
    exact ⟨rfl, hwf, fun j hj => absurd hj (List.not_mem_nil j),
      fun j _ => rfl⟩
  | cons i is ih =>
    intro roots roots' evs h hwf hJ
    obtain ⟨r1, evs1, evs2, hs, hrec, -⟩ := foldRoots_cons_inv (delStep q) i is roots roots' evs h
    by_cases hi : i < roots.length
    · have hmem : roots.getD i default ∈ roots := getD_mem_of_lt roots i default hi
      have hwfi := hwf _ hmem
      have hstep : RootWf r1 ∧ PathGone q r1 := by
        by_cases hact : changeActionOf (roots.getD i default) q = some .deleted
        · obtain ⟨habsf, habsr⟩ := hJ _ hmem hact
          unfold delStep at hs
          rw [if_pos (by simp only [beq_iff_eq]; exact hact),
            remove_change_gone _ q habsf habsr] at hs
          injection hs with h1 h2
          rw [← h1]
          exact ⟨⟨hwfi.1, hwfi.2.1, nodup_alErase _ _ hwfi.2.2.1, hwfi.2.2.2⟩,
            habsf, habsr, alGet_alErase_same _ _ hwfi.2.2.1⟩
        · unfold delStep at hs
          rw [if_neg (by simp only [beq_iff_eq]; exact hact)] at hs
          obtain ⟨hr1wf, hr1gone, -⟩ := perform_delete_props _ q r1 evs1 hs hwfi
          exact ⟨hr1wf, hr1gone⟩
      obtain ⟨hr1wf, hr1gone⟩ := hstep
      obtain ⟨hlen, hwf2, hin2, hout2⟩ := ih (roots.set i r1) roots' evs2 hrec
        (fun r hr => by
          rcases List.mem_or_eq_of_mem_set hr with hmr | hmr
          · exact hwf _ hmr
          · rw [hmr]; exact hr1wf)
        (fun r hr ha => by
          rcases List.mem_or_eq_of_mem_set hr with hmr | hmr
          · exact hJ _ hmr ha
          · rw [hmr] at ha
            simp only [changeActionOf] at ha
            rw [hr1gone.2.2] at ha
            cases ha)
      refine ⟨by rw [hlen, List.length_set], hwf2, ?_, ?_⟩
      · intro j hj
        rcases List.mem_cons.mp hj with hji | hji
        · subst hji
          by_cases hjin : j ∈ is
          · exact hin2 j hjin
          · rw [hout2 j hjin, getD_set_eq roots j r1 default hi]
            exact hr1gone
        · exact hin2 j hji
      · intro j hj
        simp only [List.mem_cons, not_or] at hj
        rw [hout2 j hj.2, getD_set_getD_self roots i j r1 default (Ne.symm hj.1)]
    · exfalso
      have hdef : roots.getD i default = default := by
        rw [List.getD_eq_default]
        exact Nat.le_of_not_lt hi
      unfold delStep at hs
      rw [hdef] at hs
      rw [if_neg (by simp [changeActionOf, alGet] : ¬ _), perform_delete_default] at hs
      injection hs with h1 h2
      injection h2 with h3 h4
      cases h4

theorem deleteFold_untouched (q x : Path) (hx : x ≠ q) :
    ∀ (is : List Nat) (roots roots' : List SyncRoot) (evs : List Event),
    foldRoots (delStep q) is roots = (roots', evs, .ok ()) →
    (∀ r ∈ roots, RootWf r) →
    roots'.length = roots.length ∧ (∀ r ∈ roots', RootWf r) ∧
    (∀ j, alGet (roots'.getD j default).fs x = alGet (roots.getD j default).fs x ∧
      alGet (roots'.getD j default).state.paths x =
        alGet (roots.getD j default).state.paths x ∧
      alGet (roots'.getD j default).changes x = alGet (roots.getD j default).changes x) := by
  intro is
  induction is with
  | nil =>
    intro roots roots' evs h hwf
    injection h with h1 h2
    subst h1
    exact ⟨rfl, hwf, fun j => ⟨rfl, rfl, rfl⟩⟩
  | cons i is ih =>
    intro roots roots' evs h hwf
    obtain ⟨r1, evs1, evs2, hs, hrec, -⟩ := foldRoots_cons_inv (delStep q) i is roots roots' evs h
    by_cases hi : i < roots.length
    · have hmem : roots.getD i default ∈ roots := getD_mem_of_lt roots i default hi
      have hwfi := hwf _ hmem
      have hstep : RootWf r1 ∧
          alGet r1.fs x = alGet (roots.getD i default).fs x ∧
          alGet r1.state.paths x = alGet (roots.getD i default).state.paths x ∧
          alGet r1.changes x = alGet (roots.getD i default).changes x := by
        by_cases hact : changeActionOf (roots.getD i default) q = some .deleted
        · unfold delStep at hs
          rw [if_pos (by simp only [beq_iff_eq]; exact hact)] at hs
          have hr1 : r1 = (remove_change (roots.getD i default) q).1 := by rw [hs]
          obtain ⟨hu1, hu2, hu3⟩ := remove_change_untouched (roots.getD i default) q x hx
          exact ⟨hr1 ▸ remove_change_wf _ q hwfi, hr1 ▸ hu1 ▸ rfl, hr1 ▸ hu2, hr1 ▸ hu3⟩
        · unfold delStep at hs
          rw [if_neg (by simp only [beq_iff_eq]; exact hact)] at hs
          obtain ⟨hr1wf, -, hunt⟩ := perform_delete_props _ q r1 evs1 hs hwfi
          obtain ⟨hu1, hu2, hu3⟩ := hunt x hx
          exact ⟨hr1wf, hu1, hu2, hu3⟩
      obtain ⟨hr1wf, hu1, hu2, hu3⟩ := hstep
      obtain ⟨hlen, hwf2, hunt2⟩ := ih (roots.set i r1) roots' evs2 hrec
        (fun r hr => by
          rcases List.mem_or_eq_of_mem_set hr with hmr | hmr
          · exact hwf _ hmr
          · rw [hmr]; exact hr1wf)
      refine ⟨by rw [hlen, List.length_set], hwf2, ?_⟩
      intro j
      obtain ⟨hv1, hv2, hv3⟩ := hunt2 j
      by_cases hij : i = j
      · subst hij
        rw [hv1, hv2, hv3, getD_set_eq roots i r1 default hi]
        exact ⟨hu1, hu2, hu3⟩
      · rw [hv1, hv2, hv3, getD_set_getD_self roots i j r1 default hij]
        exact ⟨rfl, rfl, rfl⟩
    · exfalso
      have hdef : roots.getD i default = default := by
        rw [List.getD_eq_default]
        exact Nat.le_of_not_lt hi
      unfold delStep at hs
      rw [hdef] at hs
      rw [if_neg (by simp [changeActionOf, alGet] : ¬ _), perform_delete_default] at hs
      injection hs with h1 h2
      injection h2 with h3 h4
      cases h4

theorem foldRoots_inv (step : Nat → List SyncRoot → RootStep) (Inv : List SyncRoot → Prop)
    (hstep : ∀ i rs r1 evs1, Inv rs → step i rs = (r1, evs1, .ok ()) → Inv (rs.set i r1)) :
    ∀ (is : List Nat) (rs rs' : List SyncRoot) (evs : List Event),
    foldRoots step is rs = (rs', evs, .ok ()) → Inv rs → Inv rs' := by
  intro is
  induction is with
  | nil =>
    intro rs rs' evs h hInv
    injection h with h1 h2
    subst h1
    exact hInv
  | cons i is ih =>
    intro rs rs' evs h hInv
    obtain ⟨r1, evs1, evs2, hs, hrec, -⟩ := foldRoots_cons_inv step i is rs rs' evs h
    exact ih (rs.set i r1) rs' evs2 hrec (hstep i rs r1 evs1 hInv hs)

theorem fsClosed_nil : FsClosed [] :=
  fun qe h => absurd h (List.not_mem_nil qe)

theorem default_wf : RootWf (default : SyncRoot) :=
  ⟨List.nodup_nil, List.nodup_nil, List.nodup_nil, fsClosed_nil⟩

theorem update_roots_preserve (P q : Path) (hP : P ≠ []) (hPq : P ≠ q)
    (roots roots' : List SyncRoot) (srcIdx : Nat) (evs : List Event)
    (h : update_roots roots srcIdx q = (roots', evs, .ok ()))
    (hwf : ∀ r ∈ roots, RootWf r)
    (hgone : ∀ r ∈ roots, PathGone P r) :
    (∀ r ∈ roots', RootWf r ∧ PathGone P r) := by
  have hInv := foldRoots_inv _
    (fun rs => ∀ r ∈ rs, RootWf r ∧ PathGone P r) ?_
    (List.range roots.length) roots roots' evs h
    (fun r hr => ⟨hwf r hr, hgone r hr⟩)
  · exact hInv
  · intro i rs r1 evs1 hInv hs
    have hsrc : RootWf (rs.getD srcIdx default) ∧ PathGone P (rs.getD srcIdx default) := by
      by_cases hsi : srcIdx < rs.length
      · exact hInv _ (getD_mem_of_lt rs srcIdx default hsi)
      · rw [List.getD_eq_default _ _ (Nat.le_of_not_lt hsi)]
        exact ⟨default_wf, rfl, rfl, rfl⟩
    have hcur : RootWf (rs.getD i default) ∧ PathGone P (rs.getD i default) := by
      by_cases hii : i < rs.length
      · exact hInv _ (getD_mem_of_lt rs i default hii)
      · rw [List.getD_eq_default _ _ (Nat.le_of_not_lt hii)]
        exact ⟨default_wf, rfl, rfl, rfl⟩
    have hrc : ∀ (hrceq : remove_change (rs.getD i default) q = (r1, evs1, .ok ())),
        RootWf r1 ∧ PathGone P r1 := by
      intro hrceq
      have hr1 : r1 = (remove_change (rs.getD i default) q).1 := by rw [hrceq]
      obtain ⟨hu1, hu2, hu3⟩ := remove_change_untouched (rs.getD i default) q P hPq
      subst hr1
      refine ⟨remove_change_wf _ q hcur.1, ?_, ?_, ?_⟩
      · rw [hu1]; exact hcur.2.1
      · rw [hu2]; exact hcur.2.2.1
      · rw [hu3]; exact hcur.2.2.2
    have hmain : RootWf r1 ∧ PathGone P r1 := by
      simp only [update_roots] at hs
      by_cases hisrc : i = srcIdx
      · rw [if_pos (by simp [hisrc])] at hs
        exact hrc hs
      · rw [if_neg (by simp [hisrc])] at hs
        split at hs
        · exact hrc hs
        · -- a real update is performed
          by_cases hanc : P <+: q
          · exfalso
            obtain ⟨-, -, e, hge⟩ := performCreateUpdate_props (rs.getD i default) .update q
              (rs.getD srcIdx default).fs r1 evs1 hs hcur.1 hsrc.1.2.2.2
            obtain ⟨eP, hgeP⟩ := fsClosed_chain (rs.getD srcIdx default).fs hsrc.1.2.2.2
              q.length q (Nat.le_refl _) ⟨e, hge⟩ P hanc hP
            rw [hsrc.2.1] at hgeP
            cases hgeP
          · obtain ⟨hwf1, hunt, -⟩ := performCreateUpdate_props (rs.getD i default) .update q
              (rs.getD srcIdx default).fs r1 evs1 hs hcur.1 hsrc.1.2.2.2
            obtain ⟨hu1, hu2, hu3⟩ := hunt P hanc
            refine ⟨hwf1, ?_, ?_, ?_⟩
            · rw [hu1]; exact hcur.2.1
            · rw [hu2]; exact hcur.2.2.1
            · rw [hu3]; exact hcur.2.2.2
    intro r hr
    rcases List.mem_or_eq_of_mem_set hr with hmr | hmr
    · exact hInv _ hmr
    · rw [hmr]; exact hmain

theorem sync_path_preserve (P q : Path) (hP : P ≠ []) (hPq : P ≠ q)
    (roots roots' : List SyncRoot) (evs : List Event)
    (h : sync_path roots q = (roots', evs, .ok ()))
    (hwf : ∀ r ∈ roots, RootWf r)
    (hgone : ∀ r ∈ roots, PathGone P r) :
    ∀ r ∈ roots', RootWf r ∧ PathGone P r := by
  by_cases hwd : (roots.any fun r => changeActionOf r q == some .deleted) = true
  · rw [List.any_eq_true] at hwd
    obtain ⟨r0, hr0, ha0⟩ := hwd
    rw [sync_path_deleted roots q ⟨r0, hr0, by simpa using ha0⟩] at h
    obtain ⟨hlen, hwf', hunt⟩ := deleteFold_untouched q P hPq
      (List.range roots.length) roots roots' evs h hwf
    intro r hr
    refine ⟨hwf' r hr, ?_⟩
    obtain ⟨j, hj, hget⟩ := List.mem_iff_getElem.mp hr
    have hjlt : j < roots.length := by rw [← hlen]; exact hj
    obtain ⟨hv1, hv2, hv3⟩ := hunt j
    have hgj := hgone _ (getD_mem_of_lt roots j default hjlt)
    rw [List.getD_eq_getElem roots' default hj, hget] at hv1 hv2 hv3
    exact ⟨by rw [hv1]; exact hgj.1, by rw [hv2]; exact hgj.2.1,
      by rw [hv3]; exact hgj.2.2⟩
  · rw [Bool.not_eq_true] at hwd
    unfold sync_path at h
    simp only [hwd, Bool.false_eq_true, if_false] at h
    by_cases hw0 : (roots.any fun r =>
        changeActionOf r q == some .updated || changeActionOf r q == some .created) = true
    · simp only [hw0, Bool.not_true, Bool.and_false, Bool.false_eq_true, if_false,
        if_true] at h
      rcases hgold : get_root_with_golden_copy roots q with em | srcIdx
      · rw [hgold] at h
        injection h with h1 h2
        injection h2 with h3 h4
        cases h4
      · rw [hgold] at h
        intro r hr
        exact update_roots_preserve P q hP hPq roots roots' srcIdx evs h hwf hgone r hr
    · rw [Bool.not_eq_true] at hw0
      simp only [hw0, Bool.not_false, Bool.and_self, if_true] at h
      split at h
      · rcases hgold : get_root_with_golden_copy roots q with em | srcIdx
        · rw [hgold] at h
          injection h with h1 h2
          injection h2 with h3 h4
          cases h4
        · rw [hgold] at h
          intro r hr
          exact update_roots_preserve P q hP hPq roots roots' srcIdx evs h hwf hgone r hr
      · injection h with h1 h2
        subst h1
        intro r hr
        exact ⟨hwf r hr, hgone r hr⟩

theorem sync_path_resolve (P : Path) (roots roots' : List SyncRoot) (evs : List Event)
    (h : sync_path roots P = (roots', evs, .ok ()))
    (hdel : ∃ r ∈ roots, changeActionOf r P = some .deleted)
    (hwf : ∀ r ∈ roots, RootWf r)
    (hJ : ∀ r ∈ roots, changeActionOf r P = some .deleted →
      alGet r.fs P = none ∧ alGet r.state.paths P = none) :
    (∀ r ∈ roots', RootWf r) ∧ (∀ r ∈ roots', PathGone P r) := by
  rw [sync_path_deleted roots P hdel] at h
  obtain ⟨hlen, hwf', hin, -⟩ :=
    deleteFold_gone P (List.range roots.length) roots roots' evs h hwf hJ
  refine ⟨hwf', ?_⟩
  intro r hr
  obtain ⟨j, hj, hget⟩ := List.mem_iff_getElem.mp hr
  have hjlt : j < roots.length := by rw [← hlen]; exact hj
  have := hin j (List.mem_range.mpr hjlt)
  rwa [List.getD_eq_getElem roots' default hj, hget] at this

theorem sync_path_J (P q : Path) (hPq : P ≠ q) (roots roots' : List SyncRoot)
    (evs : List Event)
    (h : sync_path roots q = (roots', evs, .ok ()))
    (hdelq : ∃ r ∈ roots, changeActionOf r q = some .deleted)
    (hwf : ∀ r ∈ roots, RootWf r)
    (hJ1 : ∃ r ∈ roots, changeActionOf r P = some .deleted)
    (hJ2 : ∀ r ∈ roots, changeActionOf r P = some .deleted →
      alGet r.fs P = none ∧ alGet r.state.paths P = none) :
    (∀ r ∈ roots', RootWf r) ∧
    (∃ r ∈ roots', changeActionOf r P = some .deleted) ∧
    (∀ r ∈ roots', changeActionOf r P = some .deleted →
      alGet r.fs P = none ∧ alGet r.state.paths P = none) := by
  rw [sync_path_deleted roots q hdelq] at h
  obtain ⟨hlen, hwf', hunt⟩ := deleteFold_untouched q P hPq
    (List.range roots.length) roots roots' evs h hwf
  refine ⟨hwf', ?_, ?_⟩
  · obtain ⟨r0, hr0, ha0⟩ := hJ1
    obtain ⟨j, hj, hget⟩ := List.mem_iff_getElem.mp hr0
    have hjlt' : j < roots'.length := by rw [hlen]; exact hj
    refine ⟨roots'.getD j default, getD_mem_of_lt roots' j default hjlt', ?_⟩
    have := (hunt j).2.2
    rw [List.getD_eq_getElem roots default hj, hget] at this
    simp only [changeActionOf] at ha0 ⊢
    rw [this]
    exact ha0
  · intro r hr ha
    obtain ⟨j, hj, hget⟩ := List.mem_iff_getElem.mp hr
    have hjlt : j < roots.length := by rw [← hlen]; exact hj
    obtain ⟨hv1, hv2, hv3⟩ := hunt j
    rw [List.getD_eq_getElem roots' default hj, hget] at hv1 hv2 hv3
    have haorig : changeActionOf (roots.getD j default) P = some .deleted := by
      simp only [changeActionOf] at ha ⊢
      rw [← hv3]
      exact ha
    obtain ⟨hf, hrc⟩ := hJ2 _ (getD_mem_of_lt roots j default hjlt) haorig
    exact ⟨by rw [hv1]; exact hf, by rw [hv2]; exact hrc⟩

theorem write_state_fields (r r1 : SyncRoot) (evs : List Event)
    (h : write_state r = (r1, evs, .ok ())) :
    r1.fs = r.fs ∧ r1.state.paths = r.state.paths ∧ r1.changes = r.changes := by
  unfold write_state at h
  by_cases hch : r.changes = []
  · rw [if_neg (by simp [hch])] at h
    by_cases hm : r.state.modified
    · rw [if_pos hm] at h
      injection h with h1 h2
      rw [← h1]
      exact ⟨rfl, rfl, rfl⟩
    · rw [if_neg hm] at h
      injection h with h1 h2
      rw [← h1]
      exact ⟨rfl, rfl, rfl⟩
  · rw [if_pos (by simpa using hch)] at h
    injection h with h1 h2
    injection h2 with h3 h4
    cases h4

theorem writeFold_gone (P : Path) (is : List Nat) (roots roots' : List SyncRoot)
    (evs : List Event)
    (h : foldRoots (fun i rs => write_state (rs.getD i default)) is roots =
      (roots', evs, .ok ()))
    (hgone : ∀ r ∈ roots, PathGone P r) :
    ∀ r ∈ roots', PathGone P r := by
  refine foldRoots_inv _ (fun rs => ∀ r ∈ rs, PathGone P r) ?_ is roots roots' evs h hgone
  intro i rs r1 evs1 hInv hs
  obtain ⟨hf, hp, hc⟩ := write_state_fields _ r1 evs1 hs
  have hcur : PathGone P (rs.getD i default) := by
    by_cases hii : i < rs.length
    · exact hInv _ (getD_mem_of_lt rs i default hii)
    · rw [List.getD_eq_default _ _ (Nat.le_of_not_lt hii)]
      exact ⟨rfl, rfl, rfl⟩
  intro r hr
  rcases List.mem_or_eq_of_mem_set hr with hmr | hmr
  · exact hInv _ hmr
  · rw [hmr]
    exact ⟨by rw [hf]; exact hcur.1, by rw [hp]; exact hcur.2.1, by rw [hc]; exact hcur.2.2⟩

theorem mem_allChanges_of_action (roots : List SyncRoot) (r : SyncRoot) (P : Path)
    (a : Action) (hr : r ∈ roots) (ha : changeActionOf r P = some a) :
    ∃ st, (P, a, st) ∈ allChanges roots := by
  unfold changeActionOf at ha
  rw [Option.map_eq_some'] at ha
  obtain ⟨pr, hpr, hfst⟩ := ha
  refine ⟨pr.2, ?_⟩
  have hmem : (P, pr) ∈ r.changes := mem_of_alGet _ _ _ hpr
  have : (P, a, pr.2) = (P, pr) := by
    rw [← hfst]
  rw [this]
  unfold allChanges
  exact List.mem_flatMap.mpr ⟨r, hr, hmem⟩

theorem selected_has_change (roots : List SyncRoot) (q : Path)
    (hq : get_changed_path roots = some q) :
    ∃ r ∈ roots, (alGet r.changes q).isSome := by
  obtain ⟨a, st, hmem, -⟩ := get_changed_path_min roots q hq
  unfold allChanges at hmem
  obtain ⟨r, hr, hmemr⟩ := List.mem_flatMap.mp hmem
  refine ⟨r, hr, ?_⟩
  obtain ⟨v, hv⟩ := alGet_isSome_of_mem r.changes q
    (List.mem_map.mpr ⟨(q, a, st), hmemr, rfl⟩)
  rw [hv]
  rfl

theorem selected_deleted (roots : List SyncRoot) (q : Path)
    (hq : get_changed_path roots = some q)
    (hwf : ∀ r ∈ roots, RootWf r)
    (P : Path) (rP : SyncRoot) (hrP : rP ∈ roots)
    (haP : changeActionOf rP P = some .deleted) :
    ∃ r ∈ roots, changeActionOf r q = some .deleted := by
  obtain ⟨stP, hPmem⟩ := mem_allChanges_of_action roots rP P .deleted hrP haP
  obtain ⟨st, hmem⟩ := get_changed_path_deleted roots q hq P stP hPmem
  unfold allChanges at hmem
  obtain ⟨r, hr, hmemr⟩ := List.mem_flatMap.mp hmem
  refine ⟨r, hr, ?_⟩
  have := alGet_of_mem_nodup r.changes q (.deleted, st) hmemr (hwf r hr).2.2.1
  unfold changeActionOf
  rw [this]
  rfl

theorem syncLoop_delete_wins (P : Path) :
    ∀ (fuel : Nat) (counter : List (Path × Nat)) (roots roots1 : List SyncRoot)
      (evs1 : List Event) (c1 : List (Path × Nat)),
    syncLoopGo idEnv fuel counter roots = ((roots1, evs1, c1), .ok ()) →
    (∀ p, Event.warned p ∉ evs1) →
    P ≠ [] →
    (∀ r ∈ roots, RootWf r) →
    ((∀ r ∈ roots, PathGone P r) ∨
      ((∃ r ∈ roots, changeActionOf r P = some .deleted) ∧
        ∀ r ∈ roots, changeActionOf r P = some .deleted →
          alGet r.fs P = none ∧ alGet r.state.paths P = none)) →
    (∀ r ∈ roots1, RootWf r) ∧ (∀ r ∈ roots1, PathGone P r) ∧
      get_changed_path roots1 = none := by
  intro fuel
  induction fuel with
  | zero =>
    intro counter roots roots1 evs1 c1 h
    injection h with h1 h2
    cases h2
  | succ fuel ih =>
    intro counter roots roots1 evs1 c1 h hnw hP hwf hK
    unfold syncLoopGo at h
    simp only [idEnv] at h
    cases hgp : get_changed_path roots with
    | none =>
      simp only [hgp] at h
      injection h with h1 h2
      injection h1 with h3 h4
      injection h4 with h5 h6
      subst h3
      have hInv : ∀ r ∈ roots, PathGone P r := by
        rcases hK with hInv | ⟨⟨r0, hr0, ha0⟩, -⟩
        · exact hInv
        · exfalso
          obtain ⟨st0, hmem0⟩ := mem_allChanges_of_action roots r0 P .deleted hr0 ha0
          rw [(get_changed_path_none_iff roots).mp hgp] at hmem0
          exact absurd hmem0 (List.not_mem_nil _)
      exact ⟨hwf, hInv, hgp⟩
    | some q =>
      simp only [hgp] at h
      by_cases hn : (alGet counter q).getD 0 + 1 > 10
      · rw [if_pos hn] at h
        injection h with h1 h2
        injection h1 with h3 h4
        injection h4 with h5 h6
        exfalso
        exact hnw q (by rw [← h5]; exact List.mem_cons_self _ _)
      · rw [if_neg hn] at h
        cases hsp : sync_path roots q with
        | mk rootsA restA =>
          obtain ⟨evsA, excA⟩ := restA
          simp only [hsp] at h
          cases excA with
          | error e =>
            injection h with h1 h2
            cases h2
          | ok u =>
            cases u
            cases hlp : syncLoopGo idEnv fuel (alSet counter q ((alGet counter q).getD 0 + 1))
                rootsA with
            | mk resB excB =>
              obtain ⟨rootsB, evsB, cB⟩ := resB
              simp only [hlp] at h
              injection h with h1 h2
              injection h1 with h3 h4
              injection h4 with h5 h6
              subst h3
              cases excB with
              | error e => cases h2
              | ok u2 =>
                have hnwB : ∀ p, Event.warned p ∉ evsB := by
                  intro p hp
                  exact hnw p (by rw [← h5]; exact List.mem_append_right _ hp)
                rcases hK with hInv | ⟨hJ1, hJ2⟩
                · have hqP : P ≠ q := by
                    intro he
                    subst he
                    obtain ⟨r0, hr0, hs0⟩ := selected_has_change roots P hgp
                    rw [(hInv r0 hr0).2.2] at hs0
                    cases hs0
                  have hpres := sync_path_preserve P q hP hqP roots rootsA evsA hsp hwf hInv
                  exact ih _ rootsA rootsB evsB cB hlp hnwB hP
                    (fun r hr => (hpres r hr).1) (Or.inl fun r hr => (hpres r hr).2)
                · obtain ⟨rP, hrP, haP⟩ := hJ1
                  have hdelq := selected_deleted roots q hgp hwf P rP hrP haP
                  by_cases hqP : q = P
                  · subst hqP
                    obtain ⟨hwfA, hgoneA⟩ := sync_path_resolve q roots rootsA evsA hsp
                      hdelq hwf hJ2
                    exact ih _ rootsA rootsB evsB cB hlp hnwB hP hwfA (Or.inl hgoneA)
                  · obtain ⟨hwfA, hJ1A, hJ2A⟩ := sync_path_J P q
                      (fun he => hqP he.symm) roots rootsA evsA hsp hdelq hwf ⟨rP, hrP, haP⟩ hJ2
                    exact ih _ rootsA rootsB evsB cB hlp hnwB hP hwfA (Or.inr ⟨hJ1A, hJ2A⟩)

theorem catchUpPaths_preserve (P : Path) (hP : P ≠ []) :
    ∀ (ps : List Path) (counter : List (Path × Nat)) (roots roots1 : List SyncRoot)
      (evs : List Event) (c1 : List (Path × Nat)),
    catchUpPaths counter roots ps = ((roots1, evs, c1), .ok ()) →
    (∀ p ∈ ps, p ≠ P) →
    (∀ r ∈ roots, RootWf r) →
    (∀ r ∈ roots, PathGone P r) →
    (∀ r ∈ roots1, RootWf r) ∧ (∀ r ∈ roots1, PathGone P r) := by
  intro ps
  induction ps with
  | nil =>
    intro counter roots roots1 evs c1 h hps hwf hgone
    injection h with h1 h2
    injection h1 with h3 h4
    subst h3
    exact ⟨hwf, hgone⟩
  | cons p ps ih =>
    intro counter roots roots1 evs c1 h hps hwf hgone
    unfold catchUpPaths at h
    by_cases hc : (alGet counter p).isSome
    · rw [if_pos hc] at h
      exact ih counter roots roots1 evs c1 h
        (fun x hx => hps x (List.mem_cons_of_mem p hx)) hwf hgone
    · rw [if_neg hc] at h
      cases hsp : sync_path roots p with
      | mk rootsA restA =>
        obtain ⟨evsA, excA⟩ := restA
        simp only [hsp] at h
        cases excA with
        | error e =>
          injection h with h1 h2
          cases h2
        | ok u =>
          cases u
          cases hcp : catchUpPaths (alSet counter p ((alGet counter p).getD 0 + 1))
              rootsA ps with
          | mk resB excB =>
            obtain ⟨rootsB, evsB, cB⟩ := resB
            simp only [hcp] at h
            injection h with h1 h2
            injection h1 with h3 h4
            subst h3
            cases excB with
            | error e => cases h2
            | ok u2 =>
              have hpP : P ≠ p := fun he => hps p (List.mem_cons_self p ps) he.symm
              have hpres := sync_path_preserve P p hP hpP roots rootsA evsA hsp hwf hgone
              exact ih _ rootsA rootsB evsB cB hcp
                (fun x hx => hps x (List.mem_cons_of_mem p hx))
                (fun r hr => (hpres r hr).1) (fun r hr => (hpres r hr).2)

theorem catchUpGo_preserve (P : Path) (hP : P ≠ []) :
    ∀ (is : List Nat) (counter : List (Path × Nat)) (roots roots1 : List SyncRoot)
      (evs : List Event) (c1 : List (Path × Nat)),
    catchUpGo counter roots is = ((roots1, evs, c1), .ok ()) →
    (∀ r ∈ roots, RootWf r) →
    (∀ r ∈ roots, PathGone P r) →
    (∀ r ∈ roots1, RootWf r) ∧ (∀ r ∈ roots1, PathGone P r) := by
  intro is
  induction is with
  | nil =>
    intro counter roots roots1 evs c1 h hwf hgone
    injection h with h1 h2
    injection h1 with h3 h4
    subst h3
    exact ⟨hwf, hgone⟩
  | cons i is ih =>
    intro counter roots roots1 evs c1 h hwf hgone
    unfold catchUpGo at h
    have hps : ∀ p ∈ (roots.getD i default).state.pathsList, p ≠ P := by
      intro p hp he
      subst he
      have hgonei : PathGone p (roots.getD i default) := by
        by_cases hii : i < roots.length
        · exact hgone _ (getD_mem_of_lt roots i default hii)
        · rw [List.getD_eq_default _ _ (Nat.le_of_not_lt hii)]
          exact ⟨rfl, rfl, rfl⟩
      unfold SyncState.pathsList at hp
      obtain ⟨v, hv⟩ := alGet_isSome_of_mem _ p hp
      rw [hgonei.2.1] at hv
      cases hv
    cases hcp : catchUpPaths counter roots (roots.getD i default).state.pathsList with
    | mk resA excA =>
      obtain ⟨rootsA, evsA, cA⟩ := resA
      simp only [hcp] at h
      cases excA with
      | error e =>
        injection h with h1 h2
        cases h2
      | ok u =>
        cases u
        obtain ⟨hwfA, hgoneA⟩ := catchUpPaths_preserve P hP _ counter roots rootsA evsA cA
          hcp hps hwf hgone
        cases hgo : catchUpGo cA rootsA is with
        | mk resB excB =>
          obtain ⟨rootsB, evsB, cB⟩ := resB
          simp only [hgo] at h
          injection h with h1 h2
          injection h1 with h3 h4
          subst h3
          cases excB with
          | error e => cases h2
          | ok u2 =>
            exact ih cA rootsA rootsB evsB cB hgo hwfA hgoneA

/-- Claim C1.  Delete wins over simultaneous update/creation.  When some
root holds a pending `deleted` change for `P`, resolving `P` takes the
delete branch of `_sync_path`: every root whose pending action is not
itself `deleted` gets the delete operation performed, the roots already
showing `deleted` are merely re-inspected, and no golden-copy propagation
is consulted (first conjunct, with the branch body spelled out).  And for
every `sync()` call that returns normally without hitting the
ten-visits warning cap, starting from well-formed roots where the
`deleted`-holding roots indeed lack `P` on disk and in their records, `P`
ends absent from every root's tree, stored records and pending changes
(second conjunct). -/
theorem C1_delete_wins (P : Path) (fuel : Nat) (roots roots' : List SyncRoot)
    (evs : List Event)
    (hP : P ≠ [])
    (hwf : ∀ r ∈ roots, RootWf r)
    (hdel : ∃ r ∈ roots, changeActionOf r P = some .deleted)
    (hcons : ∀ r ∈ roots, changeActionOf r P = some .deleted →
      alGet r.fs P = none ∧ alGet r.state.paths P = none)
    (hrun : sync idEnv false fuel roots = ((roots', evs), .ok ()))
    (hnowarn : ∀ q, Event.warned q ∉ evs) :
    (sync_path roots P = foldRoots (delStep P) (List.range roots.length) roots ∧
      ∀ i rs, delStep P i rs =
        if changeActionOf (rs.getD i default) P == some .deleted
        then remove_change (rs.getD i default) P
        else perform_delete (rs.getD i default) P) ∧
    ∀ r ∈ roots', alGet r.fs P = none ∧ alGet r.state.paths P = none ∧
      alGet r.changes P = none := by
  refine ⟨⟨sync_path_deleted roots P hdel, fun i rs => rfl⟩, ?_⟩
  unfold sync at hrun
  cases hlp : syncLoopGo idEnv fuel [] roots with
  | mk resA excA =>
    obtain ⟨rootsA, evsA, counter⟩ := resA
    rw [hlp] at hrun
    cases excA with
    | error e =>
      injection hrun with h1 h2
      cases h2
    | ok u =>
      cases u
      simp only [Bool.false_eq_true, if_false] at hrun
      cases hcg : catchUpGo counter rootsA (List.range rootsA.length) with
      | mk resB excB =>
        obtain ⟨rootsB, evsB, cB⟩ := resB
        simp only [hcg] at hrun
        cases excB with
        | error e =>
          injection hrun with h1 h2
          cases h2
        | ok u2 =>
          cases u2
          cases hwr : foldRoots (fun i rs => write_state (rs.getD i default))
              (List.range rootsB.length) rootsB with
          | mk rootsC restC =>
            obtain ⟨evsC, excC⟩ := restC
            simp only [hwr] at hrun
            injection hrun with h1 h2
            injection h1 with h3 h4
            subst h3
            cases excC with
            | error e => cases h2
            | ok u3 =>
              have hnwA : ∀ p, Event.warned p ∉ evsA := by
                intro p hp
                refine hnowarn p ?_
                rw [← h4]
                exact List.mem_append_left _ (List.mem_append_left _ hp)
              obtain ⟨hwfA, hgoneA, -⟩ := syncLoop_delete_wins P fuel [] roots rootsA
                evsA counter hlp hnwA hP hwf (Or.inr ⟨hdel, hcons⟩)
              obtain ⟨hwfB, hgoneB⟩ := catchUpGo_preserve P hP
                (List.range rootsA.length) counter rootsA rootsB evsB cB hcg hwfA hgoneA
              have hgoneC := writeFold_gone P (List.range rootsB.length) rootsB rootsC
                evsC hwr hgoneB
              intro r hr
              exact hgoneC r hr

/-- Claim C1, witness: the theorem applied to a concrete pair of roots,
root `a` holding the pending `deleted` change for `d` and root `b` still
holding `d` live and recorded; after the sync both are empty. -/
theorem C1_witness :
    (sync_path [c1A, c1B] ["d"] =
      foldRoots (delStep ["d"]) (List.range [c1A, c1B].length) [c1A, c1B] ∧
      ∀ i rs, delStep ["d"] i rs =
        if changeActionOf (rs.getD i default) ["d"] == some .deleted
        then remove_change (rs.getD i default) ["d"]
        else perform_delete (rs.getD i default) ["d"]) ∧
    ∀ r ∈ [{ c1A with changes := [] },
           { c1B with fs := [], state := { paths := [], modified := false } }],
      alGet r.fs ["d"] = none ∧ alGet r.state.paths ["d"] = none ∧
        alGet r.changes ["d"] = none :=
  C1_delete_wins ["d"] 10 [c1A, c1B]
    [{ c1A with changes := [] },
     { c1B with fs := [], state := { paths := [], modified := false } }]
    [Event.performed ["b"] .delete ["d"]]
    (by decide) (by decide) (by decide) (by decide) (by decide) (by simp)

end JustSync
